import Mathlib

/-!
# learn-go: the capstone job engine, the channel-backed gate, discount codes

A shallow embedding of `series/40/cmd/capstone/main.go` (flags, configuration
validation, the producer / worker pool / aggregator of `run`, the log lines of
`main`), of the buffered-channel semaphore of `series/21/cmd/chanlab/main.go`
and `series/19/cmd/gorun/main.go`, and of `series/34/pricing/pricing.go`.

Sequential code is embedded as functions.  The goroutines of `run` are
embedded as a labelled transition system: a state records where every
goroutine stands, an event is one scheduling decision (one channel rendezvous,
one select case, one close), and `step` is the executable transition function.
Wall-clock readings (`cost`, `Elapsed`) are supplied by the event that takes
them.  Go `int` values are unbounded integers here: the counters of `Summary`
never exceed `cfg.Jobs`, and the producer's loop variable reaches at most
`cfg.Jobs + 1`, which leaves the 64-bit range only for `cfg.Jobs = 2^63 - 1`,
after 2^63 - 1 hand-overs of at least 80ms each.
-/

namespace Capstone

/-! ## Error values -/

/-- Go error values as far as the engine can tell them apart: the two sentinel
errors of package `context`, the package variable `errJobFailed`, any other
value made by `errors.New`, and an error made by `fmt.Errorf` with `%w`
around another one (its text and the error it wraps). -/
inductive GoError where
  | contextCanceled
  | contextDeadlineExceeded
  | errJobFailed
  | new (text : String)
  | wrap (text : String) (inner : GoError)
  deriving DecidableEq, Repr

/-- The method `Error()`: the text of an error. -/
def GoError.Error : GoError → String
  | .contextCanceled => "context canceled"
  | .contextDeadlineExceeded => "context deadline exceeded"
  | .errJobFailed => "job failed"
  | .new text => text
  | .wrap text _ => text

/-- The call `fmt.Errorf("job %d: %w", id, err)`. -/
def errorfJob (id : Int) (err : GoError) : GoError :=
  .wrap ("job " ++ toString id ++ ": " ++ err.Error) err

/-- The function `errors.Is(err, target)`: walk the `Unwrap` chain of `err`
and compare each link with `target`. -/
def errorsIs : GoError → GoError → Bool
  | .wrap f inner, target => decide (GoError.wrap f inner = target) || errorsIs inner target
  | e, target => decide (e = target)

/-- An optional error: `none` is Go's `nil`. -/
abbrev Err := Option GoError

/-! ## Data -/

/-- The struct `Config`; `Timeout` is a `time.Duration` in nanoseconds. -/
structure Config where
  Jobs : Int
  Workers : Int
  Timeout : Int
  deriving DecidableEq, Repr

/-- The struct `Summary`. -/
structure Summary where
  Jobs : Int
  Handled : Int
  Failed : Int
  Canceled : Int
  Elapsed : Int
  deriving DecidableEq, Repr

/-- The struct `result`. -/
structure result where
  id : Int
  err : Err
  cost : Int
  deriving DecidableEq, Repr

/-- The function `validateConfig`. -/
def validateConfig (cfg : Config) : Err :=
  if cfg.Jobs ≤ 0 then some (.new "jobs must be positive")
  else if cfg.Workers ≤ 0 then some (.new "workers must be positive")
  else if cfg.Timeout ≤ 0 then some (.new "timeout must be positive")
  else none

/-- The test `errors.Is(err, context.DeadlineExceeded) || errors.Is(err, context.Canceled)`
used by the aggregator and by the worker's log switch. -/
def isCancellation (e : GoError) : Bool :=
  errorsIs e .contextDeadlineExceeded || errorsIs e .contextCanceled

/-- The body of the aggregator loop `for res := range results` in `run`. -/
def aggregate (summary : Summary) (res : result) : Summary :=
  let summary := { summary with Handled := summary.Handled + 1 }
  match res.err with
  | none => summary
  | some e =>
    if isCancellation e then { summary with Canceled := summary.Canceled + 1 }
    else { summary with Failed := summary.Failed + 1 }

/-- The two cases of the select in `processJob`. -/
inductive SelectCase where
  | ctxDone
  | timerC
  deriving DecidableEq, Repr

/-- The function `processJob(ctx, id)`, given the case its select takes and the
value of `ctx.Err()`; the outer `none` says that the case is not ready (the
context is not done).  After the timer the job fails exactly when
`id % 9 == 0`. -/
def processJob (ctxErr : Err) (id : Int) : SelectCase → Option Err
  | .ctxDone =>
    match ctxErr with
    | some e => some (some e)
    | none => none
  | .timerC =>
    if Int.tmod id 9 = 0 then some (some (errorfJob id .errJobFailed))
    else some none

/-! ## The goroutines of `run` -/

/-- Where a worker goroutine stands. -/
inductive WorkerSt where
  /-- blocked in `for jobID := range jobs` -/
  | recvJob
  /-- inside `processJob(ctx, jobID)`, at its select -/
  | inProcessJob (jobID : Int)
  /-- blocked in `results <- result{...}` -/
  | sendResult (res : result)
  /-- the loop has ended and the deferred `wg.Done()` has run -/
  | exited
  deriving DecidableEq, Repr

/-- Why a context is done: its deadline passed or `cancel()` was called. -/
inductive CancelCause where
  | deadline
  | cancelCall
  deriving DecidableEq, Repr

/-- The value of `ctx.Err()` once the context is done. -/
def CancelCause.err : CancelCause → GoError
  | .deadline => .contextDeadlineExceeded
  | .cancelCall => .contextCanceled

/-- One scheduling decision. -/
inductive Event where
  /-- the context becomes done -/
  | cancel (cause : CancelCause)
  /-- the producer's case `jobs <- i` meets the receive of worker `w` -/
  | jobsSend (w : Nat)
  /-- the producer's case `<-ctx.Done()`: return, then the deferred `close(jobs)` -/
  | producerCtxDone
  /-- the producer's loop condition `i <= cfg.Jobs` fails: the deferred `close(jobs)` -/
  | producerLoopEnd
  /-- the case `<-timer.C` in the `processJob` call of worker `w` -/
  | jobTimer (w : Nat) (cost : Int)
  /-- the case `<-ctx.Done()` in the `processJob` call of worker `w` -/
  | jobCtxDone (w : Nat) (cost : Int)
  /-- the send `results <- result{...}` of worker `w` meets the aggregator's receive -/
  | resultsSend (w : Nat)
  /-- worker `w` finds `jobs` closed, leaves its loop and runs `wg.Done()` -/
  | workerExit (w : Nat)
  /-- the closer goroutine: `wg.Wait()` returns, then `close(results)` -/
  | closeResults
  /-- the aggregator finds `results` closed, sets `Elapsed` and returns -/
  | aggregatorReturn (elapsed : Int)
  deriving DecidableEq, Repr

/-- The state of one call of `run`.  `dispatched` and `delivered` are history
variables: the hand-overs on `jobs` (job id, receiving worker) and the results
consumed by the aggregator, both in order. -/
structure RunState where
  cfg : Config
  ctxErr : Err
  i : Int
  jobsClosed : Bool
  workers : List WorkerSt
  wg : Nat
  resultsClosed : Bool
  summary : Summary
  returned : Option Summary
  dispatched : List (Int × Nat)
  delivered : List result
  deriving DecidableEq, Repr

/-- The state of `run` once its three `go` statements have run: `cfg.Workers`
workers wait on `jobs`, the wait group counts them, the producer is at `i := 1`
and the aggregator holds `Summary{Jobs: cfg.Jobs}`. -/
def init (cfg : Config) : RunState where
  cfg := cfg
  ctxErr := none
  i := 1
  jobsClosed := false
  workers := List.replicate cfg.Workers.toNat .recvJob
  wg := cfg.Workers.toNat
  resultsClosed := false
  summary := ⟨cfg.Jobs, 0, 0, 0, 0⟩
  returned := none
  dispatched := []
  delivered := []

/-- The transition function: `none` when the event is not enabled. -/
def step (s : RunState) : Event → Option RunState
  | .cancel cause =>
    match s.ctxErr with
    | none => some { s with ctxErr := some cause.err }
    | some _ => none
  | .jobsSend w =>
    if s.jobsClosed = false ∧ s.i ≤ s.cfg.Jobs then
      match s.workers[w]? with
      | some .recvJob =>
        some { s with
          i := s.i + 1
          workers := s.workers.set w (.inProcessJob s.i)
          dispatched := s.dispatched ++ [(s.i, w)] }
      | _ => none
    else none
  | .producerCtxDone =>
    if s.jobsClosed = false ∧ s.i ≤ s.cfg.Jobs ∧ s.ctxErr ≠ none then
      some { s with jobsClosed := true }
    else none
  | .producerLoopEnd =>
    if s.jobsClosed = false ∧ ¬ s.i ≤ s.cfg.Jobs then
      some { s with jobsClosed := true }
    else none
  | .jobTimer w cost =>
    match s.workers[w]? with
    | some (.inProcessJob jobID) =>
      match processJob s.ctxErr jobID .timerC with
      | some err => some { s with workers := s.workers.set w (.sendResult ⟨jobID, err, cost⟩) }
      | none => none
    | _ => none
  | .jobCtxDone w cost =>
    match s.workers[w]? with
    | some (.inProcessJob jobID) =>
      match processJob s.ctxErr jobID .ctxDone with
      | some err => some { s with workers := s.workers.set w (.sendResult ⟨jobID, err, cost⟩) }
      | none => none
    | _ => none
  | .resultsSend w =>
    if s.resultsClosed = false ∧ s.returned = none then
      match s.workers[w]? with
      | some (.sendResult res) =>
        some { s with
          workers := s.workers.set w .recvJob
          summary := aggregate s.summary res
          delivered := s.delivered ++ [res] }
      | _ => none
    else none
  | .workerExit w =>
    if s.jobsClosed = true then
      match s.workers[w]? with
      | some .recvJob => some { s with workers := s.workers.set w .exited, wg := s.wg - 1 }
      | _ => none
    else none
  | .closeResults =>
    if s.wg = 0 ∧ s.resultsClosed = false then some { s with resultsClosed := true }
    else none
  | .aggregatorReturn elapsed =>
    if s.resultsClosed = true ∧ s.returned = none then
      some { s with returned := some { s.summary with Elapsed := elapsed } }
    else none

/-- Run a schedule from a state; `none` when some event of it is not enabled. -/
def exec (s : RunState) : List Event → Option RunState
  | [] => some s
  | e :: es =>
    match step s e with
    | some s' => exec s' es
    | none => none

/-- The job ids a worker holds: the job it is processing or whose result it is
about to send. -/
def WorkerSt.jobIds : WorkerSt → List Int
  | .inProcessJob jobID => [jobID]
  | .sendResult res => [res.id]
  | _ => []

/-- The job ids in flight: received by a worker, result not yet delivered. -/
def inFlight (s : RunState) : List Int :=
  s.workers.flatMap WorkerSt.jobIds

/-- The number of delivered results that carry no error. -/
def succeeded (s : RunState) : Int :=
  (s.delivered.filter (fun r => r.err.isNone)).length

/-- An event of the cancel signal. -/
def Event.isCancel : Event → Bool
  | .cancel _ => true
  | _ => false

/-! ## Termination measure, relational view and invariant -/

/-- The steps a worker still has to take before it has exited. -/
def WorkerSt.weight : WorkerSt → Nat
  | .recvJob => 1
  | .inProcessJob _ => 3
  | .sendResult _ => 2
  | .exited => 0

/-- An upper bound on the number of events still possible from a state. -/
def measure (s : RunState) : Nat :=
  (if s.ctxErr = none then 1 else 0)
  + (if s.jobsClosed = true then 0 else 3 * (s.cfg.Jobs + 1 - s.i).toNat + 1)
  + (s.workers.map WorkerSt.weight).sum
  + (if s.resultsClosed = true then 0 else 1)
  + (if s.returned = none then 1 else 0)

/-- The transition function as a relation, with the worker list split at the
worker that moves. -/
inductive Step : RunState → Event → RunState → Prop
  | cancel (s : RunState) (c : CancelCause) (h : s.ctxErr = none) :
    Step s (.cancel c) { s with ctxErr := some c.err }
  | jobsSend (s : RunState) (l1 l2 : List WorkerSt) (hc : s.jobsClosed = false)
    (hi : s.i ≤ s.cfg.Jobs) (hw : s.workers = l1 ++ .recvJob :: l2) :
    Step s (.jobsSend l1.length) { s with
      i := s.i + 1
      workers := l1 ++ .inProcessJob s.i :: l2
      dispatched := s.dispatched ++ [(s.i, l1.length)] }
  | producerCtxDone (s : RunState) (hc : s.jobsClosed = false) (hi : s.i ≤ s.cfg.Jobs)
    (hx : s.ctxErr ≠ none) :
    Step s .producerCtxDone { s with jobsClosed := true }
  | producerLoopEnd (s : RunState) (hc : s.jobsClosed = false) (hi : ¬ s.i ≤ s.cfg.Jobs) :
    Step s .producerLoopEnd { s with jobsClosed := true }
  | jobTimer (s : RunState) (l1 l2 : List WorkerSt) (jobID cost : Int) (err : Err)
    (hw : s.workers = l1 ++ .inProcessJob jobID :: l2)
    (hp : processJob s.ctxErr jobID .timerC = some err) :
    Step s (.jobTimer l1.length cost)
      { s with workers := l1 ++ .sendResult ⟨jobID, err, cost⟩ :: l2 }
  | jobCtxDone (s : RunState) (l1 l2 : List WorkerSt) (jobID cost : Int) (err : Err)
    (hw : s.workers = l1 ++ .inProcessJob jobID :: l2)
    (hp : processJob s.ctxErr jobID .ctxDone = some err) :
    Step s (.jobCtxDone l1.length cost)
      { s with workers := l1 ++ .sendResult ⟨jobID, err, cost⟩ :: l2 }
  | resultsSend (s : RunState) (l1 l2 : List WorkerSt) (res : result)
    (hc : s.resultsClosed = false) (hr : s.returned = none)
    (hw : s.workers = l1 ++ .sendResult res :: l2) :
    Step s (.resultsSend l1.length) { s with
      workers := l1 ++ .recvJob :: l2
      summary := aggregate s.summary res
      delivered := s.delivered ++ [res] }
  | workerExit (s : RunState) (l1 l2 : List WorkerSt) (hc : s.jobsClosed = true)
    (hw : s.workers = l1 ++ .recvJob :: l2) :
    Step s (.workerExit l1.length) { s with workers := l1 ++ .exited :: l2, wg := s.wg - 1 }
  | closeResults (s : RunState) (hwg : s.wg = 0) (hc : s.resultsClosed = false) :
    Step s .closeResults { s with resultsClosed := true }
  | aggregatorReturn (s : RunState) (elapsed : Int) (hc : s.resultsClosed = true)
    (hr : s.returned = none) :
    Step s (.aggregatorReturn elapsed)
      { s with returned := some { s.summary with Elapsed := elapsed } }

/-- The job ids 1, 2, ..., n in ascending order. -/
def idsUpTo (n : Nat) : List Int := (List.range' 1 n).map Int.ofNat

/-- The aggregator's test on an optional error: non-nil and a cancellation. -/
def isCancelErr : Err → Bool
  | some g => isCancellation g
  | none => false

/-- What holds in every state of `run` reachable from `init`. -/
structure Inv (s : RunState) : Prop where
  jobs : s.summary.Jobs = s.cfg.Jobs
  handled : s.summary.Handled = s.delivered.length
  split3 : s.summary.Handled = succeeded s + s.summary.Failed + s.summary.Canceled
  i_pos : 1 ≤ s.i
  i_le : s.i ≤ max s.cfg.Jobs 0 + 1
  disp : s.dispatched.map Prod.fst = idsUpTo (s.i - 1).toNat
  conserve : (s.delivered.map result.id ++ inFlight s).Perm (s.dispatched.map Prod.fst)
  nworkers : s.workers.length = s.cfg.Workers.toNat
  wg_eq : s.wg = s.workers.countP (fun st => decide (st ≠ .exited))
  exited_closed : s.jobsClosed = false → WorkerSt.exited ∉ s.workers
  closed_wg : s.resultsClosed = true → s.wg = 0
  returned_eq : ∀ sm, s.returned = some sm →
    s.resultsClosed = true ∧ sm = { s.summary with Elapsed := sm.Elapsed }
  nocancel : s.ctxErr = none →
    s.summary.Canceled = 0 ∧
    (∀ res, WorkerSt.sendResult res ∈ s.workers → isCancelErr res.err = false) ∧
    (s.jobsClosed = true → s.cfg.Jobs < s.i)

/-- The relation "err is or wraps target", as the specification words it:
`err` is `target` itself, or `err` was made by wrapping an error that is or
wraps `target`. -/
inductive IsOrWraps : GoError → GoError → Prop
  | self (e : GoError) : IsOrWraps e e
  | wrapped (text : String) (inner target : GoError) (h : IsOrWraps inner target) :
    IsOrWraps (.wrap text inner) target

/-- A cancellation outcome in the specification's words: the error is or wraps
`context.DeadlineExceeded` or `context.Canceled`. -/
def IsCancellationOutcome (e : GoError) : Prop :=
  IsOrWraps e .contextDeadlineExceeded ∨ IsOrWraps e .contextCanceled

/-! ## Example runs -/

/-- The state a schedule leads to from `init`, or `init` itself when the
schedule is not enabled. -/
def runOf (cfg : Config) (tr : List Event) : RunState :=
  (exec (init cfg) tr).getD (init cfg)

/-- The default configuration of `parseFlags`: 9 jobs, 3 workers, 500ms. -/
def defaultConfig : Config := ⟨9, 3, 500000000⟩

/-- One job, one worker. -/
def oneJobConfig : Config := ⟨1, 1, 1⟩

/-- Three jobs handed to workers 0, 1, 2, timed out by `processJob`'s timer and
delivered in that order. -/
def roundOfThree : List Event :=
  [.jobsSend 0, .jobsSend 1, .jobsSend 2, .jobTimer 0 80, .jobTimer 1 120, .jobTimer 2 160,
   .resultsSend 0, .resultsSend 1, .resultsSend 2]

/-- How every run ends once the producer has closed `jobs`, for three workers. -/
def shutdownOfThree : List Event :=
  [.workerExit 0, .workerExit 1, .workerExit 2, .closeResults, .aggregatorReturn 700]

/-- A complete run of the default configuration in which the cancel signal
never fires. -/
def fullSchedule : List Event :=
  roundOfThree ++ roundOfThree ++ roundOfThree ++ [.producerLoopEnd] ++ shutdownOfThree

/-- A complete run of the default configuration in which the deadline passes
while jobs 4, 5 and 6 are in flight: job 4 still finishes by its timer, jobs 5
and 6 are canceled, and the producer then stops. -/
def cancelledSchedule : List Event :=
  roundOfThree ++
  [.jobsSend 0, .jobsSend 1, .jobsSend 2, .cancel .deadline, .jobTimer 0 80,
   .jobCtxDone 1 90, .jobCtxDone 2 90, .resultsSend 2, .resultsSend 0, .resultsSend 1,
   .producerCtxDone] ++ shutdownOfThree

/-- A complete run of one job and one worker in which the context is done
before anything else happens, and the producer's select still takes the send. -/
def lateSendSchedule : List Event :=
  [.cancel .deadline, .jobsSend 0, .jobCtxDone 0 1, .resultsSend 0, .producerLoopEnd,
   .workerExit 0, .closeResults, .aggregatorReturn 2]

/-- A complete run of one job and one worker in which the context is done
before anything else happens, and the producer's select takes `<-ctx.Done()`. -/
def earlyStopSchedule : List Event :=
  [.cancel .deadline, .producerCtxDone, .workerExit 0, .closeResults, .aggregatorReturn 2]

end Capstone

/-! # The channel-backed gate

`demoSemaphore` (chanlab) and `runBounded` (gorun) both cap concurrency with
`sem := make(chan struct{}, limit)`: a task acquires by `sem <- struct{}{}` and
releases by `<-sem` in a deferred function. -/

namespace Gate

/-- A buffered channel of `struct{}`: its capacity and the values it holds. -/
structure Chan where
  cap : Nat
  buf : List Unit
  deriving DecidableEq, Repr

/-- The call `make(chan struct{}, limit)`. -/
def Chan.make (limit : Nat) : Chan := ⟨limit, []⟩

/-- A send on a buffered channel: it proceeds when the buffer is not full,
otherwise the sender stays blocked (`none`). -/
def Chan.send (c : Chan) (v : Unit) : Option Chan :=
  if c.buf.length < c.cap then some { c with buf := c.buf ++ [v] } else none

/-- A receive on a buffered channel: it proceeds when the buffer is not empty,
otherwise the receiver stays blocked (`none`). -/
def Chan.recv (c : Chan) : Option (Unit × Chan) :=
  match c.buf with
  | v :: rest => some (v, { c with buf := rest })
  | [] => none

/-- Where a task stands: before its acquire, between acquire and release (a
holder), after its release. -/
inductive TaskSt where
  | waiting
  | holding
  | released
  deriving DecidableEq, Repr

/-- The gate and the tasks that use it. -/
structure GateState where
  sem : Chan
  tasks : List TaskSt
  deriving DecidableEq, Repr

/-- One step of one task. -/
inductive GateEvent where
  /-- task `t` completes `sem <- struct{}{}` -/
  | acquire (t : Nat)
  /-- task `t` completes `<-sem` -/
  | release (t : Nat)
  deriving DecidableEq, Repr

/-- A gate of capacity `limit` and `n` tasks that have not yet acquired. -/
def init (limit n : Nat) : GateState := ⟨Chan.make limit, List.replicate n .waiting⟩

/-- The transition function: `none` when the step is blocked or not the
task's next step. -/
def step (s : GateState) : GateEvent → Option GateState
  | .acquire t =>
    match s.tasks[t]? with
    | some .waiting =>
      match s.sem.send () with
      | some sem => some ⟨sem, s.tasks.set t .holding⟩
      | none => none
    | _ => none
  | .release t =>
    match s.tasks[t]? with
    | some .holding =>
      match s.sem.recv with
      | some (_, sem) => some ⟨sem, s.tasks.set t .released⟩
      | none => none
    | _ => none

/-- Run an interleaving of acquire and release steps. -/
def exec (s : GateState) : List GateEvent → Option GateState
  | [] => some s
  | e :: es =>
    match step s e with
    | some s' => exec s' es
    | none => none

/-- The number of holders: tasks that acquired and have not yet released. -/
def holders (s : GateState) : Nat := s.tasks.count .holding

/-- The state an interleaving leads to, or the initial state when it is not
enabled. -/
def stateOf (limit n : Nat) (tr : List GateEvent) : GateState :=
  (exec (init limit n) tr).getD (init limit n)

/-- Three tasks on a gate of two slots: tasks 0 and 1 acquire, task 0 releases,
task 2 acquires. -/
def threeTasks : List GateEvent := [.acquire 0, .acquire 1, .release 0, .acquire 2]

end Gate

/-! # The capstone engine: outcomes, channel closes and logging -/

namespace Capstone

/-- The error of `r` is one that the call `processJob(ctx, r.id)` can return
when `ctx.Err()` is `ctxErr`. -/
def IsProcessJobOutcome (ctxErr : Err) (r : result) : Prop :=
  ∃ c, processJob ctxErr r.id c = some r.err

/-- What holds of the results and of the two error counters in every state of
`run` reachable from `init`. -/
structure Outcomes (s : RunState) : Prop where
  failed_eq : s.summary.Failed =
    (s.delivered.filter (fun r => r.err.isSome && !isCancelErr r.err)).length
  canceled_eq : s.summary.Canceled = (s.delivered.filter (fun r => isCancelErr r.err)).length
  delivered_out : ∀ r ∈ s.delivered, IsProcessJobOutcome s.ctxErr r
  held_out : ∀ r, WorkerSt.sendResult r ∈ s.workers → IsProcessJobOutcome s.ctxErr r
  ctx_cause : ∀ e, s.ctxErr = some e → ∃ c : CancelCause, e = c.err

/-- One job, one worker: the job has been handed over, `processJob` has
returned by its timer, and then the deadline passes while the worker is
blocked in its send on `results`. -/
def cancelDuringSend : List Event :=
  [.jobsSend 0, .jobTimer 0 120, .cancel .deadline]

/-- The rest of the run after `cancelDuringSend`. -/
def afterCancelDuringSend : List Event :=
  [.resultsSend 0, .producerLoopEnd, .workerExit 0, .closeResults, .aggregatorReturn 130]

/-- No jobs requested, three workers. -/
def noJobsConfig : Config := ⟨0, 3, 1⟩

/-- The complete run when no jobs are requested: the producer's loop ends at
once, the three workers exit, `results` is closed and the aggregator returns. -/
def noJobsSchedule : List Event := .producerLoopEnd :: shutdownOfThree

/-! ## Flags and log lines of `main` -/

/-- What `flag.Parse()` finds on the command line: for each of the three
registered flags the value it was given, if it was given. -/
structure FlagArgs where
  jobs : Option Int
  workers : Option Int
  timeout : Option Int
  deriving DecidableEq, Repr

/-- The constant `time.Millisecond`, in nanoseconds. -/
def Millisecond : Int := 1000000

/-- The function `parseFlags`: each field starts at its default, which is also
the default registered with `flag.IntVar` or `flag.DurationVar`, and
`flag.Parse()` overwrites the fields whose flags are on the command line. -/
def parseFlags (args : FlagArgs) : Config :=
  let cfg : Config := { Jobs := 9, Workers := 3, Timeout := 500 * Millisecond }
  { Jobs := args.jobs.getD cfg.Jobs
    Workers := args.workers.getD cfg.Workers
    Timeout := args.timeout.getD cfg.Timeout }

/-- The struct `Field`. -/
structure Field where
  Key : String
  Value : String
  deriving DecidableEq, Repr

/-- The method `Field.String`. -/
def Field.String (f : Field) : String := f.Key ++ "=" ++ f.Value

/-- The function `strconv.Itoa`. -/
def Itoa (val : Int) : String := toString val

/-- The function `Str`. -/
def Str (key val : String) : Field := ⟨key, val⟩

/-- The function `Int(key, val)` of the source; `Int` names the integers here. -/
def IntField (key : String) (val : Int) : Field := ⟨key, Itoa val⟩

/-- The function `Duration`; the method `time.Duration.String` is passed in. -/
def Duration (durationString : Int → String) (key : String) (val : Int) : Field :=
  ⟨key, durationString val⟩

/-- The method `Logger.emit`: the line it hands to `log.Println`, which writes
the date and time before it. -/
def emit (service level msg : String) (fields : List Field) : String :=
  " ".intercalate
    (["level=" ++ level, "service=" ++ service, "msg=" ++ msg] ++ fields.map Field.String)

/-- The fields of the call `logger.Info("run start", ...)` in `main`. -/
def startFields (durationString : Int → String) (runID : String) (cfg : Config) : List Field :=
  [Str "run" runID, IntField "jobs" cfg.Jobs, IntField "workers" cfg.Workers,
   Duration durationString "timeout" cfg.Timeout]

/-- The fields of the call `logger.Info("run summary", ...)` in `main`. -/
def summaryFields (durationString : Int → String) (runID : String) (summary : Summary) :
    List Field :=
  [Str "run" runID, IntField "handled" summary.Handled, IntField "failed" summary.Failed,
   IntField "canceled" summary.Canceled, Duration durationString "cost" summary.Elapsed]

/-- The summary line of `main`: `NewLogger("capstone")`, level INFO. -/
def summaryLine (durationString : Int → String) (runID : String) (summary : Summary) : String :=
  emit "capstone" "INFO" "run summary" (summaryFields durationString runID summary)

/-- A rendering of durations that agrees with `time.Duration.String` below one
microsecond. -/
def nanosString (d : Int) : String := toString d ++ "ns"

/-- An event that runs `close(jobs)`: the producer's deferred call, on either
of its two ways out. -/
def Event.closesJobs : Event → Bool
  | .producerCtxDone => true
  | .producerLoopEnd => true
  | _ => false

end Capstone

/-! # Discount codes (`series/34/pricing`)

Go strings are lists of characters.  `int` is the 64-bit integer type. -/

namespace Pricing

/-- The library functions that `ParseDiscount` calls on the whole code and that
are taken as given: `strings.TrimSpace`, `strings.ToUpper` and the quoting of
the verb `%q`. -/
structure StringsLib where
  TrimSpace : List Char → List Char
  ToUpper : List Char → List Char
  Quote : List Char → String

/-- The struct `Discount`. -/
structure Discount where
  Kind : String
  Value : Int
  deriving DecidableEq, Repr

/-- The variable `ErrInvalidDiscount`. -/
def ErrInvalidDiscount : Capstone.GoError := .new "invalid discount"

/-- The call `fmt.Errorf("%w: %q", ErrInvalidDiscount, code)`. -/
def errorfInvalid (lib : StringsLib) (code : List Char) : Capstone.GoError :=
  .wrap (ErrInvalidDiscount.Error ++ ": " ++ lib.Quote code) ErrInvalidDiscount

/-- The function `strings.HasPrefix`. -/
def startsWith (s p : List Char) : Bool := p.isPrefixOf s

/-- The function `strings.TrimPrefix`. -/
def dropLeading (s p : List Char) : List Char :=
  if startsWith s p then s.drop p.length else s

/-- The value of a decimal digit; `none` for any other character. -/
def digitVal (c : Char) : Option Nat :=
  if '0' ≤ c ∧ c ≤ '9' then some (c.toNat - 48) else none

/-- The value of a string of decimal digits, read left to right from `acc`;
`none` when some character is not a digit. -/
def digitsVal : Nat → List Char → Option Nat
  | acc, [] => some acc
  | acc, c :: cs =>
    match digitVal c with
    | some d => digitsVal (acc * 10 + d) cs
    | none => none

/-- The function `strconv.Atoi`, `none` standing for its error: an optional
sign, then one or more decimal digits, and the value must fit in `int`. -/
def Atoi (s : List Char) : Option Int :=
  match s with
  | [] => none
  | c :: rest =>
    if c = '-' then
      if rest = [] then none
      else
        match digitsVal 0 rest with
        | some n => if n ≤ 2 ^ 63 then some (-(n : Int)) else none
        | none => none
    else if c = '+' then
      if rest = [] then none
      else
        match digitsVal 0 rest with
        | some n => if n < 2 ^ 63 then some (n : Int) else none
        | none => none
    else
      match digitsVal 0 (c :: rest) with
      | some n => if n < 2 ^ 63 then some (n : Int) else none
      | none => none

/-- The function `parseNumber`. -/
def parseNumber (raw : List Char) : Int × Bool :=
  if raw = [] then (0, false)
  else
    match Atoi raw with
    | none => (0, false)
    | some value => (value, true)

/-- The function `ParseDiscount`; the second component is the error, `none`
for nil. -/
def ParseDiscount (lib : StringsLib) (code : List Char) : Discount × Capstone.Err :=
  let trimmed := lib.TrimSpace code
  if trimmed = [] then (⟨"none", 0⟩, none)
  else
    let upper := lib.ToUpper trimmed
    if startsWith upper "OFF".toList = true then
      let parsed := parseNumber (dropLeading upper "OFF".toList)
      if parsed.2 = false ∨ parsed.1 ≤ 0 ∨ parsed.1 > 90 then
        (⟨"", 0⟩, some (errorfInvalid lib code))
      else (⟨"percent", parsed.1⟩, none)
    else if startsWith upper "MINUS".toList = true then
      let parsed := parseNumber (dropLeading upper "MINUS".toList)
      if parsed.2 = false ∨ parsed.1 ≤ 0 then
        (⟨"", 0⟩, some (errorfInvalid lib code))
      else (⟨"minus", parsed.1⟩, none)
    else (⟨"", 0⟩, some (errorfInvalid lib code))

/-- White space of the ASCII range, as `strings.TrimSpace` sees it. -/
def isAsciiSpace (c : Char) : Bool :=
  c = ' ' || c = '\t' || c = '\n' || c = '\r' || c.toNat = 11 || c.toNat = 12

/-- The three library functions on strings of printable ASCII characters
without quote or backslash (and, for `TrimSpace` and `ToUpper`, on any ASCII
string). -/
def asciiLib : StringsLib where
  TrimSpace := fun s => ((s.dropWhile isAsciiSpace).reverse.dropWhile isAsciiSpace).reverse
  ToUpper := fun s => s.map Char.toUpper
  Quote := fun s => "\"" ++ String.mk s ++ "\""

/-- The decimal numerals in the claim's words: `ds` is one or more decimal
digits and `n` is the number they write. -/
def IsDecimalNumeral (ds : List Char) (n : Nat) : Prop :=
  ds ≠ [] ∧ (∀ c ∈ ds, '0' ≤ c ∧ c ≤ '9') ∧
    Nat.ofDigits 10 (ds.reverse.map (fun c => c.toNat - 48)) = n

/-- The numerals that `strconv.Atoi` reads as the `int` value `n`: a decimal
numeral, optionally after a sign, whose value lies between -2^63 and 2^63-1. -/
def IsIntNumeral (s : List Char) (n : Int) : Prop :=
  ∃ (body : List Char) (m : Nat), IsDecimalNumeral body m ∧
    ((s = body ∧ n = m) ∨ (s = '+' :: body ∧ n = m) ∨ (s = '-' :: body ∧ n = -(m : Int))) ∧
    -(2 : Int) ^ 63 ≤ n ∧ n < (2 : Int) ^ 63

end Pricing

/-! # Totals with a discount (`series/34/pricing`) -/

namespace Pricing

/-- The value an `int` expression takes when its exact result is `x`: `x`
reduced into the 64-bit two's complement range. -/
def wrap64 (x : Int) : Int := (x + 2 ^ 63) % 2 ^ 64 - 2 ^ 63

/-- The struct `Item`. -/
structure Item where
  Name : List Char
  Price : Int
  deriving DecidableEq, Repr

/-- The function `Sum`: the loop `total += item.Price`. -/
def Sum (items : List Item) : Int :=
  items.foldl (fun total item => wrap64 (total + item.Price)) 0

/-- The function `FinalTotal`; `/` on `int` truncates toward zero. -/
def FinalTotal (lib : StringsLib) (items : List Item) (code : List Char) : Int × Capstone.Err :=
  let total := Sum items
  match ParseDiscount lib code with
  | (_, some err) => (0, some err)
  | (disc, none) =>
    if disc.Kind = "none" then (total, none)
    else if disc.Kind = "percent" then
      (Int.tdiv (wrap64 (total * wrap64 (100 - disc.Value))) 100, none)
    else if disc.Kind = "minus" then
      if disc.Value ≥ total then (0, none) else (wrap64 (total - disc.Value), none)
    else (0, some (errorfInvalid lib code))

/-- The items of `TestFinalTotal`. -/
def testItems : List Item := [⟨"latte".toList, 1200⟩, ⟨"bagel".toList, 800⟩]

end Pricing

/-! # Small packages: settings, config, reasons, format, ticket -/

namespace Settings

/-- The struct `Config` of package `settings`; `Timeout` in nanoseconds. -/
structure Config where
  ServiceName : String
  Timeout : Int
  Retry : Int
  EnableDebug : Bool
  deriving DecidableEq, Repr

/-- The constant `time.Second`, in nanoseconds. -/
def Second : Int := 1000000000

/-- The function `ApplyZero`. -/
def ApplyZero (c : Config) : Config × Capstone.Err :=
  if c.ServiceName = "" then
    (⟨"", 0, 0, false⟩, some (.new "ServiceName 不能为空"))
  else
    let c := if c.Timeout = 0 then { c with Timeout := 3 * Second } else c
    let c := if c.Retry = 0 then { c with Retry := 2 } else c
    (c, none)

end Settings

namespace AppCfg

/-- The struct `AppConfig` of package `config`. -/
structure AppConfig where
  AppName : String
  Owner : String
  deriving DecidableEq, Repr

/-- The function `New` of package `config`; `strings.TrimSpace` is passed in. -/
def New (trimSpace : String → String) (appName owner : String) : AppConfig × Capstone.Err :=
  let appName := trimSpace appName
  let owner := trimSpace owner
  if appName = "" then (⟨"", ""⟩, some (.new "appName 不能为空"))
  else
    let owner := if owner = "" then "团队" else owner
    (⟨appName, owner⟩, none)

/-- A `TrimSpace` for strings whose white space is blanks only. -/
def trimBlanks (s : String) : String :=
  String.mk ((s.data.dropWhile (fun c => c = ' ')).reverse.dropWhile (fun c => c = ' ')).reverse

end AppCfg

namespace Reasons

/-- The two library functions `Reason` calls: `strings.TrimSpace` and
`strings.ToLower`. -/
structure TextLib where
  TrimSpace : List Char → List Char
  ToLower : List Char → List Char

/-- The map `reasonByLang`, as its list of entries. -/
def reasonByLang : List (List Char × String) :=
  [("go".toList, "编译快、部署简单、并发模型清晰，适合做基础设施和服务端。"),
   ("python".toList, "生态丰富、验证快，适合数据处理和脚本。"),
   ("java".toList, "工程成熟、生态庞大，适合大型企业级系统。")]

/-- The sentence `Reason` returns for a language that is not in the map. -/
def fallback : String := "先选一个目标场景，再决定语言。Go 适合服务端与工具链。"

/-- The function `Reason`. -/
def Reason (lib : TextLib) (lang : List Char) : String :=
  let key := lib.ToLower (lib.TrimSpace lang)
  let key := if key = [] then "go".toList else key
  match reasonByLang.lookup key with
  | some reason => reason
  | none => fallback

/-- The two library functions on ASCII strings. -/
def asciiText : TextLib where
  TrimSpace := Pricing.asciiLib.TrimSpace
  ToLower := fun s => s.map Char.toLower

end Reasons

namespace Format

/-- The function `BuildPlus`. -/
def BuildPlus (words : List (List Char)) : List Char :=
  words.foldl (fun s w => s ++ w) []

/-- The type `strings.Builder`, as the bytes written so far; its capacity is
not part of its value. -/
structure Builder where
  buf : List Char
  deriving DecidableEq, Repr

/-- The method `Grow`: capacity only. -/
def Builder.Grow (b : Builder) (_n : Nat) : Builder := b

/-- The method `WriteString`. -/
def Builder.WriteString (b : Builder) (s : List Char) : Builder := ⟨b.buf ++ s⟩

/-- The method `String` of the builder. -/
def Builder.String (b : Builder) : List Char := b.buf

/-- The function `BuildBuilder`. -/
def BuildBuilder (words : List (List Char)) : List Char :=
  let need := words.foldl (fun need w => need + w.length) 0
  let b := (Builder.mk []).Grow need
  let b := words.foldl (fun b w => b.WriteString w) b
  b.String

/-- The function `strings.Join`: nothing for no elements, the element itself
for one, otherwise the first element and then, for each further one, the
separator and the element, written to a builder. -/
def Join (elems : List (List Char)) (sep : List Char) : List Char :=
  match elems with
  | [] => []
  | [e] => e
  | e :: rest =>
    let n := rest.foldl (fun n s => n + sep.length + s.length) e.length
    let b := (Builder.mk []).Grow n
    let b := b.WriteString e
    let b := rest.foldl (fun b s => (b.WriteString sep).WriteString s) b
    b.String

/-- The function `BuildJoin`. -/
def BuildJoin (words : List (List Char)) : List Char := Join words []

end Format

namespace Tickets

/-- The struct `User`. -/
structure User where
  ID : String
  Name : String
  Tier : String
  deriving DecidableEq, Repr

/-- The struct `AuditInfo`. -/
structure AuditInfo where
  CreatedBy : String
  UpdatedBy : String
  deriving DecidableEq, Repr

/-- The struct `Ticket`; the embedded `AuditInfo` is the field `Audit`. -/
structure Ticket where
  ID : String
  Title : String
  Status : String
  Tags : List String
  User : User
  Audit : AuditInfo
  deriving DecidableEq, Repr

/-- The loop of `AddTag` over `t.Tags`: whether some existing tag equals
`tag`. -/
def hasTag : List String → String → Bool
  | [], _ => false
  | existing :: rest, tag => if existing = tag then true else hasTag rest tag

/-- The method `AddTag`: the ticket afterwards and the returned flag. -/
def AddTag (t : Ticket) (tag : String) : Ticket × Bool :=
  if tag = "" then (t, false)
  else if hasTag t.Tags tag = true then (t, false)
  else ({ t with Tags := t.Tags ++ [tag] }, true)

/-- A sequence of `AddTag` calls, the flags dropped. -/
def addTags (t : Ticket) (tags : List String) : Ticket :=
  tags.foldl (fun t tag => (AddTag t tag).1) t

/-- A ticket with two tags. -/
def sampleTicket : Ticket :=
  ⟨"T-1", "login fails", "open", ["bug", "auth"], ⟨"u1", "An", "pro"⟩, ⟨"an", "an"⟩⟩

end Tickets

/-! # Command-line arguments (`series/02/internal/cliinfo`) -/

namespace Cliinfo

/-- The struct `Config` of package `cliinfo`. -/
structure Config where
  Name : List Char
  Lang : List Char
  deriving DecidableEq, Repr

/-- What `Parse` takes from the library: `strings.TrimSpace`,
`strings.ToLower`, and the flag set with its two string flags: `FlagParse args`
is the error of `fs.Parse(args)` or else the values of `*name` and `*lang`
after it. -/
structure Lib where
  TrimSpace : List Char → List Char
  ToLower : List Char → List Char
  FlagParse : List (List Char) → Except Capstone.GoError (List Char × List Char)

/-- The function `Parse`. -/
def Parse (lib : Lib) (args : List (List Char)) : Config × Capstone.Err :=
  match lib.FlagParse args with
  | .error err => (⟨[], []⟩, some err)
  | .ok (name, lang) =>
    let cfg : Config := ⟨lib.TrimSpace name, lib.ToLower (lib.TrimSpace lang)⟩
    if cfg.Name = [] then (⟨[], []⟩, some (.new "name 不能为空"))
    else
      let cfg := if cfg.Lang = [] then { cfg with Lang := "go".toList } else cfg
      (cfg, none)

/-- The part of a flag argument before its first `=` that is not its first
character, and the part after it, if there is one. -/
def splitValue : List Char → List Char × Option (List Char)
  | [] => ([], none)
  | c :: cs =>
    match cs.span (fun x => x ≠ '=') with
    | (front, _ :: value) => (c :: front, some value)
    | (front, []) => (c :: front, none)

/-- The method `flag.FlagSet.Parse` for a flag set with the two string flags
`name` and `lang`, started from the values `name` and `lang`.  `pending` is
the flag that was given without `=value` in the argument before and takes this
argument as its value. -/
def flagSetParseFrom (pending : Option (List Char)) (name lang : List Char) :
    List (List Char) → Except Capstone.GoError (List Char × List Char)
  | [] =>
    match pending with
    | some _ => .error (.new "flag needs an argument")
    | none => .ok (name, lang)
  | s :: rest =>
    match pending with
    | some flag =>
      if flag = "name".toList then flagSetParseFrom none s lang rest
      else flagSetParseFrom none name s rest
    | none =>
      match s with
      | '-' :: c :: cs =>
        if c = '-' ∧ cs = [] then .ok (name, lang)
        else
          let body := if c = '-' then cs else c :: cs
          match body with
          | [] => .error (.new "bad flag syntax")
          | b :: _ =>
            if b = '-' ∨ b = '=' then .error (.new "bad flag syntax")
            else
              let flag := (splitValue body).1
              if flag ≠ "name".toList ∧ flag ≠ "lang".toList then
                .error (.new "flag provided but not defined")
              else
                match (splitValue body).2 with
                | some value =>
                  if flag = "name".toList then flagSetParseFrom none value lang rest
                  else flagSetParseFrom none name value rest
                | none => flagSetParseFrom (some flag) name lang rest
      | _ => .ok (name, lang)

/-- The method `flag.FlagSet.Parse` on a fresh flag set. -/
def flagSetParse (name lang : List Char) (args : List (List Char)) :
    Except Capstone.GoError (List Char × List Char) :=
  flagSetParseFrom none name lang args

/-- The library on ASCII arguments: the flag set of `Parse` with its defaults. -/
def asciiLib : Lib where
  TrimSpace := Pricing.asciiLib.TrimSpace
  ToLower := fun s => s.map Char.toLower
  FlagParse := flagSetParse "工程师".toList "go".toList

end Cliinfo

/-! # Counters shared by goroutines (`series/36/racecase`)

`SafeCounterMutex` and `SafeCounterAtomic` start `n` goroutines and return the
counter after `wg.Wait()`.  Each is a transition system whose events are the
steps of the goroutines; `count++` is a read followed by a write. -/

namespace Racecase

/-- Where a goroutine of `SafeCounterMutex` stands. -/
inductive MutexG where
  /-- before `mu.Lock()` -/
  | start
  /-- holds `mu`, before the read of `count++` -/
  | locked
  /-- has read `count` as `v`, before the write of `count++` -/
  | loaded (v : Int)
  /-- has written `v + 1`, before `mu.Unlock()` -/
  | stored
  /-- after `mu.Unlock()`, before the deferred `wg.Done()` -/
  | unlocked
  /-- returned -/
  | done
  deriving DecidableEq, Repr

/-- A step of goroutine `g` of `SafeCounterMutex`, or the return of
`wg.Wait()` followed by `return count`. -/
inductive MutexEvent where
  | lock (g : Nat)
  | load (g : Nat)
  | store (g : Nat)
  | unlock (g : Nat)
  | wgDone (g : Nat)
  | ret
  deriving DecidableEq, Repr

/-- The state of one call of `SafeCounterMutex`. -/
structure MutexState where
  count : Int
  mu : Bool
  gs : List MutexG
  wg : Nat
  returned : Option Int
  deriving DecidableEq, Repr

/-- The state after `wg.Add(n)` and the `n` go statements. -/
def mutexInit (n : Nat) : MutexState := ⟨0, false, List.replicate n .start, n, none⟩

/-- The transition function of `SafeCounterMutex`. -/
def mutexStep (s : MutexState) : MutexEvent → Option MutexState
  | .lock g =>
    match s.gs[g]? with
    | some .start =>
      if s.mu = false then some { s with mu := true, gs := s.gs.set g .locked } else none
    | _ => none
  | .load g =>
    match s.gs[g]? with
    | some .locked => some { s with gs := s.gs.set g (.loaded s.count) }
    | _ => none
  | .store g =>
    match s.gs[g]? with
    | some (.loaded v) => some { s with count := v + 1, gs := s.gs.set g .stored }
    | _ => none
  | .unlock g =>
    match s.gs[g]? with
    | some .stored => some { s with mu := false, gs := s.gs.set g .unlocked }
    | _ => none
  | .wgDone g =>
    match s.gs[g]? with
    | some .unlocked => some { s with gs := s.gs.set g .done, wg := s.wg - 1 }
    | _ => none
  | .ret =>
    if s.wg = 0 ∧ s.returned = none then some { s with returned := some s.count } else none

/-- Run a schedule of `SafeCounterMutex`. -/
def mutexExec (s : MutexState) : List MutexEvent → Option MutexState
  | [] => some s
  | e :: es =>
    match mutexStep s e with
    | some s' => mutexExec s' es
    | none => none

/-- 1 for a goroutine that has written its increment. -/
def MutexG.written : MutexG → Nat
  | .stored => 1
  | .unlocked => 1
  | .done => 1
  | _ => 0

/-- 1 for a goroutine that holds the mutex. -/
def MutexG.holds : MutexG → Nat
  | .locked => 1
  | .loaded _ => 1
  | .stored => 1
  | _ => 0

/-- 1 for a goroutine that has not run `wg.Done()`. -/
def MutexG.live : MutexG → Nat
  | .done => 0
  | _ => 1

/-- The steps a goroutine still has to take. -/
def MutexG.weight : MutexG → Nat
  | .start => 5
  | .locked => 4
  | .loaded _ => 3
  | .stored => 2
  | .unlocked => 1
  | .done => 0

/-- An upper bound on the number of events still possible. -/
def mutexMeasure (s : MutexState) : Nat :=
  (s.gs.map MutexG.weight).sum + (if s.returned = none then 1 else 0)

/-- What holds in every reachable state of `SafeCounterMutex(n)`. -/
structure MutexInv (n : Nat) (s : MutexState) : Prop where
  count_eq : s.count = ((s.gs.map MutexG.written).sum : Nat)
  holds_eq : (s.gs.map MutexG.holds).sum = if s.mu = true then 1 else 0
  loaded_eq : ∀ v, MutexG.loaded v ∈ s.gs → v = s.count
  wg_eq : s.wg = (s.gs.map MutexG.live).sum
  ret_eq : ∀ r, s.returned = some r → r = s.count ∧ s.wg = 0
  len_eq : s.gs.length = n

/-- Where a goroutine of `SafeCounterAtomic` stands: before
`atomic.AddInt64(&count, 1)`, before the deferred `wg.Done()`, returned. -/
inductive AtomicG where
  | start
  | added
  | done
  deriving DecidableEq, Repr

/-- A step of goroutine `g` of `SafeCounterAtomic`, or the return of
`wg.Wait()` followed by `return int(count)`. -/
inductive AtomicEvent where
  | add (g : Nat)
  | wgDone (g : Nat)
  | ret
  deriving DecidableEq, Repr

/-- The state of one call of `SafeCounterAtomic`. -/
structure AtomicState where
  count : Int
  gs : List AtomicG
  wg : Nat
  returned : Option Int
  deriving DecidableEq, Repr

/-- The state after `wg.Add(n)` and the `n` go statements. -/
def atomicInit (n : Nat) : AtomicState := ⟨0, List.replicate n .start, n, none⟩

/-- The transition function of `SafeCounterAtomic`. -/
def atomicStep (s : AtomicState) : AtomicEvent → Option AtomicState
  | .add g =>
    match s.gs[g]? with
    | some .start => some { s with count := s.count + 1, gs := s.gs.set g .added }
    | _ => none
  | .wgDone g =>
    match s.gs[g]? with
    | some .added => some { s with gs := s.gs.set g .done, wg := s.wg - 1 }
    | _ => none
  | .ret =>
    if s.wg = 0 ∧ s.returned = none then some { s with returned := some s.count } else none

/-- Run a schedule of `SafeCounterAtomic`. -/
def atomicExec (s : AtomicState) : List AtomicEvent → Option AtomicState
  | [] => some s
  | e :: es =>
    match atomicStep s e with
    | some s' => atomicExec s' es
    | none => none

/-- 1 for a goroutine that has added its increment. -/
def AtomicG.written : AtomicG → Nat
  | .start => 0
  | _ => 1

/-- 1 for a goroutine that has not run `wg.Done()`. -/
def AtomicG.live : AtomicG → Nat
  | .done => 0
  | _ => 1

/-- The steps a goroutine still has to take. -/
def AtomicG.weight : AtomicG → Nat
  | .start => 2
  | .added => 1
  | .done => 0

/-- An upper bound on the number of events still possible. -/
def atomicMeasure (s : AtomicState) : Nat :=
  (s.gs.map AtomicG.weight).sum + (if s.returned = none then 1 else 0)

/-- What holds in every reachable state of `SafeCounterAtomic(n)`. -/
structure AtomicInv (n : Nat) (s : AtomicState) : Prop where
  count_eq : s.count = ((s.gs.map AtomicG.written).sum : Nat)
  wg_eq : s.wg = (s.gs.map AtomicG.live).sum
  ret_eq : ∀ r, s.returned = some r → r = s.count ∧ s.wg = 0
  len_eq : s.gs.length = n

/-- Two goroutines of `SafeCounterMutex(2)`: the second takes the mutex first,
the first has to wait for it. -/
def mutexSchedule : List MutexEvent :=
  [.lock 1, .load 1, .store 1, .unlock 1, .lock 0, .wgDone 1, .load 0, .store 0, .unlock 0,
   .wgDone 0, .ret]

/-- Two goroutines of `SafeCounterAtomic(2)`. -/
def atomicSchedule : List AtomicEvent :=
  [.add 1, .add 0, .wgDone 0, .wgDone 1, .ret]

end Racecase

/-! # UTF-8 safe truncation (`series/17/cmd/textlab`)

Strings are byte sequences; a byte is a natural number below 256.  The two
functions of `unicode/utf8` that `truncateUTF8Bytes` calls are written out
after their Go definitions (`first`, `acceptRanges`, `FullRune`, `Valid`). -/

namespace Textlab

/-- `utf8.RuneSelf`: bytes below it are single-byte runes. -/
def RuneSelf : Nat := 0x80

/-- `utf8.locb`, the lowest continuation byte. -/
def locb : Nat := 0x80

/-- `utf8.hicb`, the highest continuation byte. -/
def hicb : Nat := 0xBF

/-- `utf8.xx`: the entry of `first` for an illegal starter byte. -/
def xx : Nat := 0xF1

/-- The table `utf8.first`: the low three bits of an entry are the size of the
encoding that the byte starts, the high four bits index `acceptRanges`. -/
def first (b : Nat) : Nat :=
  if b < 0x80 then 0xF0
  else if b < 0xC2 then 0xF1
  else if b < 0xE0 then 0x02
  else if b = 0xE0 then 0x13
  else if b < 0xED then 0x03
  else if b = 0xED then 0x23
  else if b < 0xF0 then 0x03
  else if b = 0xF0 then 0x34
  else if b < 0xF4 then 0x04
  else if b = 0xF4 then 0x44
  else 0xF1

/-- The table `utf8.acceptRanges` (16 entries, those from 5 on are zero): the
range `(lo, hi)` of the second byte. -/
def acceptRanges : Nat → Nat × Nat
  | 0 => (0x80, 0xBF)
  | 1 => (0xA0, 0xBF)
  | 2 => (0x80, 0x9F)
  | 3 => (0x90, 0xBF)
  | 4 => (0x80, 0x8F)
  | _ => (0, 0)

/-- `utf8.FullRune(p)`: whether `p` begins with a full encoding of a rune (an
invalid encoding counts as a full rune of width 1). -/
def FullRune (p : List Nat) : Bool :=
  let n := p.length
  if n = 0 then false
  else
    let x := first (p.getD 0 0)
    if x % 8 ≤ n then true
    else
      let accept := acceptRanges (x / 16)
      if 1 < n ∧ (p.getD 1 0 < accept.1 ∨ accept.2 < p.getD 1 0) then true
      else if 2 < n ∧ (p.getD 2 0 < locb ∨ hicb < p.getD 2 0) then true
      else false

/-- `utf8.Valid(p)`, as a function of the bytes from index `i` on: one turn of
the loop `for i := 0; i < n;` consumes an encoding of 1 to 4 bytes.  The fast
path of the Go function, which skips eight ASCII bytes at a time, is left out:
the loop accepts those bytes one by one. -/
def Valid : List Nat → Bool
  | [] => true
  | pi :: rest =>
    if pi < RuneSelf then Valid rest
    else if first pi = xx then false
    else if rest.length + 1 < first pi % 8 then false
    else
      match rest with
      | [] => false
      | c1 :: r1 =>
        if c1 < (acceptRanges (first pi / 16)).1 ∨ (acceptRanges (first pi / 16)).2 < c1 then false
        else if first pi % 8 = 2 then Valid r1
        else
          match r1 with
          | [] => false
          | c2 :: r2 =>
            if c2 < locb ∨ hicb < c2 then false
            else if first pi % 8 = 3 then Valid r2
            else
              match r2 with
              | [] => false
              | c3 :: r3 => if c3 < locb ∨ hicb < c3 then false else Valid r3

/-- The loop `for i > 0 && !utf8.FullRune(b[:i]) { i-- }`: the value of `i`
after it. -/
def fullRuneLoop (b : List Nat) : Nat → Nat
  | 0 => 0
  | i + 1 => if FullRune (b.take (i + 1)) = false then fullRuneLoop b i else i + 1

/-- The loop `for !utf8.Valid(b[:i]) { i--; if i == 0 { return "" } }` followed
by `return string(b[:i])`. -/
def validLoop (b : List Nat) : Nat → List Nat
  | 0 => b.take 0
  | i + 1 =>
    if Valid (b.take (i + 1)) = false then
      if i = 0 then [] else validLoop b i
    else b.take (i + 1)

/-- `truncateUTF8Bytes(s, maxBytes)`. -/
def truncateUTF8Bytes (s : List Nat) (maxBytes : Int) : List Nat :=
  if maxBytes ≤ 0 then []
  else if (s.length : Int) ≤ maxBytes then s
  else
    let i := fullRuneLoop s maxBytes.toNat
    if i = 0 then [] else validLoop s i

/-- The bytes of `"Go 语言真香😊"`, the start of the string of
`demoSafeTruncate`. -/
def sampleBytes : List Nat :=
  [0x47, 0x6F, 0x20, 0xE8, 0xAF, 0xAD, 0xE8, 0xA8, 0x80, 0xE7, 0x9C, 0x9F, 0xE9, 0xA6, 0x99,
   0xF0, 0x9F, 0x98, 0x8A]

end Textlab

/-! # Theorems -/

namespace Capstone

/-! ## Lists, the measure and the relational view -/

theorem getElem?_split {α : Type} : ∀ (l : List α) (w : Nat) (a : α), l[w]? = some a →
    ∃ l1 l2, l = l1 ++ a :: l2 ∧ ∀ b, l.set w b = l1 ++ b :: l2
  | [], w, a, h => by simp at h
  | x :: xs, 0, a, h => by
    simp at h; subst h; exact ⟨[], xs, rfl, fun b => rfl⟩
  | x :: xs, w+1, a, h => by
    simp at h
    obtain ⟨l1, l2, h1, h2⟩ := getElem?_split xs w a h
    exact ⟨x :: l1, l2, by simp [h1], fun b => by simp [h2]⟩

theorem step_measure {s s' : RunState} {e : Event} (h : step s e = some s') :
    measure s' + 1 ≤ measure s := by
  cases e with
  | cancel c =>
    simp only [step] at h
    split at h
    · rename_i hc
      simp at h; subst h
      simp [measure, hc]; omega
    · simp at h
  | jobsSend w =>
    simp only [step] at h
    split at h
    · rename_i hg
      split at h
      · rename_i hw
        simp at h; subst h
        obtain ⟨l1, l2, h1, h2⟩ := getElem?_split _ _ _ hw
        simp only [measure]; rw [h2, h1]
        simp [WorkerSt.weight, hg.1]
        have : (s.cfg.Jobs + 1 - s.i).toNat = (s.cfg.Jobs + 1 - (s.i + 1)).toNat + 1 := by
          have := hg.2
          omega
        omega
      · simp at h
    · simp at h
  | producerCtxDone =>
    simp only [step] at h
    split at h
    · rename_i hg
      simp at h; subst h
      simp [measure, hg.1]; omega
    · simp at h
  | producerLoopEnd =>
    simp only [step] at h
    split at h
    · rename_i hg
      simp at h; subst h
      simp [measure, hg.1]; omega
    · simp at h
  | jobTimer w cost =>
    simp only [step] at h
    split at h
    · rename_i hw
      split at h
      · simp at h; subst h
        obtain ⟨l1, l2, h1, h2⟩ := getElem?_split _ _ _ hw
        simp only [measure]; rw [h2, h1]
        simp [WorkerSt.weight]; omega
      · simp at h
    · simp at h
  | jobCtxDone w cost =>
    simp only [step] at h
    split at h
    · rename_i hw
      split at h
      · simp at h; subst h
        obtain ⟨l1, l2, h1, h2⟩ := getElem?_split _ _ _ hw
        simp only [measure]; rw [h2, h1]
        simp [WorkerSt.weight]; omega
      · simp at h
    · simp at h
  | resultsSend w =>
    simp only [step] at h
    split at h
    · rename_i hg
      split at h
      · rename_i hw
        simp at h; subst h
        obtain ⟨l1, l2, h1, h2⟩ := getElem?_split _ _ _ hw
        simp only [measure]; rw [h2, h1]
        simp [WorkerSt.weight]; omega
      · simp at h
    · simp at h
  | workerExit w =>
    simp only [step] at h
    split at h
    · rename_i hg
      split at h
      · rename_i hw
        simp at h; subst h
        obtain ⟨l1, l2, h1, h2⟩ := getElem?_split _ _ _ hw
        simp only [measure]; rw [h2, h1]
        simp [WorkerSt.weight]; omega
      · simp at h
    · simp at h
  | closeResults =>
    simp only [step] at h
    split at h
    · rename_i hg
      simp at h; subst h
      simp [measure, hg.2]; omega
    · simp at h
  | aggregatorReturn el =>
    simp only [step] at h
    split at h
    · rename_i hg
      simp at h; subst h
      simp [measure, hg.2]
    · simp at h

theorem exec_measure : ∀ (tr : List Event) (s s' : RunState), exec s tr = some s' →
    measure s' + tr.length ≤ measure s
  | [], s, s', h => by simp [exec] at h; subst h; simp
  | e :: es, s, s', h => by
    simp only [exec] at h
    split at h
    · rename_i s1 h1
      have := exec_measure es s1 s' h
      have := step_measure h1
      simp only [List.length_cons]; omega
    · simp at h

theorem measure_init (cfg : Config) :
    measure (init cfg) = 3 * cfg.Jobs.toNat + cfg.Workers.toNat + 4 := by
  simp [measure, init, WorkerSt.weight]; omega

theorem getElem?_split_length {α : Type} : ∀ (l : List α) (w : Nat) (a : α), l[w]? = some a →
    ∃ l1 l2, l = l1 ++ a :: l2 ∧ w = l1.length ∧ ∀ b, l.set w b = l1 ++ b :: l2
  | [], w, a, h => by simp at h
  | x :: xs, 0, a, h => by
    simp at h; subst h; exact ⟨[], xs, rfl, rfl, fun b => rfl⟩
  | x :: xs, w+1, a, h => by
    simp at h
    obtain ⟨l1, l2, h1, hl, h2⟩ := getElem?_split_length xs w a h
    exact ⟨x :: l1, l2, by simp [h1], by simp [hl], fun b => by simp [h2]⟩

theorem step_sound {s s' : RunState} {e : Event} (h : step s e = some s') : Step s e s' := by
  cases e with
  | cancel c =>
    simp only [step] at h
    split at h
    · rename_i hc
      simp at h; subst h
      exact Step.cancel s c hc
    · simp at h
  | jobsSend w =>
    simp only [step] at h
    split at h
    · rename_i hg
      split at h
      · rename_i hw
        simp at h; subst h
        obtain ⟨l1, l2, h1, hl, h2⟩ := getElem?_split_length _ _ _ hw
        subst hl; rw [h2]
        exact Step.jobsSend s l1 l2 hg.1 hg.2 h1
      · simp at h
    · simp at h
  | producerCtxDone =>
    simp only [step] at h
    split at h
    · rename_i hg
      simp at h; subst h
      exact Step.producerCtxDone s hg.1 hg.2.1 hg.2.2
    · simp at h
  | producerLoopEnd =>
    simp only [step] at h
    split at h
    · rename_i hg
      simp at h; subst h
      exact Step.producerLoopEnd s hg.1 hg.2
    · simp at h
  | jobTimer w cost =>
    simp only [step] at h
    split at h
    · rename_i hw
      split at h
      · rename_i err hp
        simp at h; subst h
        obtain ⟨l1, l2, h1, hl, h2⟩ := getElem?_split_length _ _ _ hw
        subst hl; rw [h2]
        exact Step.jobTimer s l1 l2 _ cost err h1 hp
      · simp at h
    · simp at h
  | jobCtxDone w cost =>
    simp only [step] at h
    split at h
    · rename_i hw
      split at h
      · rename_i err hp
        simp at h; subst h
        obtain ⟨l1, l2, h1, hl, h2⟩ := getElem?_split_length _ _ _ hw
        subst hl; rw [h2]
        exact Step.jobCtxDone s l1 l2 _ cost err h1 hp
      · simp at h
    · simp at h
  | resultsSend w =>
    simp only [step] at h
    split at h
    · rename_i hg
      split at h
      · rename_i hw
        simp at h; subst h
        obtain ⟨l1, l2, h1, hl, h2⟩ := getElem?_split_length _ _ _ hw
        subst hl; rw [h2]
        exact Step.resultsSend s l1 l2 _ hg.1 hg.2 h1
      · simp at h
    · simp at h
  | workerExit w =>
    simp only [step] at h
    split at h
    · rename_i hg
      split at h
      · rename_i hw
        simp at h; subst h
        obtain ⟨l1, l2, h1, hl, h2⟩ := getElem?_split_length _ _ _ hw
        subst hl; rw [h2]
        exact Step.workerExit s l1 l2 hg h1
      · simp at h
    · simp at h
  | closeResults =>
    simp only [step] at h
    split at h
    · rename_i hg
      simp at h; subst h
      exact Step.closeResults s hg.1 hg.2
    · simp at h
  | aggregatorReturn el =>
    simp only [step] at h
    split at h
    · rename_i hg
      simp at h; subst h
      exact Step.aggregatorReturn s el hg.1 hg.2
    · simp at h

/-! ## The invariant holds in every reachable state -/

theorem aggregate_Jobs (sm : Summary) (r : result) : (aggregate sm r).Jobs = sm.Jobs := by
  unfold aggregate; split
  · rfl
  · split <;> rfl

theorem aggregate_Handled (sm : Summary) (r : result) :
    (aggregate sm r).Handled = sm.Handled + 1 := by
  unfold aggregate; split
  · rfl
  · split <;> rfl

theorem aggregate_Elapsed (sm : Summary) (r : result) :
    (aggregate sm r).Elapsed = sm.Elapsed := by
  unfold aggregate; split
  · rfl
  · split <;> rfl

theorem aggregate_Failed (sm : Summary) (r : result) :
    (aggregate sm r).Failed =
      sm.Failed + (if r.err.isSome ∧ isCancelErr r.err = false then 1 else 0) := by
  unfold aggregate; split
  · rename_i h; simp [h]
  · rename_i e h
    split <;> rename_i hc <;> simp [h, isCancelErr, hc]

theorem aggregate_Canceled (sm : Summary) (r : result) :
    (aggregate sm r).Canceled = sm.Canceled + (if isCancelErr r.err = true then 1 else 0) := by
  unfold aggregate; split
  · rename_i h; simp [h, isCancelErr]
  · rename_i e h
    split <;> rename_i hc <;> simp [h, isCancelErr, hc]

theorem idsUpTo_succ (n : Nat) : idsUpTo (n + 1) = idsUpTo n ++ [((n : Int) + 1)] := by
  simp [idsUpTo, List.range'_1_concat]; omega

theorem inv_init (cfg : Config) : Inv (init cfg) where
  jobs := rfl
  handled := rfl
  split3 := rfl
  i_pos := by simp [init]
  i_le := by simp [init]
  disp := by simp [init, idsUpTo]
  conserve := by simp [init, inFlight, WorkerSt.jobIds]
  nworkers := by simp [init]
  wg_eq := by simp [init, List.countP_replicate]
  exited_closed := by simp [init, List.mem_replicate]
  closed_wg := by simp [init]
  returned_eq := by simp [init]
  nocancel := by simp [init, List.mem_replicate]


theorem processJob_timer_not_cancel {ctxErr : Err} {id : Int} {err : Err}
    (h : processJob ctxErr id .timerC = some err) : isCancelErr err = false := by
  simp only [processJob] at h
  split at h <;> simp at h <;> subst h <;> simp [isCancelErr, isCancellation, errorsIs, errorfJob]

theorem mem_replace {l1 l2 : List WorkerSt} {a b x : WorkerSt} (hx : x ∈ l1 ++ b :: l2)
    (hne : x ≠ b) : x ∈ l1 ++ a :: l2 := by
  simp only [List.mem_append, List.mem_cons] at hx ⊢
  rcases hx with h | h | h
  · exact Or.inl h
  · exact absurd h hne
  · exact Or.inr (Or.inr h)

theorem inv_jobDone {s : RunState} (hinv : Inv s) (l1 l2 : List WorkerSt) (jobID cost : Int)
    (err : Err) (c : SelectCase) (hw : s.workers = l1 ++ .inProcessJob jobID :: l2)
    (hp : processJob s.ctxErr jobID c = some err) :
    Inv { s with workers := l1 ++ .sendResult ⟨jobID, err, cost⟩ :: l2 } := by
  refine { hinv with
    conserve := ?_, nworkers := ?_, wg_eq := ?_, exited_closed := ?_, nocancel := ?_ }
  · have h := hinv.conserve
    simp only [inFlight, hw, List.flatMap_append, List.flatMap_cons, WorkerSt.jobIds] at h ⊢
    exact h
  · have := hinv.nworkers; simp only [hw, List.length_append, List.length_cons] at this ⊢
    exact this
  · have := hinv.wg_eq
    simp only [hw, List.countP_append, List.countP_cons] at this ⊢
    simpa using this
  · intro hcl
    have := hinv.exited_closed hcl
    rw [hw] at this
    exact fun hm => this (mem_replace hm (by simp))
  · intro hx
    obtain ⟨h1, h2, h3⟩ := hinv.nocancel hx
    refine ⟨h1, ?_, h3⟩
    intro res hres
    by_cases hr : WorkerSt.sendResult res = WorkerSt.sendResult ⟨jobID, err, cost⟩
    · simp only [WorkerSt.sendResult.injEq] at hr
      subst hr
      cases c with
      | timerC => exact processJob_timer_not_cancel hp
      | ctxDone =>
        have hx' : s.ctxErr = none := hx
        simp [processJob, hx'] at hp
    · exact h2 res (by rw [hw]; exact mem_replace hres hr)

theorem inv_step {s s' : RunState} {e : Event} (hinv : Inv s) (hstep : Step s e s') :
    Inv s' := by
  cases hstep with
  | cancel c h =>
    exact { hinv with nocancel := by simp }
  | jobsSend l1 l2 hc hi hw =>
    have hn : (s.i + 1 - 1).toNat = (s.i - 1).toNat + 1 := by have := hinv.i_pos; omega
    have hcast : (((s.i - 1).toNat : Nat) : Int) + 1 = s.i := by have := hinv.i_pos; omega
    refine { hinv with
      i_pos := ?_, i_le := ?_, disp := ?_, conserve := ?_, nworkers := ?_, wg_eq := ?_,
      exited_closed := ?_, nocancel := ?_ }
    · simp only; have := hinv.i_pos; omega
    · simp only; omega
    · simp only [List.map_append, List.map_cons, List.map_nil, hn, idsUpTo_succ, hcast, hinv.disp]
    · have h := hinv.conserve
      rw [List.perm_iff_count] at h ⊢
      intro a
      have ha := h a
      simp only [inFlight, hw, List.flatMap_append, List.flatMap_cons, WorkerSt.jobIds,
        List.count_append, List.map_append, List.map_cons, List.map_nil,
        List.count_cons, List.count_nil] at ha ⊢
      omega
    · have := hinv.nworkers; simp only [hw, List.length_append, List.length_cons] at this ⊢
      exact this
    · have := hinv.wg_eq
      simp only [hw, List.countP_append, List.countP_cons] at this ⊢
      simpa using this
    · intro _
      have := hinv.exited_closed hc
      rw [hw] at this
      exact fun hm => this (mem_replace hm (by simp))
    · intro hx
      obtain ⟨h1, h2, h3⟩ := hinv.nocancel hx
      refine ⟨h1, ?_, ?_⟩
      · intro res hres
        exact h2 res (by rw [hw]; exact mem_replace hres (by simp))
      · intro hcl; simp [hc] at hcl
  | producerCtxDone hc hi hx =>
    refine { hinv with exited_closed := ?_, nocancel := ?_ }
    · simp
    · intro h; exact absurd h hx
  | producerLoopEnd hc hi =>
    refine { hinv with exited_closed := ?_, nocancel := ?_ }
    · simp
    · intro hx
      obtain ⟨h1, h2, _⟩ := hinv.nocancel hx
      exact ⟨h1, h2, fun _ => by simp only; omega⟩
  | jobTimer l1 l2 jobID cost err hw hp =>
    exact inv_jobDone hinv l1 l2 jobID cost err .timerC hw hp
  | jobCtxDone l1 l2 jobID cost err hw hp =>
    exact inv_jobDone hinv l1 l2 jobID cost err .ctxDone hw hp
  | resultsSend l1 l2 res hc hr hw =>
    refine { hinv with
      jobs := ?_, handled := ?_, split3 := ?_, conserve := ?_, nworkers := ?_, wg_eq := ?_,
      exited_closed := ?_, returned_eq := ?_, nocancel := ?_ }
    · simp only [aggregate_Jobs]; exact hinv.jobs
    · simp only [aggregate_Handled, List.length_append, List.length_cons, List.length_nil]
      have := hinv.handled; push_cast; omega
    · have := hinv.split3
      simp only [aggregate_Handled, aggregate_Failed, aggregate_Canceled, succeeded,
        List.filter_append, List.length_append] at this ⊢
      cases hres : res.err with
      | none => simp [hres, isCancelErr, List.filter_cons]; omega
      | some g =>
        cases hg : isCancellation g <;>
          simp [hres, isCancelErr, hg, List.filter_cons] <;> omega
    · have h := hinv.conserve
      rw [List.perm_iff_count] at h ⊢
      intro a
      have ha := h a
      simp only [inFlight, hw, List.flatMap_append, List.flatMap_cons, WorkerSt.jobIds,
        List.count_append, List.map_append, List.map_cons, List.map_nil,
        List.count_cons, List.count_nil] at ha ⊢
      omega
    · have := hinv.nworkers; simp only [hw, List.length_append, List.length_cons] at this ⊢
      exact this
    · have := hinv.wg_eq
      simp only [hw, List.countP_append, List.countP_cons] at this ⊢
      simpa using this
    · intro hcl
      have := hinv.exited_closed hcl
      rw [hw] at this
      exact fun hm => this (mem_replace hm (by simp))
    · intro sm hsm; simp [hr] at hsm
    · intro hx
      obtain ⟨h1, h2, h3⟩ := hinv.nocancel hx
      refine ⟨?_, ?_, h3⟩
      · have := h2 res (by simp [hw])
        simp [aggregate_Canceled, this, h1]
      · intro r hres
        exact h2 r (by rw [hw]; exact mem_replace hres (by simp))
  | workerExit l1 l2 hc hw =>
    refine { hinv with
      conserve := ?_, nworkers := ?_, wg_eq := ?_, exited_closed := ?_, closed_wg := ?_,
      nocancel := ?_ }
    · have h := hinv.conserve
      simp only [inFlight, hw, List.flatMap_append, List.flatMap_cons, WorkerSt.jobIds] at h ⊢
      exact h
    · have := hinv.nworkers; simp only [hw, List.length_append, List.length_cons] at this ⊢
      exact this
    · have := hinv.wg_eq
      simp only [hw, List.countP_append, List.countP_cons] at this ⊢
      simp at this ⊢; omega
    · intro hcl; simp [hc] at hcl
    · intro hcl; have := hinv.closed_wg hcl; simp only; omega
    · intro hx
      obtain ⟨h1, h2, h3⟩ := hinv.nocancel hx
      refine ⟨h1, ?_, h3⟩
      intro r hres
      exact h2 r (by rw [hw]; exact mem_replace hres (by simp))
  | closeResults hwg hc =>
    refine { hinv with closed_wg := ?_, returned_eq := ?_ }
    · intro _; exact hwg
    · intro sm hsm
      exact ⟨rfl, (hinv.returned_eq sm hsm).2⟩
  | aggregatorReturn elapsed hc hr =>
    refine { hinv with returned_eq := ?_ }
    intro sm hsm
    simp only [Option.some.injEq] at hsm
    subst hsm
    exact ⟨hc, rfl⟩

theorem inv_exec : ∀ (tr : List Event) (s s' : RunState), Inv s → exec s tr = some s' → Inv s'
  | [], s, s', hinv, h => by simp [exec] at h; subst h; exact hinv
  | e :: es, s, s', hinv, h => by
    simp only [exec] at h
    split at h
    · rename_i s1 h1
      exact inv_exec es s1 s' (inv_step hinv (step_sound h1)) h
    · simp at h

theorem inv_reachable {cfg : Config} {tr : List Event} {s : RunState}
    (h : exec (init cfg) tr = some s) : Inv s :=
  inv_exec tr _ _ (inv_init cfg) h


/-! ## Progress -/

theorem exists_index_of_mem {l : List WorkerSt} {a : WorkerSt} (h : a ∈ l) :
    ∃ w : Nat, l[w]? = some a := by
  obtain ⟨n, hn, hget⟩ := List.mem_iff_getElem.mp h
  exact ⟨n, by simp [List.getElem?_eq_getElem hn, hget]⟩

theorem wg_pos_of_mem {s : RunState} (hinv : Inv s) {st : WorkerSt} (hm : st ∈ s.workers)
    (hne : st ≠ .exited) : 0 < s.wg := by
  rw [hinv.wg_eq]
  exact List.countP_pos_iff.mpr ⟨st, hm, by simpa using hne⟩

/-- Unless `run` has returned, some event other than the cancel signal is
enabled, provided there is at least one worker. -/
theorem progress {s : RunState} (hinv : Inv s) (hw : 0 < s.cfg.Workers)
    (hr : s.returned = none) : ∃ e, e.isCancel = false ∧ (step s e).isSome = true := by
  by_cases h1 : ∃ jobID, WorkerSt.inProcessJob jobID ∈ s.workers
  · obtain ⟨jobID, hm⟩ := h1
    obtain ⟨w, hget⟩ := exists_index_of_mem hm
    refine ⟨.jobTimer w 0, rfl, ?_⟩
    by_cases h9 : Int.tmod jobID 9 = 0 <;> simp [step, hget, processJob, h9]
  by_cases h2 : ∃ res, WorkerSt.sendResult res ∈ s.workers
  · obtain ⟨res, hm⟩ := h2
    obtain ⟨w, hget⟩ := exists_index_of_mem hm
    have hpos := wg_pos_of_mem hinv hm (by simp)
    have hcl : s.resultsClosed = false := by
      cases hc : s.resultsClosed with
      | false => rfl
      | true => have := hinv.closed_wg hc; omega
    refine ⟨.resultsSend w, rfl, ?_⟩
    simp [step, hget, hcl, hr]
  by_cases h3 : WorkerSt.recvJob ∈ s.workers
  · obtain ⟨w, hget⟩ := exists_index_of_mem h3
    cases hc : s.jobsClosed with
    | true =>
      refine ⟨.workerExit w, rfl, ?_⟩
      simp [step, hget, hc]
    | false =>
      by_cases hi : s.i ≤ s.cfg.Jobs
      · refine ⟨.jobsSend w, rfl, ?_⟩
        simp [step, hget, hc, hi]
      · refine ⟨.producerLoopEnd, rfl, ?_⟩
        simp [step, hc, hi]
  · have hall : ∀ st ∈ s.workers, st = WorkerSt.exited := by
      intro st hst
      cases st with
      | recvJob => exact absurd hst h3
      | inProcessJob j => exact absurd ⟨j, hst⟩ h1
      | sendResult r => exact absurd ⟨r, hst⟩ h2
      | exited => rfl
    have hne : s.workers ≠ [] := by
      intro h0
      have := hinv.nworkers
      rw [h0] at this
      simp at this
      omega
    obtain ⟨st, hst⟩ := List.exists_mem_of_ne_nil _ hne
    have hex : WorkerSt.exited ∈ s.workers := by rw [← hall st hst]; exact hst
    have hjc : s.jobsClosed = true := by
      cases hc : s.jobsClosed with
      | true => rfl
      | false => exact absurd hex (hinv.exited_closed hc)
    have hwg : s.wg = 0 := by
      rw [hinv.wg_eq, List.countP_eq_zero]
      intro a ha
      simp [hall a ha]
    cases hc : s.resultsClosed with
    | false =>
      refine ⟨.closeResults, rfl, ?_⟩
      simp [step, hwg, hc]
    | true =>
      refine ⟨.aggregatorReturn 0, rfl, ?_⟩
      simp [step, hc, hr]


/-! ## Consequences of the invariant -/

theorem idsUpTo_length (n : Nat) : (idsUpTo n).length = n := by
  simp [idsUpTo]

theorem idsUpTo_nodup (n : Nat) : (idsUpTo n).Nodup := by
  unfold idsUpTo
  exact (List.nodup_range' 1 n).map Int.ofNat_injective

theorem idsUpTo_getElem? (n j : Nat) :
    (idsUpTo n)[j]? = if j < n then some ((j : Int) + 1) else none := by
  unfold idsUpTo
  by_cases h : j < n
  · simp [h, List.getElem?_range', Int.add_comm]
  · simp [h]; omega

theorem delivered_le_dispatched {s : RunState} (hinv : Inv s) :
    s.delivered.length + (inFlight s).length = s.dispatched.length := by
  have := hinv.conserve.length_eq
  simpa using this

theorem dispatched_length {s : RunState} (hinv : Inv s) :
    (s.dispatched.length : Int) = s.i - 1 := by
  have h := congrArg List.length hinv.disp
  simp only [List.length_map, idsUpTo_length] at h
  have := hinv.i_pos
  omega

theorem all_exited_of_closed {s : RunState} (hinv : Inv s) (hc : s.resultsClosed = true) :
    ∀ st ∈ s.workers, st = WorkerSt.exited := by
  have h0 := hinv.closed_wg hc
  rw [hinv.wg_eq, List.countP_eq_zero] at h0
  intro st hst
  simpa using h0 st hst

theorem inFlight_nil_of_closed {s : RunState} (hinv : Inv s) (hc : s.resultsClosed = true) :
    inFlight s = [] := by
  unfold inFlight
  rw [List.flatMap_eq_nil_iff]
  intro st hst
  rw [all_exited_of_closed hinv hc st hst]
  rfl

theorem jobsClosed_of_closed {s : RunState} (hinv : Inv s) (hw : 0 < s.cfg.Workers)
    (hc : s.resultsClosed = true) : s.jobsClosed = true := by
  have hall := all_exited_of_closed hinv hc
  have hne : s.workers ≠ [] := by
    intro h0
    have := hinv.nworkers
    rw [h0] at this
    simp at this
    omega
  obtain ⟨st, hst⟩ := List.exists_mem_of_ne_nil _ hne
  have hex : WorkerSt.exited ∈ s.workers := by rw [← hall st hst]; exact hst
  cases hj : s.jobsClosed with
  | true => rfl
  | false => exact absurd hex (hinv.exited_closed hj)

theorem step_ctxErr {s s' : RunState} {e : Event} (hstep : Step s e s')
    (hc : e.isCancel = false) : s'.ctxErr = s.ctxErr := by
  cases hstep <;> first | rfl | simp [Event.isCancel] at hc

theorem step_cfg {s s' : RunState} {e : Event} (hstep : Step s e s') : s'.cfg = s.cfg := by
  cases hstep <;> rfl

theorem exec_cfg : ∀ (tr : List Event) (s s' : RunState), exec s tr = some s' → s'.cfg = s.cfg
  | [], s, s', h => by simp [exec] at h; subst h; rfl
  | e :: es, s, s', h => by
    simp only [exec] at h
    split at h
    · rename_i s1 h1
      rw [exec_cfg es s1 s' h, step_cfg (step_sound h1)]
    · simp at h

theorem exec_ctxErr_none : ∀ (tr : List Event) (s s' : RunState), exec s tr = some s' →
    s.ctxErr = none → (∀ e ∈ tr, e.isCancel = false) → s'.ctxErr = none
  | [], s, s', h, h0, _ => by simp [exec] at h; subst h; exact h0
  | e :: es, s, s', h, h0, hnc => by
    simp only [exec] at h
    split at h
    · rename_i s1 h1
      refine exec_ctxErr_none es s1 s' h ?_ (fun e he => hnc e (List.mem_cons_of_mem _ he))
      rw [step_ctxErr (step_sound h1) (hnc e (List.mem_cons_self _ _))]; exact h0
    · simp at h

theorem exec_append : ∀ (tr1 tr2 : List Event) (s s' : RunState),
    exec s (tr1 ++ tr2) = some s' ↔ ∃ s1, exec s tr1 = some s1 ∧ exec s1 tr2 = some s'
  | [], tr2, s, s' => by simp [exec]
  | e :: es, tr2, s, s' => by
    simp only [List.cons_append, exec]
    cases h : step s e with
    | none => simp
    | some s1 => simpa using exec_append es tr2 s1 s'

theorem valid_pos {cfg : Config} (hv : validateConfig cfg = none) :
    0 < cfg.Jobs ∧ 0 < cfg.Workers ∧ 0 < cfg.Timeout := by
  unfold validateConfig at hv
  split_ifs at hv
  omega


/-! ## The claims about the capstone engine -/

/-- Claim C1: for every valid config and every schedule of `run`, the Summary
that `run` returns satisfies `Handled == succeeded + Failed + Canceled`, where
`succeeded` counts the handled results that carry no error, and
`Handled <= Jobs`. -/
theorem run_summary_accounting (cfg : Config) (tr : List Event) (s : RunState) (sm : Summary)
    (hv : validateConfig cfg = none) (h : exec (init cfg) tr = some s)
    (hr : s.returned = some sm) :
    sm.Handled = succeeded s + sm.Failed + sm.Canceled ∧ sm.Handled ≤ sm.Jobs := by
  have hinv := inv_reachable h
  obtain ⟨_, hsm⟩ := hinv.returned_eq sm hr
  have hcfg : s.cfg = cfg := by simpa [init] using exec_cfg tr _ _ h
  have h1 : sm.Handled = s.summary.Handled := by rw [hsm]
  have h2 : sm.Failed = s.summary.Failed := by rw [hsm]
  have h3 : sm.Canceled = s.summary.Canceled := by rw [hsm]
  have h4 : sm.Jobs = s.summary.Jobs := by rw [hsm]
  refine ⟨by rw [h1, h2, h3]; exact hinv.split3, ?_⟩
  rw [h1, h4, hinv.jobs, hinv.handled]
  have hd := delivered_le_dispatched hinv
  have hl := dispatched_length hinv
  have hi := hinv.i_le
  have hp := (valid_pos hv).1
  rw [hcfg] at hi ⊢
  omega

/-- Witness for C1: the complete run of the default configuration in which the
deadline passes mid-run. -/
theorem run_summary_accounting_witness :
    (runOf defaultConfig cancelledSchedule).returned = some ⟨9, 6, 0, 2, 700⟩ ∧
    ((6 : Int) = succeeded (runOf defaultConfig cancelledSchedule) + 0 + 2 ∧ (6 : Int) ≤ 9) :=
  ⟨by decide,
   run_summary_accounting defaultConfig cancelledSchedule (runOf defaultConfig cancelledSchedule)
     ⟨9, 6, 0, 2, 700⟩ (by decide) rfl (by decide)⟩

/-- Claim C2: `validateConfig(cfg)` returns an error if and only if
`cfg.Jobs <= 0` or `cfg.Workers <= 0` or `cfg.Timeout <= 0`, and it returns nil
if and only if all three fields are strictly positive. -/
theorem validateConfig_error_iff (cfg : Config) :
    (validateConfig cfg ≠ none ↔ cfg.Jobs ≤ 0 ∨ cfg.Workers ≤ 0 ∨ cfg.Timeout ≤ 0) ∧
    (validateConfig cfg = none ↔ 0 < cfg.Jobs ∧ 0 < cfg.Workers ∧ 0 < cfg.Timeout) := by
  unfold validateConfig
  constructor
  · split_ifs <;> simp <;> omega
  · split_ifs <;> simp <;> omega


theorem errorsIs_iff (e target : GoError) : errorsIs e target = true ↔ IsOrWraps e target := by
  induction e with
  | wrap f inner ih =>
    simp only [errorsIs, Bool.or_eq_true, decide_eq_true_eq]
    constructor
    · rintro (h | h)
      · rw [← h]; exact IsOrWraps.self _
      · exact IsOrWraps.wrapped f inner target (ih.mp h)
    · intro h
      cases h with
      | self => exact Or.inl rfl
      | wrapped _ _ _ h => exact Or.inr (ih.mpr h)
  | contextCanceled =>
    simp only [errorsIs, decide_eq_true_eq]
    exact ⟨fun h => h ▸ IsOrWraps.self _, fun h => by cases h; rfl⟩
  | contextDeadlineExceeded =>
    simp only [errorsIs, decide_eq_true_eq]
    exact ⟨fun h => h ▸ IsOrWraps.self _, fun h => by cases h; rfl⟩
  | errJobFailed =>
    simp only [errorsIs, decide_eq_true_eq]
    exact ⟨fun h => h ▸ IsOrWraps.self _, fun h => by cases h; rfl⟩
  | new text =>
    simp only [errorsIs, decide_eq_true_eq]
    exact ⟨fun h => h ▸ IsOrWraps.self _, fun h => by cases h; rfl⟩

theorem isCancellation_iff (e : GoError) : isCancellation e = true ↔ IsCancellationOutcome e := by
  simp [isCancellation, IsCancellationOutcome, errorsIs_iff]

/-- Claim C3: the aggregator adds a Result to Canceled exactly when its error is
or wraps `context.DeadlineExceeded` or `context.Canceled`, adds it to Failed
exactly when its error is non-nil and is neither, changes neither counter
otherwise, and never adds one Result to both. -/
theorem aggregate_classifies (sm : Summary) (res : result) :
    ((aggregate sm res).Canceled = sm.Canceled + 1 ↔
      ∃ e, res.err = some e ∧ IsCancellationOutcome e) ∧
    ((aggregate sm res).Failed = sm.Failed + 1 ↔
      ∃ e, res.err = some e ∧ ¬ IsCancellationOutcome e) ∧
    ((aggregate sm res).Canceled = sm.Canceled ∨ (aggregate sm res).Canceled = sm.Canceled + 1) ∧
    ((aggregate sm res).Failed = sm.Failed ∨ (aggregate sm res).Failed = sm.Failed + 1) ∧
    ¬ ((aggregate sm res).Canceled = sm.Canceled + 1 ∧
       (aggregate sm res).Failed = sm.Failed + 1) := by
  rw [aggregate_Canceled, aggregate_Failed]
  cases hres : res.err with
  | none => simp [isCancelErr]
  | some g =>
    by_cases hg : isCancellation g = true
    · have := (isCancellation_iff g).mp hg
      simp [isCancelErr, hg, this]
    · have hn : ¬ IsCancellationOutcome g := fun h => hg ((isCancellation_iff g).mpr h)
      simp [isCancelErr, hg, hn]

theorem succeeded_append (s : RunState) (res : result) (ws : List WorkerSt) (sm : Summary) :
    succeeded { s with workers := ws, summary := sm, delivered := s.delivered ++ [res] } =
      succeeded s + (if res.err = none then 1 else 0) := by
  simp only [succeeded, List.filter_append, List.length_append]
  cases hres : res.err <;> simp [List.filter_cons, hres]

/-- Claim C4: each Result the aggregator consumes raises Handled by exactly one
and raises exactly one of the three outcome counts (succeeded, the number of
consumed results without error, Failed, Canceled) by one, leaving the other two
unchanged; no other event changes the Summary. -/
theorem aggregator_counts_each_result (s s' : RunState) (e : Event)
    (h : step s e = some s') :
    (∀ w, e = .resultsSend w →
      ∃ res, s.workers[w]? = some (.sendResult res) ∧ s'.delivered = s.delivered ++ [res] ∧
        s'.summary.Handled = s.summary.Handled + 1 ∧
        ((succeeded s' = succeeded s + 1 ∧ s'.summary.Failed = s.summary.Failed ∧
            s'.summary.Canceled = s.summary.Canceled) ∨
         (succeeded s' = succeeded s ∧ s'.summary.Failed = s.summary.Failed + 1 ∧
            s'.summary.Canceled = s.summary.Canceled) ∨
         (succeeded s' = succeeded s ∧ s'.summary.Failed = s.summary.Failed ∧
            s'.summary.Canceled = s.summary.Canceled + 1))) ∧
    ((∀ w, e ≠ .resultsSend w) → s'.summary = s.summary ∧ s'.delivered = s.delivered) := by
  constructor
  · intro w he
    subst he
    simp only [step] at h
    split at h
    · split at h
      · rename_i res hw
        simp only [Option.some.injEq] at h
        subst h
        refine ⟨res, hw, rfl, aggregate_Handled _ _, ?_⟩
        rw [succeeded_append, aggregate_Failed, aggregate_Canceled]
        cases hres : res.err with
        | none => simp [isCancelErr]
        | some g => cases hg : isCancellation g <;> simp [isCancelErr, hg]
      · simp at h
    · simp at h
  · intro hne
    have hs := step_sound h
    cases hs with
    | resultsSend l1 l2 res hc hr hw => exact absurd rfl (hne _)
    | _ => exact ⟨rfl, rfl⟩

/-- Witness for C4: job 9 of the default configuration has failed in worker 2
and its Result is consumed; Handled goes from 8 to 9. -/
theorem aggregator_counts_each_result_witness :
    step (runOf defaultConfig (fullSchedule.take 26)) (.resultsSend 2)
        = some (runOf defaultConfig (fullSchedule.take 27)) ∧
      (runOf defaultConfig (fullSchedule.take 26)).summary = ⟨9, 8, 0, 0, 0⟩ ∧
      (runOf defaultConfig (fullSchedule.take 27)).summary.Handled
        = (runOf defaultConfig (fullSchedule.take 26)).summary.Handled + 1 :=
  ⟨rfl, by decide, by
    obtain ⟨_, _, _, hh, _⟩ :=
      (aggregator_counts_each_result (runOf defaultConfig (fullSchedule.take 26))
        (runOf defaultConfig (fullSchedule.take 27)) (.resultsSend 2) rfl).1 2 rfl
    exact hh⟩


/-- Claim C5: when `run` has returned, the ids of the Results delivered to the
aggregator are a rearrangement of the ids handed over on `jobs`: every id a
worker received has exactly one delivered Result, whether or not the cancel
signal fired while it was in flight, an id never handed over has none, and
Handled equals the number of dispatched jobs.  Until `run` has returned some
event other than the cancel signal is enabled, and no schedule is longer than
`3 * Jobs + Workers + 4` events, so every dispatched job does get its Result
delivered. -/
theorem dispatched_job_yields_one_result (cfg : Config) (tr : List Event) (s : RunState)
    (hv : validateConfig cfg = none) (h : exec (init cfg) tr = some s) :
    (∀ sm, s.returned = some sm →
      (s.delivered.map result.id).Perm (s.dispatched.map Prod.fst) ∧
      (∀ id, (s.delivered.filter (fun r => decide (r.id = id))).length =
        if id ∈ s.dispatched.map Prod.fst then 1 else 0) ∧
      sm.Handled = s.dispatched.length) ∧
    (s.returned = none → ∃ e, e.isCancel = false ∧ (step s e).isSome = true) ∧
    tr.length ≤ 3 * cfg.Jobs.toNat + cfg.Workers.toNat + 4 := by
  have hinv := inv_reachable h
  have hcfg : s.cfg = cfg := by simpa [init] using exec_cfg tr _ _ h
  refine ⟨?_, ?_, ?_⟩
  · intro sm hr
    obtain ⟨hc, hsm⟩ := hinv.returned_eq sm hr
    have hperm := hinv.conserve
    rw [inFlight_nil_of_closed hinv hc, List.append_nil] at hperm
    refine ⟨hperm, ?_, ?_⟩
    · intro id
      have hcount := hperm.count_eq id
      have hnd : (s.dispatched.map Prod.fst).Nodup := by rw [hinv.disp]; exact idsUpTo_nodup _
      have hfl : (s.delivered.filter (fun r => decide (r.id = id))).length
          = (s.delivered.map result.id).count id := by
        rw [List.count, List.countP_map, List.countP_eq_length_filter]
        congr 1
      rw [hfl, hcount]
      by_cases hm : id ∈ s.dispatched.map Prod.fst
      · rw [if_pos hm]; exact List.count_eq_one_of_mem hnd hm
      · rw [if_neg hm]; exact List.count_eq_zero_of_not_mem hm
    · have h1 : sm.Handled = s.summary.Handled := by rw [hsm]
      rw [h1, hinv.handled]
      have := hperm.length_eq
      simp only [List.length_map] at this
      rw [this]
  · intro hr
    exact progress hinv (by rw [hcfg]; exact (valid_pos hv).2.1) hr
  · have := exec_measure tr _ _ h
    rw [measure_init] at this
    omega

/-- Witness for C5: the run of the default configuration in which the deadline
passes while jobs 4, 5 and 6 are in flight. -/
theorem dispatched_job_yields_one_result_witness :
    (runOf defaultConfig cancelledSchedule).returned = some ⟨9, 6, 0, 2, 700⟩ ∧
    (runOf defaultConfig cancelledSchedule).dispatched.map Prod.fst = [1, 2, 3, 4, 5, 6] ∧
    (runOf defaultConfig cancelledSchedule).delivered.map result.id = [1, 2, 3, 6, 4, 5] ∧
    ((runOf defaultConfig cancelledSchedule).delivered.map result.id).Perm
      ((runOf defaultConfig cancelledSchedule).dispatched.map Prod.fst) :=
  ⟨by decide, by decide, by decide,
   ((dispatched_job_yields_one_result defaultConfig cancelledSchedule
      (runOf defaultConfig cancelledSchedule) (by decide) rfl).1 ⟨9, 6, 0, 2, 700⟩
      (by decide)).1⟩


/-- Claim C6: at every moment of a run with a valid config the ids handed over
on `jobs` are, in order, 1, 2, ..., k for some `k <= Jobs` (position `j` holds
`j + 1`, so they ascend strictly without gap or repeat).  When the cancel signal
never fires, `k == Jobs` as soon as the producer has finished (it has closed
`jobs`), and so when `run` has returned.  The producer does finish: `run`
returns only with `jobs` closed, until `run` has returned some event other
than the cancel signal is enabled, and no schedule is longer than
`3 * Jobs + Workers + 4` events. -/
theorem producer_hands_over_ascending (cfg : Config) (tr : List Event) (s : RunState)
    (hv : validateConfig cfg = none) (h : exec (init cfg) tr = some s) :
    (∃ k : Nat, (k : Int) ≤ cfg.Jobs ∧
      (∀ j : Nat, (s.dispatched.map Prod.fst)[j]? =
        if j < k then some ((j : Int) + 1) else none) ∧
      (s.dispatched.map Prod.fst).Pairwise (fun a b => a < b) ∧
      ((∀ e ∈ tr, e.isCancel = false) → s.jobsClosed = true → (k : Int) = cfg.Jobs) ∧
      ((∀ e ∈ tr, e.isCancel = false) → s.returned ≠ none → (k : Int) = cfg.Jobs)) ∧
    (∀ sm, s.returned = some sm → s.jobsClosed = true) ∧
    (s.returned = none → ∃ e, e.isCancel = false ∧ (step s e).isSome = true) ∧
    tr.length ≤ 3 * cfg.Jobs.toNat + cfg.Workers.toNat + 4 := by
  have hinv := inv_reachable h
  have hcfg : s.cfg = cfg := by simpa [init] using exec_cfg tr _ _ h
  have hw : 0 < s.cfg.Workers := by rw [hcfg]; exact (valid_pos hv).2.1
  have hp := (valid_pos hv).1
  have hi := hinv.i_le
  have hpos := hinv.i_pos
  rw [hcfg] at hi
  have hret : ∀ sm, s.returned = some sm → s.jobsClosed = true := by
    intro sm hr
    exact jobsClosed_of_closed hinv hw (hinv.returned_eq sm hr).1
  have hall : (∀ e ∈ tr, e.isCancel = false) → s.jobsClosed = true →
      (((s.i - 1).toNat : Nat) : Int) = cfg.Jobs := by
    intro hnc hjc
    have hx := exec_ctxErr_none tr _ _ h rfl hnc
    have := (hinv.nocancel hx).2.2 hjc
    rw [hcfg] at this
    omega
  refine ⟨⟨(s.i - 1).toNat, by omega, ?_, ?_, hall, ?_⟩, hret,
    fun hr => progress hinv hw hr, ?_⟩
  · intro j
    rw [hinv.disp, idsUpTo_getElem?]
  · rw [hinv.disp, idsUpTo]
    rw [List.pairwise_map]
    refine (List.pairwise_lt_range' 1 _).imp ?_
    intro a b hab
    exact Int.ofNat_lt.mpr hab
  · intro hnc hr
    cases hsm : s.returned with
    | none => exact absurd hsm hr
    | some sm => exact hall hnc (hret sm hsm)
  · have := exec_measure tr _ _ h
    rw [measure_init] at this
    omega

/-- Witness for C6: the complete run of the default configuration without
cancellation hands over the ids 1 to 9 and returns, with `jobs` closed. -/
theorem producer_hands_over_ascending_witness :
    (runOf defaultConfig fullSchedule).dispatched.map Prod.fst = [1, 2, 3, 4, 5, 6, 7, 8, 9] ∧
    (runOf defaultConfig fullSchedule).returned = some ⟨9, 9, 1, 0, 700⟩ ∧
    (runOf defaultConfig fullSchedule).jobsClosed = true :=
  ⟨by decide, by decide,
   (producer_hands_over_ascending defaultConfig fullSchedule (runOf defaultConfig fullSchedule)
     (by decide) rfl).2.1 ⟨9, 9, 1, 0, 700⟩ (by decide)⟩

/-- Claim C7: for every valid config and every schedule in which the cancel
signal never fires, `run` returns, and it returns `Handled == Jobs` and
`Canceled == 0` whatever number of jobs fail: until it has returned some event
other than the cancel signal is enabled, and the schedule has at most
`3 * Jobs + Workers + 4` events. -/
theorem run_without_cancel_handles_all (cfg : Config) (tr : List Event) (s : RunState)
    (hv : validateConfig cfg = none) (h : exec (init cfg) tr = some s)
    (hnc : ∀ e ∈ tr, e.isCancel = false) :
    (∀ sm, s.returned = some sm → sm.Handled = cfg.Jobs ∧ sm.Canceled = 0) ∧
    (s.returned = none → ∃ e, e.isCancel = false ∧ (step s e).isSome = true) ∧
    tr.length ≤ 3 * cfg.Jobs.toNat + cfg.Workers.toNat + 4 := by
  have hinv := inv_reachable h
  have hcfg : s.cfg = cfg := by simpa [init] using exec_cfg tr _ _ h
  have hw : 0 < s.cfg.Workers := by rw [hcfg]; exact (valid_pos hv).2.1
  refine ⟨?_, fun hr => progress hinv hw hr, ?_⟩
  · intro sm hr
    obtain ⟨hc, hsm⟩ := hinv.returned_eq sm hr
    have hx := exec_ctxErr_none tr _ _ h rfl hnc
    obtain ⟨hcan, _, hjobs⟩ := hinv.nocancel hx
    have hlt := hjobs (jobsClosed_of_closed hinv hw hc)
    have h1 : sm.Handled = s.summary.Handled := by rw [hsm]
    have h3 : sm.Canceled = s.summary.Canceled := by rw [hsm]
    refine ⟨?_, by rw [h3]; exact hcan⟩
    rw [h1, hinv.handled]
    have hd := delivered_le_dispatched hinv
    rw [inFlight_nil_of_closed hinv hc] at hd
    have hl := dispatched_length hinv
    have hi := hinv.i_le
    have hp := (valid_pos hv).1
    rw [hcfg] at hi hlt
    simp only [List.length_nil] at hd
    omega
  · have := exec_measure tr _ _ h
    rw [measure_init] at this
    omega

/-- Witness for C7: the complete run of the default configuration without
cancellation, in which job 9 fails. -/
theorem run_without_cancel_handles_all_witness :
    (runOf defaultConfig fullSchedule).returned = some ⟨9, 9, 1, 0, 700⟩ ∧
    ((9 : Int) = defaultConfig.Jobs ∧ (0 : Int) = 0) :=
  ⟨by decide,
   (run_without_cancel_handles_all defaultConfig fullSchedule (runOf defaultConfig fullSchedule)
     (by decide) rfl (by decide)).1 ⟨9, 9, 1, 0, 700⟩ (by decide)⟩


theorem step_jobsClosed_mono {s s' : RunState} {e : Event} (hstep : Step s e s')
    (hc : s.jobsClosed = true) : s'.jobsClosed = true := by
  cases hstep <;> first | exact hc | rfl

theorem step_dispatched_frozen {s s' : RunState} {e : Event} (hstep : Step s e s')
    (hc : s.jobsClosed = true ∨ ∀ w, e ≠ .jobsSend w) : s'.dispatched = s.dispatched := by
  cases hstep with
  | jobsSend l1 l2 hj hi hw =>
    rcases hc with hc | hc
    · rw [hj] at hc; cases hc
    · exact absurd rfl (hc _)
  | _ => rfl

theorem exec_dispatched_no_send : ∀ (tr : List Event) (s s' : RunState), exec s tr = some s' →
    (∀ e ∈ tr, ∀ w, e ≠ .jobsSend w) → s'.dispatched = s.dispatched
  | [], s, s', h, _ => by simp [exec] at h; subst h; rfl
  | e :: es, s, s', h, hns => by
    simp only [exec] at h
    split at h
    · rename_i s1 h1
      rw [exec_dispatched_no_send es s1 s' h (fun e he => hns e (List.mem_cons_of_mem _ he)),
        step_dispatched_frozen (step_sound h1) (Or.inr (hns e (List.mem_cons_self _ _)))]
    · simp at h

theorem exec_dispatched_closed : ∀ (tr : List Event) (s s' : RunState), exec s tr = some s' →
    s.jobsClosed = true → s'.dispatched = s.dispatched
  | [], s, s', h, _ => by simp [exec] at h; subst h; rfl
  | e :: es, s, s', h, hc => by
    simp only [exec] at h
    split at h
    · rename_i s1 h1
      rw [exec_dispatched_closed es s1 s' h (step_jobsClosed_mono (step_sound h1) hc),
        step_dispatched_frozen (step_sound h1) (Or.inl hc)]
    · simp at h

/-- Counterexample to C8 as stated: one job, one worker, the context is done
before anything else happens, yet the producer's select takes the send case
(a worker is ready to receive, and select chooses among the ready cases), the
job is handed over, and `run` returns `Handled == 1`. -/
theorem cancel_before_first_job_counterexample :
    validateConfig oneJobConfig = none ∧
    lateSendSchedule.head? = some (.cancel .deadline) ∧
    exec (init oneJobConfig) lateSendSchedule = some (runOf oneJobConfig lateSendSchedule) ∧
    (runOf oneJobConfig lateSendSchedule).dispatched = [(1, 0)] ∧
    (runOf oneJobConfig lateSendSchedule).returned = some ⟨1, 1, 0, 1, 2⟩ :=
  ⟨by decide, by decide, rfl, by decide, by decide⟩

/-- Claim C8, amended: if the producer's select takes the case `<-ctx.Done()`
before any job has been handed over, then no job is ever handed over, no
Result is produced, and `run` returns a Summary with `Handled == 0`; until it
has returned some event other than the cancel signal is enabled. -/
theorem producer_stop_before_first_job (cfg : Config) (pre post : List Event) (s : RunState)
    (hv : validateConfig cfg = none)
    (h : exec (init cfg) (pre ++ .producerCtxDone :: post) = some s)
    (hpre : ∀ e ∈ pre, ∀ w, e ≠ .jobsSend w) :
    s.dispatched = [] ∧ s.delivered = [] ∧ inFlight s = [] ∧
    (∀ sm, s.returned = some sm → sm.Handled = 0) ∧
    (s.returned = none → ∃ e, e.isCancel = false ∧ (step s e).isSome = true) := by
  have hinv := inv_reachable h
  have hcfg : s.cfg = cfg := by simpa [init] using exec_cfg _ _ _ h
  obtain ⟨s1, h1, h2⟩ := (exec_append pre _ _ _).mp h
  have hd1 : s1.dispatched = [] := by
    rw [exec_dispatched_no_send pre _ _ h1 hpre]; rfl
  simp only [exec] at h2
  have hdisp : s.dispatched = [] := by
    cases hs : step s1 .producerCtxDone with
    | none => simp [hs] at h2
    | some s2 =>
      rw [hs] at h2
      have hst := step_sound hs
      have hc2 : s2.jobsClosed = true := by cases hst; rfl
      rw [exec_dispatched_closed post s2 s h2 hc2,
        step_dispatched_frozen hst (Or.inr (fun w => by simp)), hd1]
  have hlen := delivered_le_dispatched hinv
  rw [hdisp] at hlen
  simp only [List.length_nil, Nat.add_eq_zero, List.length_eq_zero] at hlen
  refine ⟨hdisp, hlen.1, hlen.2, ?_, ?_⟩
  · intro sm hr
    obtain ⟨_, hsm⟩ := hinv.returned_eq sm hr
    have h1 : sm.Handled = s.summary.Handled := by rw [hsm]
    rw [h1, hinv.handled, hlen.1]; rfl
  · intro hr
    exact progress hinv (by rw [hcfg]; exact (valid_pos hv).2.1) hr

/-- Witness for the amended C8: one job, one worker, the context is done first
and the producer's select takes `<-ctx.Done()`. -/
theorem producer_stop_before_first_job_witness :
    (runOf oneJobConfig earlyStopSchedule).returned = some ⟨1, 0, 0, 0, 2⟩ ∧
    (runOf oneJobConfig earlyStopSchedule).dispatched = [] ∧
    (runOf oneJobConfig earlyStopSchedule).delivered = [] :=
  ⟨by decide,
   (producer_stop_before_first_job oneJobConfig [.cancel .deadline]
      [.workerExit 0, .closeResults, .aggregatorReturn 2]
      (runOf oneJobConfig earlyStopSchedule) (by decide) rfl (by simp)).1,
   by decide⟩

/-- Claim C9: in any run no job id appears in more than one Result, delivered
or still held by a worker; the ids handed over on `jobs` are pairwise distinct,
so each id goes to at most one worker, and each is reported at most once. -/
theorem job_id_in_at_most_one_result (cfg : Config) (tr : List Event) (s : RunState)
    (h : exec (init cfg) tr = some s) :
    (s.delivered.map result.id ++ inFlight s).Nodup ∧
    s.delivered.Pairwise (fun r1 r2 => r1.id ≠ r2.id) ∧
    (s.dispatched.map Prod.fst).Nodup ∧
    (∀ id w1 w2, (id, w1) ∈ s.dispatched → (id, w2) ∈ s.dispatched → w1 = w2) := by
  have hinv := inv_reachable h
  have hnd : (s.dispatched.map Prod.fst).Nodup := by rw [hinv.disp]; exact idsUpTo_nodup _
  have hall : (s.delivered.map result.id ++ inFlight s).Nodup :=
    (hinv.conserve.nodup_iff).mpr hnd
  refine ⟨hall, ?_, hnd, ?_⟩
  · have := (List.nodup_append.mp hall).1
    rw [List.Nodup, List.pairwise_map] at this
    exact this
  · intro id w1 w2 h1 h2
    have := List.inj_on_of_nodup_map hnd h1 h2 rfl
    exact congrArg Prod.snd this

/-- Witness for C9: the run of the default configuration in which the deadline
passes mid-run. -/
theorem job_id_in_at_most_one_result_witness :
    (runOf defaultConfig cancelledSchedule).delivered.map result.id = [1, 2, 3, 6, 4, 5] ∧
    ((runOf defaultConfig cancelledSchedule).delivered.map result.id
      ++ inFlight (runOf defaultConfig cancelledSchedule)).Nodup :=
  ⟨by decide,
   (job_id_in_at_most_one_result defaultConfig cancelledSchedule
      (runOf defaultConfig cancelledSchedule) rfl).1⟩

end Capstone

namespace Gate

theorem step_holders {s s' : GateState} {e : GateEvent} (h : step s e = some s')
    (hinv : holders s = s.sem.buf.length ∧ s.sem.buf.length ≤ s.sem.cap) :
    (holders s' = s'.sem.buf.length ∧ s'.sem.buf.length ≤ s'.sem.cap) ∧ s'.sem.cap = s.sem.cap := by
  obtain ⟨hh, hle⟩ := hinv
  cases e with
  | acquire t =>
    simp only [step] at h
    split at h
    · rename_i ht
      split at h
      · rename_i sem hsend
        simp only [Option.some.injEq] at h
        subst h
        obtain ⟨l1, l2, h1, h2⟩ := Capstone.getElem?_split _ _ _ ht
        simp only [Chan.send] at hsend
        split at hsend
        · rename_i hlt
          simp only [Option.some.injEq] at hsend
          subst hsend
          simp only [holders, h1] at hh
          simp only [holders]
          rw [h2]
          simp at hh ⊢
          omega
        · simp at hsend
      · simp at h
    · simp at h
  | release t =>
    simp only [step] at h
    split at h
    · rename_i ht
      split at h
      · rename_i u sem hrecv
        simp only [Option.some.injEq] at h
        subst h
        obtain ⟨l1, l2, h1, h2⟩ := Capstone.getElem?_split _ _ _ ht
        simp only [Chan.recv] at hrecv
        split at hrecv
        · rename_i v rest hbuf
          simp only [Option.some.injEq, Prod.mk.injEq] at hrecv
          obtain ⟨_, hsem⟩ := hrecv
          subst hsem
          simp only [holders, h1] at hh
          simp only [holders]
          rw [h2]
          rw [hbuf] at hh hle
          simp at hh hle ⊢
          omega
        · simp at hrecv
      · simp at h
    · simp at h

theorem exec_holders : ∀ (tr : List GateEvent) (s s' : GateState), exec s tr = some s' →
    (holders s = s.sem.buf.length ∧ s.sem.buf.length ≤ s.sem.cap) →
    (holders s' = s'.sem.buf.length ∧ s'.sem.buf.length ≤ s'.sem.cap) ∧ s'.sem.cap = s.sem.cap
  | [], s, s', h, hinv => by simp [exec] at h; subst h; exact ⟨hinv, rfl⟩
  | e :: es, s, s', h, hinv => by
    simp only [exec] at h
    split at h
    · rename_i s1 h1
      obtain ⟨hi1, hc1⟩ := step_holders h1 hinv
      obtain ⟨hi2, hc2⟩ := exec_holders es s1 s' h hi1
      exact ⟨hi2, hc2.trans hc1⟩
    · simp at h

/-- Claim C10: for the gate backed by a buffered channel of capacity
`limit >= 1`, in every state reachable by any interleaving of acquire and
release steps of any number of tasks the number of holders is at least 0 and
at most `limit`; it equals the number of values buffered in the channel. -/
theorem holders_within_limit (limit n : Nat) (tr : List GateEvent) (s : GateState)
    (_hl : 1 ≤ limit) (h : exec (init limit n) tr = some s) :
    0 ≤ holders s ∧ holders s ≤ limit ∧ holders s = s.sem.buf.length := by
  have hinit : holders (init limit n) = (init limit n).sem.buf.length ∧
      (init limit n).sem.buf.length ≤ (init limit n).sem.cap := by
    simp [holders, init, Chan.make, List.count_replicate]
  obtain ⟨⟨hh, hle⟩, hcap⟩ := exec_holders tr _ _ h hinit
  have hc : s.sem.cap = limit := by rw [hcap]; rfl
  refine ⟨Nat.zero_le _, ?_, hh⟩
  omega

/-- Witness for C10: three tasks on a gate of two slots; after tasks 0 and 1
acquired, task 0 released and task 2 acquired, there are two holders. -/
theorem holders_within_limit_witness :
    exec (init 2 3) threeTasks = some (stateOf 2 3 threeTasks) ∧
    holders (stateOf 2 3 threeTasks) = 2 ∧
    (0 ≤ holders (stateOf 2 3 threeTasks) ∧ holders (stateOf 2 3 threeTasks) ≤ 2 ∧
      holders (stateOf 2 3 threeTasks) = (stateOf 2 3 threeTasks).sem.buf.length) :=
  ⟨rfl, by decide,
   holders_within_limit 2 3 threeTasks (stateOf 2 3 threeTasks) (by decide) rfl⟩

end Gate

/-! # Outcomes, channel closes and logging of the capstone engine -/

namespace Capstone

theorem processJob_none_case {id : Int} {c : SelectCase} {err : Err}
    (h : processJob none id c = some err) : c = .timerC := by
  cases c with
  | timerC => rfl
  | ctxDone => simp [processJob] at h

theorem processJob_timer_ctx (ctxErr ctxErr2 : Err) (id : Int) :
    processJob ctxErr id .timerC = processJob ctxErr2 id .timerC := rfl

theorem outcome_after_cancel {r : result} (e : GoError) (h : IsProcessJobOutcome none r) :
    IsProcessJobOutcome (some e) r := by
  obtain ⟨c, hc⟩ := h
  have := processJob_none_case hc
  subst this
  exact ⟨.timerC, hc⟩

theorem outcomes_init (cfg : Config) : Outcomes (init cfg) where
  failed_eq := rfl
  canceled_eq := rfl
  delivered_out := by simp [init]
  held_out := by simp [init, List.mem_replicate]
  ctx_cause := by simp [init]

theorem outcomes_jobDone {s : RunState} (h : Outcomes s) (l1 l2 : List WorkerSt)
    (jobID cost : Int) (err : Err) (c : SelectCase)
    (hw : s.workers = l1 ++ .inProcessJob jobID :: l2)
    (hp : processJob s.ctxErr jobID c = some err) :
    Outcomes { s with workers := l1 ++ .sendResult ⟨jobID, err, cost⟩ :: l2 } := by
  refine { h with held_out := ?_ }
  intro r hr
  by_cases heq : WorkerSt.sendResult r = WorkerSt.sendResult ⟨jobID, err, cost⟩
  · simp only [WorkerSt.sendResult.injEq] at heq
    subst heq
    exact ⟨c, hp⟩
  · exact h.held_out r (by rw [hw]; exact mem_replace hr heq)

theorem outcomes_step {s s' : RunState} {e : Event} (h : Outcomes s) (hstep : Step s e s') :
    Outcomes s' := by
  cases hstep with
  | cancel c hc =>
    refine { h with delivered_out := ?_, held_out := ?_, ctx_cause := ?_ }
    · intro r hr
      have := h.delivered_out r hr
      rw [hc] at this
      exact outcome_after_cancel _ this
    · intro r hr
      have := h.held_out r hr
      rw [hc] at this
      exact outcome_after_cancel _ this
    · intro e he
      simp only [Option.some.injEq] at he
      exact ⟨c, he.symm⟩
  | jobsSend l1 l2 hc hi hw =>
    refine { h with held_out := ?_ }
    intro r hr
    exact h.held_out r (by rw [hw]; exact mem_replace hr (by simp))
  | producerCtxDone hc hi hx => exact { h with }
  | producerLoopEnd hc hi => exact { h with }
  | jobTimer l1 l2 jobID cost err hw hp => exact outcomes_jobDone h l1 l2 jobID cost err _ hw hp
  | jobCtxDone l1 l2 jobID cost err hw hp => exact outcomes_jobDone h l1 l2 jobID cost err _ hw hp
  | resultsSend l1 l2 res hc hr hw =>
    have hres := h.held_out res (by simp [hw])
    refine { h with failed_eq := ?_, canceled_eq := ?_, delivered_out := ?_, held_out := ?_ }
    · have := h.failed_eq
      simp only [aggregate_Failed, List.filter_append, List.length_append, this]
      by_cases hf : res.err.isSome = true ∧ isCancelErr res.err = false
      · simp [hf, List.filter_cons]
      · simp only [hf, if_false]
        have : (res.err.isSome && !isCancelErr res.err) = false := by
          cases h1 : res.err.isSome <;> cases h2 : isCancelErr res.err <;> simp_all
        simp [List.filter_cons, this]
    · have := h.canceled_eq
      simp only [aggregate_Canceled, List.filter_append, List.length_append, this]
      cases hcn : isCancelErr res.err <;> simp [List.filter_cons, hcn]
    · intro r hr
      simp only [List.mem_append, List.mem_singleton] at hr
      rcases hr with hr | hr
      · exact h.delivered_out r hr
      · rw [hr]; exact hres
    · intro r hr
      exact h.held_out r (by rw [hw]; exact mem_replace hr (by simp))
  | workerExit l1 l2 hc hw =>
    refine { h with held_out := ?_ }
    intro r hr
    exact h.held_out r (by rw [hw]; exact mem_replace hr (by simp))
  | closeResults hwg hc => exact { h with }
  | aggregatorReturn elapsed hc hr => exact { h with }

theorem outcomes_exec : ∀ (tr : List Event) (s s' : RunState), Outcomes s →
    exec s tr = some s' → Outcomes s'
  | [], s, s', ho, h => by simp [exec] at h; subst h; exact ho
  | e :: es, s, s', ho, h => by
    simp only [exec] at h
    split at h
    · rename_i s1 h1
      exact outcomes_exec es s1 s' (outcomes_step ho (step_sound h1)) h
    · simp at h

theorem outcomes_reachable {cfg : Config} {tr : List Event} {s : RunState}
    (h : exec (init cfg) tr = some s) : Outcomes s :=
  outcomes_exec tr _ _ (outcomes_init cfg) h


theorem getElem?_at_split {l1 l2 : List WorkerSt} {a : WorkerSt} :
    (l1 ++ a :: l2)[l1.length]? = some a := by
  rw [List.getElem?_append_right (Nat.le_refl _)]
  simp

theorem getElem?_other {l1 l2 : List WorkerSt} (a b : WorkerSt) {w : Nat}
    (hne : w ≠ l1.length) : (l1 ++ b :: l2)[w]? = (l1 ++ a :: l2)[w]? := by
  rcases Nat.lt_or_gt_of_ne hne with hlt | hgt
  · rw [List.getElem?_append_left hlt, List.getElem?_append_left hlt]
  · rw [List.getElem?_append_right (by omega), List.getElem?_append_right (by omega)]
    obtain ⟨k, hk⟩ : ∃ k, w - l1.length = k + 1 := ⟨w - l1.length - 1, by omega⟩
    rw [hk]
    simp

theorem getElem?_moved {l1 l2 : List WorkerSt} {a b x : WorkerSt} {w : Nat}
    (hw : (l1 ++ a :: l2)[w]? = some x) (hne : x ≠ a) : (l1 ++ b :: l2)[w]? = some x := by
  by_cases hwl : w = l1.length
  · subst hwl
    rw [getElem?_at_split] at hw
    simp only [Option.some.injEq] at hw
    exact absurd hw.symm hne
  · rw [getElem?_other a b hwl]; exact hw

/-- A worker blocked in its send on `results` stays there, with the same
result, until that very result is delivered. -/
theorem step_keeps_result {s s' : RunState} {e : Event} {w : Nat} {r : result}
    (hstep : Step s e s') (hw : s.workers[w]? = some (.sendResult r)) :
    s'.workers[w]? = some (.sendResult r) ∨
      (e = .resultsSend w ∧ s'.delivered = s.delivered ++ [r]) := by
  cases hstep with
  | cancel c hc => exact Or.inl hw
  | jobsSend l1 l2 hc hi hws =>
    rw [hws] at hw; exact Or.inl (getElem?_moved hw (by simp))
  | producerCtxDone hc hi hx => exact Or.inl hw
  | producerLoopEnd hc hi => exact Or.inl hw
  | jobTimer l1 l2 jobID cost err hws hp =>
    rw [hws] at hw; exact Or.inl (getElem?_moved hw (by simp))
  | jobCtxDone l1 l2 jobID cost err hws hp =>
    rw [hws] at hw; exact Or.inl (getElem?_moved hw (by simp))
  | resultsSend l1 l2 res hc hr hws =>
    rw [hws] at hw
    by_cases heq : r = res
    · subst heq
      by_cases hwl : w = l1.length
      · subst hwl; exact Or.inr ⟨rfl, rfl⟩
      · exact Or.inl (by rw [getElem?_other (.sendResult r) _ hwl]; exact hw)
    · exact Or.inl (getElem?_moved hw (by simpa using heq))
  | workerExit l1 l2 hc hws =>
    rw [hws] at hw; exact Or.inl (getElem?_moved hw (by simp))
  | closeResults hwg hc => exact Or.inl hw
  | aggregatorReturn elapsed hc hr => exact Or.inl hw


theorem step_closes {s s' : RunState} {e : Event} (hstep : Step s e s') :
    (if s'.jobsClosed = true then 1 else 0) =
      (if s.jobsClosed = true then 1 else 0) + (if e.closesJobs = true then 1 else 0) := by
  cases hstep with
  | producerCtxDone hc hi hx => simp [hc, Event.closesJobs]
  | producerLoopEnd hc hi => simp [hc, Event.closesJobs]
  | _ => simp [Event.closesJobs]

theorem exec_closes : ∀ (tr : List Event) (s s' : RunState), exec s tr = some s' →
    (if s'.jobsClosed = true then 1 else 0) =
      (if s.jobsClosed = true then 1 else 0) + tr.countP Event.closesJobs
  | [], s, s', h => by simp [exec] at h; subst h; simp
  | e :: es, s, s', h => by
    simp only [exec] at h
    split at h
    · rename_i s1 h1
      have ih := exec_closes es s1 s' h
      have hs := step_closes (step_sound h1)
      rw [ih, hs, List.countP_cons]
      omega
    · simp at h

/-- Unless `run` has returned, some event other than the cancel signal is
enabled, whatever the configuration. -/
theorem progress_any {s : RunState} (hinv : Inv s) (hr : s.returned = none) :
    ∃ e, e.isCancel = false ∧ (step s e).isSome = true := by
  by_cases hw : s.workers = []
  · have hwg : s.wg = 0 := by rw [hinv.wg_eq, hw]; rfl
    cases hc : s.resultsClosed with
    | false => exact ⟨.closeResults, rfl, by simp [step, hwg, hc]⟩
    | true => exact ⟨.aggregatorReturn 0, rfl, by simp [step, hc, hr]⟩
  · refine progress hinv ?_ hr
    have := hinv.nworkers
    have hl : 0 < s.workers.length := List.length_pos.mpr hw
    omega

/-- Claim C11: `results` is closed only after every worker has exited: the
close is enabled only then, and whenever `results` is closed every worker has
exited, the wait group is at zero, no worker is at (or will come to) a send on
`results`, and every job handed over has had its Result delivered. -/
theorem results_closed_after_workers (cfg : Config) (tr : List Event) (s : RunState)
    (h : exec (init cfg) tr = some s) :
    (∀ s', step s .closeResults = some s' → ∀ st ∈ s.workers, st = WorkerSt.exited) ∧
    (s.resultsClosed = true →
      (∀ st ∈ s.workers, st = WorkerSt.exited) ∧ s.wg = 0 ∧
      (∀ (w : Nat) res, s.workers[w]? ≠ some (.sendResult res)) ∧
      inFlight s = [] ∧
      (s.delivered.map result.id).Perm (s.dispatched.map Prod.fst)) := by
  have hinv := inv_reachable h
  constructor
  · intro s' hs st hst
    simp only [step] at hs
    split at hs
    · rename_i hg
      have h0 := hg.1
      rw [hinv.wg_eq, List.countP_eq_zero] at h0
      simpa using h0 st hst
    · simp at hs
  · intro hc
    have hall := all_exited_of_closed hinv hc
    refine ⟨hall, hinv.closed_wg hc, ?_, inFlight_nil_of_closed hinv hc, ?_⟩
    · intro w res hw
      have := hall _ (List.getElem?_mem hw)
      cases this
    · have hperm := hinv.conserve
      rw [inFlight_nil_of_closed hinv hc, List.append_nil] at hperm
      exact hperm

/-- Witness for C11: the run of the default configuration in which the deadline
passes mid-run; when `results` is closed all six hand-overs have been
delivered. -/
theorem results_closed_after_workers_witness :
    (runOf defaultConfig cancelledSchedule).resultsClosed = true ∧
    (runOf defaultConfig cancelledSchedule).workers = [.exited, .exited, .exited] ∧
    ((runOf defaultConfig cancelledSchedule).delivered.map result.id).Perm
      ((runOf defaultConfig cancelledSchedule).dispatched.map Prod.fst) :=
  ⟨by decide, by decide,
   ((results_closed_after_workers defaultConfig cancelledSchedule
      (runOf defaultConfig cancelledSchedule) rfl).2 (by decide)).2.2.2.2⟩

/-- Claim C12: `close(jobs)` runs at most once in any schedule and exactly once
by the time `jobs` is closed; the only events that close `jobs` are the two
ways out of the producer goroutine, the loop end after all `Jobs` ids have been
handed over and the case `<-ctx.Done()` once the cancel signal has fired, and
neither is enabled once `jobs` is closed.  With a valid config `jobs` has been
closed when `run` returns. -/
theorem jobs_closed_once_by_producer (cfg : Config) (tr : List Event) (s : RunState)
    (h : exec (init cfg) tr = some s) :
    tr.countP Event.closesJobs = (if s.jobsClosed = true then 1 else 0) ∧
    (∀ e s', step s e = some s' → s'.jobsClosed ≠ s.jobsClosed →
      s.jobsClosed = false ∧ s'.jobsClosed = true ∧
      ((e = .producerLoopEnd ∧ s.dispatched.map Prod.fst = idsUpTo cfg.Jobs.toNat) ∨
       (e = .producerCtxDone ∧ s.ctxErr ≠ none))) ∧
    (∀ e, e.closesJobs = true → s.jobsClosed = true → step s e = none) ∧
    (validateConfig cfg = none → s.returned ≠ none → s.jobsClosed = true) := by
  have hinv := inv_reachable h
  have hcfg : s.cfg = cfg := by simpa [init] using exec_cfg tr _ _ h
  refine ⟨?_, ?_, ?_, ?_⟩
  · have := exec_closes tr _ _ h
    simp only [init] at this
    simp only [Bool.false_eq_true, if_false, Nat.zero_add] at this
    exact this.symm
  · intro e s' hs hne
    have hst := step_sound hs
    cases hst with
    | producerCtxDone hc hi hx => exact ⟨hc, rfl, Or.inr ⟨rfl, hx⟩⟩
    | producerLoopEnd hc hi =>
      refine ⟨hc, rfl, Or.inl ⟨rfl, ?_⟩⟩
      rw [hinv.disp]
      congr 1
      have h1 := hinv.i_le
      have h2 := hinv.i_pos
      rw [hcfg] at h1 hi
      omega
    | _ => exact absurd rfl hne
  · intro e he hc
    cases e <;> simp [Event.closesJobs] at he <;> simp [step, hc]
  · intro hv hr
    have hw : 0 < s.cfg.Workers := by rw [hcfg]; exact (valid_pos hv).2.1
    cases hret : s.returned with
    | none => exact absurd hret hr
    | some sm => exact jobsClosed_of_closed hinv hw (hinv.returned_eq sm hret).1

/-- Witness for C12: the complete run of the default configuration without
cancellation holds exactly one event that closes `jobs`. -/
theorem jobs_closed_once_by_producer_witness :
    (runOf defaultConfig fullSchedule).jobsClosed = true ∧
    fullSchedule.countP Event.closesJobs = 1 :=
  ⟨by decide,
   (jobs_closed_once_by_producer defaultConfig fullSchedule (runOf defaultConfig fullSchedule)
      rfl).1⟩


/-- Counterexample to C13 as stated: one job, one worker; the worker is blocked
in its send on `results` and the context is done, yet no event takes the worker
out of the send without the result being delivered: the send is not a select
with a case `<-ctx.Done()`. -/
theorem result_send_raced_counterexample :
    (runOf oneJobConfig cancelDuringSend).workers = [.sendResult ⟨1, none, 120⟩] ∧
    (runOf oneJobConfig cancelDuringSend).ctxErr = some .contextDeadlineExceeded ∧
    ¬ ∃ e s', step (runOf oneJobConfig cancelDuringSend) e = some s' ∧
        s'.workers[0]? ≠ some (.sendResult ⟨1, none, 120⟩) ∧
        s'.delivered = (runOf oneJobConfig cancelDuringSend).delivered :=
  ⟨by decide, by decide, by
    rintro ⟨e, s', hs, hw, hd⟩
    have hcur : (runOf oneJobConfig cancelDuringSend).workers[0]?
        = some (.sendResult ⟨1, none, 120⟩) := by decide
    rcases step_keeps_result (step_sound hs) hcur with h1 | ⟨_, h2⟩
    · exact hw h1
    · rw [h2] at hd
      simp at hd⟩

/-- Claim C13, amended: in the capstone worker only the wait inside
`processJob` is raced against the cancel signal (once the context is done its
case `<-ctx.Done()` is enabled); the hand-off of a Result is a plain send on
`results`, which the worker leaves only by delivering that Result.  The send
still never blocks forever: whenever a worker is at the send, `results` is
open and the aggregator has not returned, so the delivery is enabled, and no
schedule has more than `3 * Jobs + Workers + 4` events. -/
theorem result_send_plain_but_live (cfg : Config) (tr : List Event) (s : RunState)
    (h : exec (init cfg) tr = some s) :
    (∀ (w : Nat) res, s.workers[w]? = some (.sendResult res) →
      (step s (.resultsSend w)).isSome = true ∧
      ∀ e s', step s e = some s' →
        s'.workers[w]? = some (.sendResult res) ∨
        (e = .resultsSend w ∧ s'.delivered = s.delivered ++ [res])) ∧
    (∀ (w : Nat) jobID, s.workers[w]? = some (.inProcessJob jobID) → s.ctxErr ≠ none →
      ∀ cost, (step s (.jobCtxDone w cost)).isSome = true) ∧
    tr.length ≤ 3 * cfg.Jobs.toNat + cfg.Workers.toNat + 4 := by
  have hinv := inv_reachable h
  refine ⟨?_, ?_, ?_⟩
  · intro w res hw
    have hm := List.getElem?_mem hw
    have hpos := wg_pos_of_mem hinv hm (by simp)
    have hcl : s.resultsClosed = false := by
      cases hc : s.resultsClosed with
      | false => rfl
      | true => have := hinv.closed_wg hc; omega
    have hr : s.returned = none := by
      cases hret : s.returned with
      | none => rfl
      | some sm => have := (hinv.returned_eq sm hret).1; rw [hcl] at this; cases this
    refine ⟨by simp [step, hw, hcl, hr], ?_⟩
    intro e s' hs
    exact step_keeps_result (step_sound hs) hw
  · intro w jobID hw hx cost
    cases hctx : s.ctxErr with
    | none => exact absurd hctx hx
    | some g => simp [step, hw, processJob, hctx]
  · have := exec_measure tr _ _ h
    rw [measure_init] at this
    omega

/-- Witness for the amended C13: the worker blocked in its send while the
context is done can deliver its result. -/
theorem result_send_plain_but_live_witness :
    (runOf oneJobConfig cancelDuringSend).workers[0]? = some (.sendResult ⟨1, none, 120⟩) ∧
    (step (runOf oneJobConfig cancelDuringSend) (.resultsSend 0)).isSome = true :=
  ⟨by decide,
   ((result_send_plain_but_live oneJobConfig cancelDuringSend
      (runOf oneJobConfig cancelDuringSend) rfl).1 0 ⟨1, none, 120⟩ (by decide)).1⟩

theorem step_delivered_mem {s s' : RunState} {e : Event} {r : result} (hstep : Step s e s')
    (hr : r ∈ s.delivered) : r ∈ s'.delivered := by
  cases hstep with
  | resultsSend l1 l2 res hc hret hw => exact List.mem_append_left _ hr
  | _ => exact hr

theorem exec_keeps_result : ∀ (tr : List Event) (s s' : RunState) (w : Nat) (r : result),
    exec s tr = some s' → (s.workers[w]? = some (.sendResult r) ∨ r ∈ s.delivered) →
    (s'.workers[w]? = some (.sendResult r) ∨ r ∈ s'.delivered)
  | [], s, s', w, r, h, hp => by simp [exec] at h; subst h; exact hp
  | e :: es, s, s', w, r, h, hp => by
    simp only [exec] at h
    split at h
    · rename_i s1 h1
      refine exec_keeps_result es s1 s' w r h ?_
      rcases hp with hp | hp
      · rcases step_keeps_result (step_sound h1) hp with h2 | ⟨_, h2⟩
        · exact Or.inl h2
        · exact Or.inr (by rw [h2]; simp)
      · exact Or.inr (step_delivered_mem (step_sound h1) hp)
    · simp at h

/-- Claim C14: when the select of `processJob` takes the timer case for job
`jobID` in worker `w`, the worker's Result carries exactly the error that call
returned, which is not a cancellation error; whatever happens afterwards, a
cancel signal included, that same Result is what the worker holds until it is
delivered and what the aggregator then has, and it is never counted as
Canceled.  The aggregator's step depends on a Result only through its error. -/
theorem result_carries_processJob_error (cfg : Config) (tr tr2 : List Event)
    (s s1 s2 : RunState) (w : Nat) (cost : Int)
    (h : exec (init cfg) tr = some s) (h1 : step s (.jobTimer w cost) = some s1)
    (h2 : exec s1 tr2 = some s2) :
    (∃ jobID err, s.workers[w]? = some (.inProcessJob jobID) ∧
      processJob s.ctxErr jobID .timerC = some err ∧
      isCancelErr err = false ∧
      s1.workers[w]? = some (.sendResult ⟨jobID, err, cost⟩) ∧
      (s2.workers[w]? = some (.sendResult ⟨jobID, err, cost⟩) ∨
        (⟨jobID, err, cost⟩ : result) ∈ s2.delivered) ∧
      ∀ sm, (aggregate sm ⟨jobID, err, cost⟩).Canceled = sm.Canceled) ∧
    (∀ sm (r1 r2 : result), r1.err = r2.err → aggregate sm r1 = aggregate sm r2) ∧
    (∀ r ∈ s2.delivered, IsProcessJobOutcome s2.ctxErr r) := by
  refine ⟨?_, ?_, ?_⟩
  · simp only [step] at h1
    split at h1
    · rename_i jobID hw
      split at h1
      · rename_i err hp
        simp only [Option.some.injEq] at h1
        have hnc := processJob_timer_not_cancel hp
        have hw1 : s1.workers[w]? = some (.sendResult ⟨jobID, err, cost⟩) := by
          subst h1
          have hlt : w < s.workers.length := by
            by_contra hge
            rw [List.getElem?_eq_none (by omega)] at hw
            cases hw
          simp [List.getElem?_set, hlt]
        refine ⟨jobID, err, hw, hp, hnc, hw1, ?_, ?_⟩
        · exact exec_keeps_result tr2 s1 s2 w _ h2 (Or.inl hw1)
        · intro sm
          rw [aggregate_Canceled]
          simp [hnc]
      · simp at h1
    · simp at h1
  · intro sm r1 r2 he
    simp only [aggregate, he]
  · have h12 : exec (init cfg) (tr ++ .jobTimer w cost :: tr2) = some s2 := by
      rw [exec_append]
      exact ⟨s, h, by simp only [exec, h1]; exact h2⟩
    exact (outcomes_reachable h12).delivered_out

/-- Witness for C14: one job, one worker; the timer case is taken, then the
deadline passes while the worker is blocked in its send; the Result delivered
afterwards still carries no error. -/
theorem result_carries_processJob_error_witness :
    (runOf oneJobConfig (cancelDuringSend ++ afterCancelDuringSend)).returned
        = some ⟨1, 1, 0, 0, 130⟩ ∧
    ∃ jobID err, (runOf oneJobConfig [.jobsSend 0]).workers[0]? = some (.inProcessJob jobID) ∧
      processJob (runOf oneJobConfig [.jobsSend 0]).ctxErr jobID .timerC = some err ∧
      isCancelErr err = false ∧
      (runOf oneJobConfig [.jobsSend 0, .jobTimer 0 120]).workers[0]?
        = some (.sendResult ⟨jobID, err, 120⟩) ∧
      ((runOf oneJobConfig (cancelDuringSend ++ afterCancelDuringSend)).workers[0]?
          = some (.sendResult ⟨jobID, err, 120⟩) ∨
        (⟨jobID, err, 120⟩ : result)
          ∈ (runOf oneJobConfig (cancelDuringSend ++ afterCancelDuringSend)).delivered) ∧
      ∀ sm, (aggregate sm ⟨jobID, err, 120⟩).Canceled = sm.Canceled :=
  ⟨by decide,
   (result_carries_processJob_error oneJobConfig [.jobsSend 0]
      (.cancel .deadline :: afterCancelDuringSend)
      (runOf oneJobConfig [.jobsSend 0]) (runOf oneJobConfig [.jobsSend 0, .jobTimer 0 120])
      (runOf oneJobConfig (cancelDuringSend ++ afterCancelDuringSend)) 0 120 rfl rfl rfl).1⟩


theorem failed_count_no_cancel {s : RunState} (ho : Outcomes s) (hx : s.ctxErr = none) :
    s.summary.Failed =
      ((s.delivered.map result.id).filter (fun id => decide (Int.tmod id 9 = 0))).length := by
  rw [ho.failed_eq, List.filter_map, List.length_map]
  congr 2
  apply List.filter_congr
  intro r hr
  obtain ⟨c, hc⟩ := ho.delivered_out r hr
  rw [hx] at hc
  have := processJob_none_case hc
  subst this
  simp only [processJob] at hc
  by_cases h9 : Int.tmod r.id 9 = 0
  · simp only [h9, if_true, Option.some.injEq] at hc
    simp [← hc, h9, isCancelErr, isCancellation, errorsIs, errorfJob]
  · simp only [h9, if_false, Option.some.injEq] at hc
    simp [← hc, h9, isCancelErr]

theorem delivered_ids_no_cancel {cfg : Config} {tr : List Event} {s : RunState} {sm : Summary}
    (hv : validateConfig cfg = none) (h : exec (init cfg) tr = some s)
    (hnc : ∀ e ∈ tr, e.isCancel = false) (hr : s.returned = some sm) :
    (s.delivered.map result.id).Perm (idsUpTo cfg.Jobs.toNat) := by
  have hinv := inv_reachable h
  have hcfg : s.cfg = cfg := by simpa [init] using exec_cfg tr _ _ h
  have hw : 0 < s.cfg.Workers := by rw [hcfg]; exact (valid_pos hv).2.1
  obtain ⟨hc, _⟩ := hinv.returned_eq sm hr
  have hx := exec_ctxErr_none tr _ _ h rfl hnc
  have hlt := (hinv.nocancel hx).2.2 (jobsClosed_of_closed hinv hw hc)
  have hperm := hinv.conserve
  rw [inFlight_nil_of_closed hinv hc, List.append_nil, hinv.disp] at hperm
  have hi := hinv.i_le
  have hp := (valid_pos hv).1
  rw [hcfg] at hi hlt
  have : (s.i - 1).toNat = cfg.Jobs.toNat := by omega
  rw [this] at hperm
  exact hperm

/-- Claim C15: without cancellation `processJob(id)` can only return by its
timer case, and then it fails exactly when `id % 9 == 0` and succeeds
otherwise; the error of a failure is not `errJobFailed` itself but the error
with the text "job <id>: job failed" that wraps it, `errors.Is` finds
`errJobFailed` in it, and it is not a cancellation error.  In a run in which
the cancel signal never fires every delivered Result carries that error when
its id is a multiple of 9 and no error otherwise.  Hence every run with
`Jobs = 9`, `Workers = 3` in which the cancel signal never fires returns
`Handled = 9`, `Failed = 1`, `Canceled = 0`, eight results without error; such
a run does return: until then some event other than the cancel signal is
enabled, and it has at most 34 events. -/
theorem nine_jobs_one_failure (timeout : Int) (tr : List Event) (s : RunState)
    (ht : 0 < timeout) (h : exec (init ⟨9, 3, timeout⟩) tr = some s)
    (hnc : ∀ e ∈ tr, e.isCancel = false) :
    (∀ id : Int,
      processJob none id .ctxDone = none ∧
      (Int.tmod id 9 = 0 →
        processJob none id .timerC
          = some (some (.wrap ("job " ++ toString id ++ ": " ++ "job failed") .errJobFailed))) ∧
      (Int.tmod id 9 ≠ 0 → processJob none id .timerC = some none) ∧
      (∀ err, processJob none id .timerC = some (some err) →
        Int.tmod id 9 = 0 ∧ err ≠ .errJobFailed ∧
        err = .wrap ("job " ++ toString id ++ ": " ++ "job failed") .errJobFailed ∧
        errorsIs err .errJobFailed = true ∧ IsOrWraps err .errJobFailed ∧
        isCancellation err = false ∧ ¬ IsCancellationOutcome err)) ∧
    (∀ r ∈ s.delivered, r.err =
      if Int.tmod r.id 9 = 0 then
        some (.wrap ("job " ++ toString r.id ++ ": " ++ "job failed") .errJobFailed)
      else none) ∧
    (∀ sm, s.returned = some sm →
      sm.Handled = 9 ∧ sm.Failed = 1 ∧ sm.Canceled = 0 ∧ succeeded s = 8) ∧
    (s.returned = none → ∃ e, e.isCancel = false ∧ (step s e).isSome = true) ∧
    tr.length ≤ 34 := by
  have hv : validateConfig ⟨9, 3, timeout⟩ = none := by
    simp [validateConfig]; omega
  have hinv := inv_reachable h
  have ho := outcomes_reachable h
  have hx := exec_ctxErr_none tr _ _ h rfl hnc
  refine ⟨?_, ?_, ?_, fun hr => progress_any hinv hr, ?_⟩
  · intro id
    refine ⟨rfl, fun h9 => by simp [processJob, h9, errorfJob, GoError.Error],
      fun h9 => by simp [processJob, h9], ?_⟩
    intro err herr
    simp only [processJob] at herr
    by_cases h9 : Int.tmod id 9 = 0
    · simp only [h9, if_true, Option.some.injEq] at herr
      subst herr
      refine ⟨h9, by simp [errorfJob], by simp [errorfJob, GoError.Error],
        by simp [errorsIs, errorfJob], IsOrWraps.wrapped _ _ _ (IsOrWraps.self _),
        by simp [isCancellation, errorsIs, errorfJob], ?_⟩
      rw [← isCancellation_iff]
      simp [isCancellation, errorsIs, errorfJob]
    · simp [h9] at herr
  · intro r hr
    obtain ⟨c, hc⟩ := ho.delivered_out r hr
    rw [hx] at hc
    have := processJob_none_case hc
    subst this
    simp only [processJob] at hc
    by_cases h9 : Int.tmod r.id 9 = 0
    · simp only [h9, if_true, Option.some.injEq] at hc
      rw [if_pos h9, ← hc]
      simp [errorfJob, GoError.Error]
    · simp only [h9, if_false, Option.some.injEq] at hc
      rw [if_neg h9, ← hc]
  · intro sm hr
    obtain ⟨_, hsm⟩ := hinv.returned_eq sm hr
    have hperm := delivered_ids_no_cancel hv h hnc hr
    have hf := failed_count_no_cancel ho hx
    rw [(hperm.filter _).length_eq] at hf
    have h9 : ((idsUpTo (9 : Int).toNat).filter
        (fun id => decide (Int.tmod id 9 = 0))).length = 1 := by decide
    have hc0 := (hinv.nocancel hx).1
    have := (run_summary_accounting _ tr s sm hv h hr).1
    have hH : s.summary.Handled = 9 := by
      rw [hinv.handled]
      have := hperm.length_eq
      simp only [List.length_map, idsUpTo_length] at this
      rw [this]; rfl
    have h1 : sm.Handled = s.summary.Handled := by rw [hsm]
    have h2 : sm.Failed = s.summary.Failed := by rw [hsm]
    have h3 : sm.Canceled = s.summary.Canceled := by rw [hsm]
    have hF : s.summary.Failed = 1 := by
      rw [hf]
      have : ((idsUpTo (Config.mk 9 3 timeout).Jobs.toNat).filter
          (fun id => decide (Int.tmod id 9 = 0))).length = 1 := h9
      rw [this]; rfl
    refine ⟨by rw [h1, hH], by rw [h2, hF], by rw [h3, hc0], ?_⟩
    omega
  · have := exec_measure tr _ _ h
    rw [measure_init] at this
    simp at this
    omega

/-- Witness for C15: the complete run of the default configuration without
cancellation, in which job 9 fails with the error "job 9: job failed" around
`errJobFailed`. -/
theorem nine_jobs_one_failure_witness :
    (runOf ⟨9, 3, 500000000⟩ fullSchedule).returned = some ⟨9, 9, 1, 0, 700⟩ ∧
    processJob none 9 .timerC = some (some (.wrap "job 9: job failed" .errJobFailed)) ∧
    ((runOf ⟨9, 3, 500000000⟩ fullSchedule).delivered.filter (fun r => r.err.isSome)).map
        (fun r => (r.id, r.err))
      = [(9, some (.wrap "job 9: job failed" .errJobFailed))] ∧
    ((9 : Int) = 9 ∧ (1 : Int) = 1 ∧ (0 : Int) = 0 ∧
      succeeded (runOf ⟨9, 3, 500000000⟩ fullSchedule) = 8) :=
  ⟨by decide, by decide, by decide,
   (nine_jobs_one_failure 500000000 fullSchedule (runOf ⟨9, 3, 500000000⟩ fullSchedule)
      (by decide) rfl (by decide)).2.2.1 ⟨9, 9, 1, 0, 700⟩ (by decide)⟩

/-- Claim C16: when no Result is delivered, which is so whenever no job is
handed over and in particular whenever `Jobs <= 0`, the aggregation in `run`
returns the Summary with `Handled = 0`, `Failed = 0`, `Canceled = 0`; it does
not block: whatever the configuration, until `run` has returned some event
other than the cancel signal is enabled, and no schedule has more than
`3 * Jobs + Workers + 4` events. -/
theorem empty_stream_zero_summary (cfg : Config) (tr : List Event) (s : RunState)
    (h : exec (init cfg) tr = some s) :
    (cfg.Jobs ≤ 0 → s.dispatched = []) ∧
    (s.dispatched = [] → s.delivered = []) ∧
    (s.delivered = [] → ∀ sm, s.returned = some sm →
      sm.Handled = 0 ∧ sm.Failed = 0 ∧ sm.Canceled = 0 ∧ sm.Jobs = cfg.Jobs) ∧
    (s.returned = none → ∃ e, e.isCancel = false ∧ (step s e).isSome = true) ∧
    tr.length ≤ 3 * cfg.Jobs.toNat + cfg.Workers.toNat + 4 := by
  have hinv := inv_reachable h
  have ho := outcomes_reachable h
  have hcfg : s.cfg = cfg := by simpa [init] using exec_cfg tr _ _ h
  refine ⟨?_, ?_, ?_, fun hr => progress_any hinv hr, ?_⟩
  · intro hj
    have hl := dispatched_length hinv
    have h1 := hinv.i_le
    have h2 := hinv.i_pos
    rw [hcfg] at h1
    apply List.eq_nil_of_length_eq_zero
    omega
  · intro hd
    have := delivered_le_dispatched hinv
    rw [hd, List.length_nil] at this
    apply List.eq_nil_of_length_eq_zero
    omega
  · intro hd sm hr
    obtain ⟨_, hsm⟩ := hinv.returned_eq sm hr
    have h1 : sm.Handled = s.summary.Handled := by rw [hsm]
    have h2 : sm.Failed = s.summary.Failed := by rw [hsm]
    have h3 : sm.Canceled = s.summary.Canceled := by rw [hsm]
    have h4 : sm.Jobs = s.summary.Jobs := by rw [hsm]
    refine ⟨?_, ?_, ?_, ?_⟩
    · rw [h1, hinv.handled, hd]; rfl
    · rw [h2, ho.failed_eq, hd]; rfl
    · rw [h3, ho.canceled_eq, hd]; rfl
    · rw [h4, hinv.jobs, hcfg]
  · have := exec_measure tr _ _ h
    rw [measure_init] at this
    omega

/-- Witness for C16: no jobs requested, three workers; the run returns the
all-zero Summary after six events. -/
theorem empty_stream_zero_summary_witness :
    (runOf noJobsConfig noJobsSchedule).returned = some ⟨0, 0, 0, 0, 700⟩ ∧
    (runOf noJobsConfig noJobsSchedule).delivered = [] ∧
    (runOf noJobsConfig noJobsSchedule).dispatched = [] :=
  ⟨by decide, by decide,
   (empty_stream_zero_summary noJobsConfig noJobsSchedule (runOf noJobsConfig noJobsSchedule)
      rfl).1 (by decide)⟩


/-- Counterexample to C17 as stated: the summary line of a run that handled 9
jobs has the keys run, handled, failed, canceled and cost; none of its keys is
`jobsRequested`, `jobs` or `elapsed`. -/
theorem summary_line_fields_counterexample :
    summaryLine nanosString "run-1" ⟨9, 9, 1, 0, 700⟩
      = "level=INFO service=capstone msg=run summary run=run-1 handled=9 failed=1 canceled=0 cost=700ns" ∧
    (summaryFields nanosString "run-1" ⟨9, 9, 1, 0, 700⟩).map Field.Key
      = ["run", "handled", "failed", "canceled", "cost"] ∧
    "jobsRequested" ∉ (summaryFields nanosString "run-1" ⟨9, 9, 1, 0, 700⟩).map Field.Key ∧
    "jobs" ∉ (summaryFields nanosString "run-1" ⟨9, 9, 1, 0, 700⟩).map Field.Key ∧
    "elapsed" ∉ (summaryFields nanosString "run-1" ⟨9, 9, 1, 0, 700⟩).map Field.Key := by
  refine ⟨by decide, by decide, by decide, by decide, by decide⟩

/-- Claim C17, amended: the summary line that `main` emits after `run` has
returned holds, in this order, the fields `run`, `handled`, `failed`,
`canceled` and `cost`, the last being the elapsed time; the number of jobs
requested is not on it: it is the field `jobs` of the "run start" line. -/
theorem summary_line_fields (durationString : Int → String) (runID : String)
    (summary : Summary) (cfg : Config) :
    summaryFields durationString runID summary
      = [⟨"run", runID⟩, ⟨"handled", Itoa summary.Handled⟩, ⟨"failed", Itoa summary.Failed⟩,
         ⟨"canceled", Itoa summary.Canceled⟩, ⟨"cost", durationString summary.Elapsed⟩] ∧
    summaryLine durationString runID summary
      = "level=INFO service=capstone msg=run summary run=" ++ runID
        ++ " handled=" ++ Itoa summary.Handled ++ " failed=" ++ Itoa summary.Failed
        ++ " canceled=" ++ Itoa summary.Canceled ++ " cost=" ++ durationString summary.Elapsed ∧
    (∀ f ∈ summaryFields durationString runID summary,
      f.Key ≠ "jobs" ∧ f.Key ≠ "jobsRequested" ∧ f.Key ≠ "elapsed") ∧
    (⟨"jobs", Itoa cfg.Jobs⟩ : Field) ∈ startFields durationString runID cfg := by
  refine ⟨rfl, ?_, ?_, ?_⟩
  · have e0 : "level=INFO service=capstone msg=run summary run="
        = "level=" ++ "INFO" ++ " " ++ ("service=" ++ "capstone") ++ " "
          ++ ("msg=" ++ "run summary") ++ " " ++ ("run" ++ "=") := by decide
    have e1 : " handled=" = " " ++ ("handled" ++ "=") := by decide
    have e2 : " failed=" = " " ++ ("failed" ++ "=") := by decide
    have e3 : " canceled=" = " " ++ ("canceled" ++ "=") := by decide
    have e4 : " cost=" = " " ++ ("cost" ++ "=") := by decide
    simp only [summaryLine, emit, summaryFields, Str, IntField, Duration, Field.String,
      String.intercalate, String.intercalate.go, List.map_cons, List.map_nil, List.cons_append,
      List.nil_append]
    rw [e0, e1, e2, e3, e4]
    simp only [String.append_assoc]
  · intro f hf
    simp only [summaryFields, Str, IntField, Duration, List.mem_cons, List.mem_singleton,
      List.not_mem_nil, or_false] at hf
    rcases hf with h | h | h | h | h <;> subst h <;> simp
  · simp [startFields, Str, IntField, Duration]

/-- Claim C18: with no flag on the command line `parseFlags` returns
`Config{Jobs: 9, Workers: 3, Timeout: 500ms}`, and `validateConfig` accepts
it. -/
theorem parseFlags_default :
    parseFlags ⟨none, none, none⟩ = ⟨9, 3, 500 * Millisecond⟩ ∧
    (parseFlags ⟨none, none, none⟩).Timeout = 500000000 ∧
    validateConfig (parseFlags ⟨none, none, none⟩) = none := by
  refine ⟨rfl, by decide, by decide⟩

end Capstone

/-! # Discount codes -/

namespace Pricing

theorem digitVal_eq_some {c : Char} {d : Nat} :
    digitVal c = some d ↔ ('0' ≤ c ∧ c ≤ '9') ∧ d = c.toNat - 48 := by
  unfold digitVal
  split_ifs with h
  · simp [h, eq_comm]
  · simp [h]

theorem digitVal_lt {c : Char} {d : Nat} (h : digitVal c = some d) : d < 10 := by
  obtain ⟨⟨h0, h9⟩, rfl⟩ := digitVal_eq_some.mp h
  have : c.toNat ≤ 57 := h9
  omega

/-- The reading of a digit string from left to right computes the number its
digits write. -/
theorem digitsVal_eq_some : ∀ (ds : List Char) (acc r : Nat),
    digitsVal acc ds = some r ↔
      (∀ c ∈ ds, '0' ≤ c ∧ c ≤ '9') ∧
      r = acc * 10 ^ ds.length + Nat.ofDigits 10 (ds.reverse.map (fun c => c.toNat - 48))
  | [], acc, r => by simp [digitsVal, eq_comm]
  | c :: cs, acc, r => by
    simp only [digitsVal]
    cases hd : digitVal c with
    | none =>
      constructor
      · intro h; cases h
      · rintro ⟨hall, -⟩
        have := hall c (List.mem_cons_self _ _)
        unfold digitVal at hd
        simp [this] at hd
    | some d =>
      obtain ⟨hc, rfl⟩ := digitVal_eq_some.mp hd
      simp only
      rw [digitsVal_eq_some cs]
      simp only [List.mem_cons, forall_eq_or_imp, hc, true_and, List.reverse_cons,
        List.map_append, List.map_cons, List.map_nil, Nat.ofDigits_append, List.length_map,
        List.length_reverse, Nat.ofDigits_singleton, List.length_cons]
      constructor
      · rintro ⟨hall, rfl⟩
        exact ⟨hall, by ring⟩
      · rintro ⟨hall, rfl⟩
        exact ⟨hall, by ring⟩

theorem digitsVal_of_numeral {ds : List Char} {n : Nat} (h : IsDecimalNumeral ds n) :
    digitsVal 0 ds = some n := by
  obtain ⟨_, hall, hn⟩ := h
  rw [digitsVal_eq_some]
  exact ⟨hall, by rw [hn]; simp⟩

theorem numeral_of_digitsVal {ds : List Char} {n : Nat} (hne : ds ≠ [])
    (h : digitsVal 0 ds = some n) : IsDecimalNumeral ds n := by
  rw [digitsVal_eq_some] at h
  exact ⟨hne, h.1, by simp [h.2]⟩

theorem numeral_head {ds : List Char} {n : Nat} (h : IsDecimalNumeral ds n) :
    ∃ c rest, ds = c :: rest ∧ c ≠ '-' ∧ c ≠ '+' := by
  obtain ⟨hne, hall, _⟩ := h
  cases ds with
  | nil => exact absurd rfl hne
  | cons c rest =>
    refine ⟨c, rest, rfl, ?_, ?_⟩
    · rintro rfl
      have := (hall _ (List.mem_cons_self _ _)).1
      exact absurd this (by decide)
    · rintro rfl
      have := (hall _ (List.mem_cons_self _ _)).1
      exact absurd this (by decide)

/-- The function `strconv.Atoi` reads exactly the numerals of `IsIntNumeral`. -/
theorem Atoi_eq_some_iff (s : List Char) (n : Int) : Atoi s = some n ↔ IsIntNumeral s n := by
  constructor
  · intro h
    unfold Atoi at h
    split at h
    · simp at h
    · rename_i c rest
      split_ifs at h with hm hr hp hr2
      · subst hm
        cases hd : digitsVal 0 rest with
        | none => simp [hd] at h
        | some m =>
          simp only [hd] at h
          split_ifs at h with hb
          simp only [Option.some.injEq] at h
          subst h
          refine ⟨rest, m, numeral_of_digitsVal hr hd, Or.inr (Or.inr ⟨rfl, rfl⟩), ?_, ?_⟩
          · have : (m : Int) ≤ 2 ^ 63 := by exact_mod_cast hb
            omega
          · have : (0 : Int) ≤ m := Int.ofNat_nonneg m
            omega
      · subst hp
        cases hd : digitsVal 0 rest with
        | none => simp [hd] at h
        | some m =>
          simp only [hd] at h
          split_ifs at h with hb
          simp only [Option.some.injEq] at h
          subst h
          refine ⟨rest, m, numeral_of_digitsVal hr2 hd, Or.inr (Or.inl ⟨rfl, rfl⟩), ?_, ?_⟩
          · have : (0 : Int) ≤ m := Int.ofNat_nonneg m
            omega
          · exact_mod_cast hb
      · cases hd : digitsVal 0 (c :: rest) with
        | none => simp [hd] at h
        | some m =>
          simp only [hd] at h
          split_ifs at h with hb
          simp only [Option.some.injEq] at h
          subst h
          refine ⟨c :: rest, m, numeral_of_digitsVal (by simp) hd, Or.inl ⟨rfl, rfl⟩, ?_, ?_⟩
          · have : (0 : Int) ≤ m := Int.ofNat_nonneg m
            omega
          · exact_mod_cast hb
  · rintro ⟨body, m, hnum, hshape, hlo, hhi⟩
    have hd := digitsVal_of_numeral hnum
    obtain ⟨c, rest, hbody, hc1, hc2⟩ := numeral_head hnum
    rcases hshape with ⟨rfl, rfl⟩ | ⟨rfl, rfl⟩ | ⟨rfl, rfl⟩
    · subst hbody
      have hb : m < 9223372036854775808 := by omega
      simp [Atoi, hc1, hc2, hd, hb]
    · have hb : m < 9223372036854775808 := by omega
      have hne : body ≠ [] := hnum.1
      simp [Atoi, hne, hd, hb]
    · have hb : m ≤ 9223372036854775808 := by omega
      have hne : body ≠ [] := hnum.1
      simp [Atoi, hne, hd, hb]


theorem startsWith_iff : ∀ (p s : List Char), startsWith s p = true ↔ ∃ t, s = p ++ t
  | [], s => by simp [startsWith]
  | a :: p, [] => by simp [startsWith]
  | a :: p, b :: s => by
    have ih := startsWith_iff p s
    simp only [startsWith] at ih ⊢
    simp only [List.isPrefixOf, Bool.and_eq_true, beq_iff_eq, ih, List.cons_append,
      List.cons.injEq]
    constructor
    · rintro ⟨rfl, t, rfl⟩; exact ⟨t, rfl, rfl⟩
    · rintro ⟨t, rfl, rfl⟩; exact ⟨rfl, t, rfl⟩

theorem dropLeading_append (p t : List Char) : dropLeading (p ++ t) p = t := by
  have : startsWith (p ++ t) p = true := (startsWith_iff p _).mpr ⟨t, rfl⟩
  simp [dropLeading, this]

theorem parseNumber_eq (raw : List Char) :
    parseNumber raw = match Atoi raw with
      | some value => (value, true)
      | none => (0, false) := by
  unfold parseNumber
  split_ifs with h
  · subst h; rfl
  · cases Atoi raw <;> rfl

theorem off_not_minus (t u : List Char) : "OFF".toList ++ t ≠ "MINUS".toList ++ u := by
  intro h
  have h1 : "OFF".toList = ['O', 'F', 'F'] := by decide
  have h2 : "MINUS".toList = ['M', 'I', 'N', 'U', 'S'] := by decide
  rw [h1, h2] at h
  simp at h

/-- The three branches of `ParseDiscount` for a code that is not blank. -/
theorem ParseDiscount_off (lib : StringsLib) (code ds : List Char)
    (hne : lib.TrimSpace code ≠ [])
    (hu : lib.ToUpper (lib.TrimSpace code) = "OFF".toList ++ ds) :
    ParseDiscount lib code =
      match Atoi ds with
      | some value =>
        if value ≤ 0 ∨ value > 90 then (⟨"", 0⟩, some (errorfInvalid lib code))
        else (⟨"percent", value⟩, none)
      | none => (⟨"", 0⟩, some (errorfInvalid lib code)) := by
  have hs : startsWith ("OFF".toList ++ ds) "OFF".toList = true :=
    (startsWith_iff _ _).mpr ⟨ds, rfl⟩
  simp only [ParseDiscount, hne, if_false, hu, hs, if_true, dropLeading_append, parseNumber_eq]
  cases Atoi ds with
  | none => simp
  | some value => simp

theorem ParseDiscount_minus (lib : StringsLib) (code ds : List Char)
    (hne : lib.TrimSpace code ≠ [])
    (hu : lib.ToUpper (lib.TrimSpace code) = "MINUS".toList ++ ds) :
    ParseDiscount lib code =
      match Atoi ds with
      | some value =>
        if value ≤ 0 then (⟨"", 0⟩, some (errorfInvalid lib code))
        else (⟨"minus", value⟩, none)
      | none => (⟨"", 0⟩, some (errorfInvalid lib code)) := by
  have hs : startsWith ("MINUS".toList ++ ds) "MINUS".toList = true :=
    (startsWith_iff _ _).mpr ⟨ds, rfl⟩
  have hn : ¬ startsWith ("MINUS".toList ++ ds) "OFF".toList = true := by
    rw [startsWith_iff]
    rintro ⟨t, ht⟩
    exact off_not_minus t ds ht.symm
  simp only [ParseDiscount, hne, if_false, hu, hs, hn, if_true, dropLeading_append,
    parseNumber_eq]
  cases Atoi ds with
  | none => simp
  | some value => simp

theorem ParseDiscount_other (lib : StringsLib) (code : List Char)
    (hne : lib.TrimSpace code ≠ [])
    (h1 : ¬ ∃ ds, lib.ToUpper (lib.TrimSpace code) = "OFF".toList ++ ds)
    (h2 : ¬ ∃ ds, lib.ToUpper (lib.TrimSpace code) = "MINUS".toList ++ ds) :
    ParseDiscount lib code = (⟨"", 0⟩, some (errorfInvalid lib code)) := by
  rw [← startsWith_iff] at h1 h2
  simp only [ParseDiscount, hne, if_false, h1, h2, Bool.false_eq_true]

theorem errorfInvalid_is (lib : StringsLib) (code : List Char) :
    Capstone.errorsIs (errorfInvalid lib code) ErrInvalidDiscount = true := by
  simp [errorfInvalid, Capstone.errorsIs, ErrInvalidDiscount]


/-- Counterexample to C19 as stated: the code MINUS9223372036854775808 is MINUS
followed by the decimal integer 2^63, which is at least 1, and `ParseDiscount`
returns an error and the zero Discount for it: `strconv.Atoi` rejects a
numeral that does not fit in `int`. -/
theorem minus_two_pow_63_counterexample :
    asciiLib.TrimSpace "MINUS9223372036854775808".toList ≠ [] ∧
    asciiLib.ToUpper (asciiLib.TrimSpace "MINUS9223372036854775808".toList)
      = "MINUS".toList ++ "9223372036854775808".toList ∧
    IsDecimalNumeral "9223372036854775808".toList 9223372036854775808 ∧
    ParseDiscount asciiLib "MINUS9223372036854775808".toList
      = (⟨"", 0⟩, some (errorfInvalid asciiLib "MINUS9223372036854775808".toList)) :=
  ⟨by decide, by decide, numeral_of_digitsVal (by decide) (by decide), by decide⟩

/-- Claim C19, amended: `ParseDiscount` returns without error
`{Kind: "none", Value: 0}` for a blank code, `{Kind: "percent", Value: n}`
when the trimmed, upper-cased code is OFF followed by a decimal integer `n`
with `1 <= n <= 90`, and `{Kind: "minus", Value: n}` when it is MINUS followed
by a decimal integer `n` with `1 <= n <= 2^63 - 1`. -/
theorem ParseDiscount_accepts (lib : StringsLib) (code : List Char) :
    (lib.TrimSpace code = [] → ParseDiscount lib code = (⟨"none", 0⟩, none)) ∧
    (∀ ds n, lib.TrimSpace code ≠ [] →
      lib.ToUpper (lib.TrimSpace code) = "OFF".toList ++ ds →
      IsDecimalNumeral ds n → 1 ≤ n → n ≤ 90 →
      ParseDiscount lib code = (⟨"percent", n⟩, none)) ∧
    (∀ ds n, lib.TrimSpace code ≠ [] →
      lib.ToUpper (lib.TrimSpace code) = "MINUS".toList ++ ds →
      IsDecimalNumeral ds n → 1 ≤ n → n < 2 ^ 63 →
      ParseDiscount lib code = (⟨"minus", n⟩, none)) := by
  refine ⟨?_, ?_, ?_⟩
  · intro h
    simp [ParseDiscount, h]
  · intro ds n hne hu hnum h1 h90
    have hA : Atoi ds = some (n : Int) := by
      rw [Atoi_eq_some_iff]
      exact ⟨ds, n, hnum, Or.inl ⟨rfl, rfl⟩, by omega, by omega⟩
    rw [ParseDiscount_off lib code ds hne hu, hA]
    have : ¬ ((n : Int) ≤ 0 ∨ (n : Int) > 90) := by omega
    simp only [this, if_false]
  · intro ds n hne hu hnum h1 hb
    have hA : Atoi ds = some (n : Int) := by
      rw [Atoi_eq_some_iff]
      refine ⟨ds, n, hnum, Or.inl ⟨rfl, rfl⟩, by omega, ?_⟩
      exact_mod_cast hb
    rw [ParseDiscount_minus lib code ds hne hu, hA]
    have : ¬ ((n : Int) ≤ 0) := by omega
    simp only [this, if_false]

/-- Witness for the amended C19: the code " off20 " and the code MINUS500. -/
theorem ParseDiscount_accepts_witness :
    ParseDiscount asciiLib " off20 ".toList = (⟨"percent", (20 : Nat)⟩, none) ∧
    ParseDiscount asciiLib "MINUS500".toList = (⟨"minus", (500 : Nat)⟩, none) :=
  ⟨(ParseDiscount_accepts asciiLib " off20 ".toList).2.1 "20".toList 20 (by decide) (by decide)
      (numeral_of_digitsVal (by decide) (by decide)) (by decide) (by decide),
   (ParseDiscount_accepts asciiLib "MINUS500".toList).2.2 "500".toList 500 (by decide)
      (by decide) (numeral_of_digitsVal (by decide) (by decide)) (by decide) (by decide)⟩

/-- Counterexample to C20 as stated: the code MINUS10000000000000000000 is
MINUS followed by the integer 10^19, which is at least 1, so the claim says it
is accepted; `ParseDiscount` returns an error for it. -/
theorem minus_ten_pow_19_counterexample :
    asciiLib.ToUpper (asciiLib.TrimSpace "MINUS10000000000000000000".toList)
      = "MINUS".toList ++ "10000000000000000000".toList ∧
    IsDecimalNumeral "10000000000000000000".toList 10000000000000000000 ∧
    (1 ≤ 10000000000000000000) ∧
    (ParseDiscount asciiLib "MINUS10000000000000000000".toList).2 ≠ none :=
  ⟨by decide, numeral_of_digitsVal (by decide) (by decide), by decide, by decide⟩

/-- Claim C20, amended: `ParseDiscount` returns an error exactly when the
trimmed code is not empty and its upper-cased form is neither OFF followed by
a numeral of an integer `n` with `1 <= n <= 90` nor MINUS followed by a
numeral of an integer `n` with `1 <= n <= 2^63 - 1`, a numeral being what
`strconv.Atoi` reads: decimal digits, optionally after a sign, with a value
that fits in `int`.  Every error it returns satisfies
`errors.Is(err, ErrInvalidDiscount)`, and on error the returned Discount is
the zero value. -/
theorem ParseDiscount_error_iff (lib : StringsLib) (code : List Char) :
    ((ParseDiscount lib code).2 ≠ none ↔
      lib.TrimSpace code ≠ [] ∧
      (¬ ∃ ds n, lib.ToUpper (lib.TrimSpace code) = "OFF".toList ++ ds ∧
          IsIntNumeral ds n ∧ 1 ≤ n ∧ n ≤ 90) ∧
      (¬ ∃ ds n, lib.ToUpper (lib.TrimSpace code) = "MINUS".toList ++ ds ∧
          IsIntNumeral ds n ∧ 1 ≤ n)) ∧
    (∀ e, (ParseDiscount lib code).2 = some e →
      Capstone.errorsIs e ErrInvalidDiscount = true ∧
      (ParseDiscount lib code).1 = ⟨"", 0⟩) := by
  by_cases hne : lib.TrimSpace code = []
  · have : ParseDiscount lib code = (⟨"none", 0⟩, none) := by simp [ParseDiscount, hne]
    rw [this]
    simp [hne]
  by_cases h1 : ∃ ds, lib.ToUpper (lib.TrimSpace code) = "OFF".toList ++ ds
  · obtain ⟨ds, hu⟩ := h1
    have hnm : ¬ ∃ ds' n, lib.ToUpper (lib.TrimSpace code) = "MINUS".toList ++ ds' ∧
        IsIntNumeral ds' n ∧ 1 ≤ n := by
      rintro ⟨ds', n, hu', -⟩
      rw [hu] at hu'
      exact off_not_minus _ _ hu'
    rw [ParseDiscount_off lib code ds hne hu]
    cases hA : Atoi ds with
    | none =>
      refine ⟨?_, ?_⟩
      · simp only [ne_eq, not_false_eq_true, true_iff, reduceCtorEq]
        refine ⟨hne, ?_, hnm⟩
        rintro ⟨ds', n, hu', hnum, -⟩
        rw [hu] at hu'
        have := List.append_cancel_left hu'
        subst this
        rw [← Atoi_eq_some_iff, hA] at hnum
        cases hnum
      · intro e he
        simp only [Option.some.injEq] at he
        subst he
        exact ⟨errorfInvalid_is lib code, rfl⟩
    | some v =>
      simp only
      by_cases hv : v ≤ 0 ∨ v > 90
      · simp only [hv, if_true]
        refine ⟨?_, ?_⟩
        · simp only [ne_eq, not_false_eq_true, true_iff, reduceCtorEq]
          refine ⟨hne, ?_, hnm⟩
          rintro ⟨ds', n, hu', hnum, hn1, hn90⟩
          rw [hu] at hu'
          have := List.append_cancel_left hu'
          subst this
          rw [← Atoi_eq_some_iff, hA] at hnum
          simp only [Option.some.injEq] at hnum
          omega
        · intro e he
          simp only [Option.some.injEq] at he
          subst he
          exact ⟨errorfInvalid_is lib code, trivial⟩
      · simp only [hv, if_false]
        refine ⟨?_, ?_⟩
        · simp only [ne_eq, not_true_eq_false, false_iff, not_and]
          intro _ hno
          exfalso
          apply hno
          exact ⟨ds, v, hu, (Atoi_eq_some_iff ds v).mp hA, by omega, by omega⟩
        · intro e he
          cases he
  by_cases h2 : ∃ ds, lib.ToUpper (lib.TrimSpace code) = "MINUS".toList ++ ds
  · obtain ⟨ds, hu⟩ := h2
    have hno : ¬ ∃ ds' n, lib.ToUpper (lib.TrimSpace code) = "OFF".toList ++ ds' ∧
        IsIntNumeral ds' n ∧ 1 ≤ n ∧ n ≤ 90 := by
      rintro ⟨ds', n, hu', -⟩
      exact h1 ⟨ds', hu'⟩
    rw [ParseDiscount_minus lib code ds hne hu]
    cases hA : Atoi ds with
    | none =>
      refine ⟨?_, ?_⟩
      · simp only [ne_eq, not_false_eq_true, true_iff, reduceCtorEq]
        refine ⟨hne, hno, ?_⟩
        rintro ⟨ds', n, hu', hnum, -⟩
        rw [hu] at hu'
        have := List.append_cancel_left hu'
        subst this
        rw [← Atoi_eq_some_iff, hA] at hnum
        cases hnum
      · intro e he
        simp only [Option.some.injEq] at he
        subst he
        exact ⟨errorfInvalid_is lib code, rfl⟩
    | some v =>
      simp only
      by_cases hv : v ≤ 0
      · simp only [hv, if_true]
        refine ⟨?_, ?_⟩
        · simp only [ne_eq, not_false_eq_true, true_iff, reduceCtorEq]
          refine ⟨hne, hno, ?_⟩
          rintro ⟨ds', n, hu', hnum, hn1⟩
          rw [hu] at hu'
          have := List.append_cancel_left hu'
          subst this
          rw [← Atoi_eq_some_iff, hA] at hnum
          simp only [Option.some.injEq] at hnum
          omega
        · intro e he
          simp only [Option.some.injEq] at he
          subst he
          exact ⟨errorfInvalid_is lib code, trivial⟩
      · simp only [hv, if_false]
        refine ⟨?_, ?_⟩
        · simp only [ne_eq, not_true_eq_false, false_iff, not_and]
          intro _ _ hno2
          apply hno2
          exact ⟨ds, v, hu, (Atoi_eq_some_iff ds v).mp hA, by omega⟩
        · intro e he
          cases he
  · rw [ParseDiscount_other lib code hne h1 h2]
    refine ⟨?_, ?_⟩
    · simp only [ne_eq, not_false_eq_true, true_iff, reduceCtorEq]
      refine ⟨hne, ?_, ?_⟩
      · rintro ⟨ds', n, hu', -⟩
        exact h1 ⟨ds', hu'⟩
      · rintro ⟨ds', n, hu', -⟩
        exact h2 ⟨ds', hu'⟩
    · intro e he
      simp only [Option.some.injEq] at he
      subst he
      exact ⟨errorfInvalid_is lib code, rfl⟩

/-- Witness for the amended C20: the codes OFF0, OFF95, MINUS0 and HELLO of the
test are rejected with an error that is `ErrInvalidDiscount`. -/
theorem ParseDiscount_error_iff_witness :
    (ParseDiscount asciiLib "OFF0".toList).2 ≠ none ∧
    (ParseDiscount asciiLib "OFF95".toList).2 ≠ none ∧
    (ParseDiscount asciiLib "MINUS0".toList).2 ≠ none ∧
    (ParseDiscount asciiLib "HELLO".toList).2 ≠ none ∧
    (Capstone.errorsIs (errorfInvalid asciiLib "HELLO".toList) ErrInvalidDiscount = true ∧
      (ParseDiscount asciiLib "HELLO".toList).1 = ⟨"", 0⟩) :=
  ⟨by decide, by decide, by decide, by decide,
   (ParseDiscount_error_iff asciiLib "HELLO".toList).2 _ (by decide)⟩

end Pricing

/-! # Totals with a discount -/

namespace Pricing

theorem wrap64_of_range {x : Int} (h1 : -(2 : Int) ^ 63 ≤ x) (h2 : x < (2 : Int) ^ 63) :
    wrap64 x = x := by
  unfold wrap64
  omega

theorem wrap64_range (x : Int) : -(2 : Int) ^ 63 ≤ wrap64 x ∧ wrap64 x < (2 : Int) ^ 63 := by
  unfold wrap64
  omega

theorem wrap64_add_wrap64 (x y : Int) : wrap64 (wrap64 x + y) = wrap64 (x + y) := by
  unfold wrap64
  omega

theorem foldl_sum_wrap : ∀ (items : List Item) (acc : Int),
    items.foldl (fun total item => wrap64 (total + item.Price)) (wrap64 acc)
      = wrap64 (acc + (items.map Item.Price).sum)
  | [], acc => by simp
  | it :: rest, acc => by
    simp only [List.foldl_cons, List.map_cons, List.sum_cons]
    rw [wrap64_add_wrap64, foldl_sum_wrap rest (acc + it.Price), Int.add_assoc]

/-- The loop of `Sum` computes the sum of all item prices, reduced into the
range of `int`. -/
theorem Sum_eq_wrap (items : List Item) : Sum items = wrap64 (items.map Item.Price).sum := by
  have h := foldl_sum_wrap items 0
  have h0 : wrap64 0 = 0 := by decide
  rw [h0, Int.zero_add] at h
  exact h

theorem sum_prices_nonneg {items : List Item} (h : ∀ it ∈ items, 0 ≤ it.Price) :
    0 ≤ (items.map Item.Price).sum := by
  apply List.sum_nonneg
  intro x hx
  obtain ⟨it, hit, rfl⟩ := List.mem_map.mp hx
  exact h it hit

/-- What `ParseDiscount` returns when it returns no error. -/
theorem ParseDiscount_ok (lib : StringsLib) (code : List Char) (d : Discount)
    (h : ParseDiscount lib code = (d, none)) :
    d = ⟨"none", 0⟩ ∨
    (d.Kind = "percent" ∧ 1 ≤ d.Value ∧ d.Value ≤ 90) ∨
    (d.Kind = "minus" ∧ 1 ≤ d.Value ∧ d.Value < 2 ^ 63) := by
  by_cases hne : lib.TrimSpace code = []
  · have : ParseDiscount lib code = (⟨"none", 0⟩, none) := by simp [ParseDiscount, hne]
    rw [this] at h
    simp only [Prod.mk.injEq, and_true] at h
    exact Or.inl h.symm
  by_cases h1 : ∃ ds, lib.ToUpper (lib.TrimSpace code) = "OFF".toList ++ ds
  · obtain ⟨ds, hu⟩ := h1
    rw [ParseDiscount_off lib code ds hne hu] at h
    cases hA : Atoi ds with
    | none => simp [hA] at h
    | some v =>
      simp only [hA] at h
      split_ifs at h with hv
      · simp at h
      · simp only [Prod.mk.injEq, and_true] at h
        subst h
        exact Or.inr (Or.inl ⟨rfl, by simp only; omega, by simp only; omega⟩)
  by_cases h2 : ∃ ds, lib.ToUpper (lib.TrimSpace code) = "MINUS".toList ++ ds
  · obtain ⟨ds, hu⟩ := h2
    rw [ParseDiscount_minus lib code ds hne hu] at h
    cases hA : Atoi ds with
    | none => simp [hA] at h
    | some v =>
      simp only [hA] at h
      split_ifs at h with hv
      · simp at h
      · simp only [Prod.mk.injEq, and_true] at h
        subst h
        obtain ⟨_, _, _, _, _, hhi⟩ := (Atoi_eq_some_iff ds v).mp hA
        exact Or.inr (Or.inr ⟨rfl, by simp only; omega, hhi⟩)
  · rw [ParseDiscount_other lib code hne h1 h2] at h
    simp at h


theorem FinalTotal_of_error (lib : StringsLib) (items : List Item) (code : List Char)
    (d : Discount) (e : Capstone.GoError) (h : ParseDiscount lib code = (d, some e)) :
    FinalTotal lib items code = (0, some e) := by
  simp only [FinalTotal, h]

theorem FinalTotal_of_ok (lib : StringsLib) (items : List Item) (code : List Char)
    (d : Discount) (h : ParseDiscount lib code = (d, none)) :
    (d.Kind = "none" → FinalTotal lib items code = (Sum items, none)) ∧
    (d.Kind = "percent" → FinalTotal lib items code
      = (Int.tdiv (wrap64 (Sum items * (100 - d.Value))) 100, none)) ∧
    (d.Kind = "minus" → d.Value < Sum items →
      FinalTotal lib items code = (Sum items - d.Value, none)) ∧
    (d.Kind = "minus" → d.Value ≥ Sum items → FinalTotal lib items code = (0, none)) := by
  have hr := wrap64_range (items.map Item.Price).sum
  rw [← Sum_eq_wrap] at hr
  rcases ParseDiscount_ok lib code d h with hd | ⟨hk, h1, h90⟩ | ⟨hk, h1, hb⟩
  · subst hd
    refine ⟨fun _ => by simp [FinalTotal, h], ?_, ?_, ?_⟩ <;> intro hk <;> simp at hk
  · have hw : wrap64 (100 - d.Value) = 100 - d.Value := wrap64_of_range (by omega) (by omega)
    refine ⟨?_, fun _ => by simp [FinalTotal, h, hk, hw], ?_, ?_⟩ <;>
      intro hk2 <;> rw [hk] at hk2 <;> simp at hk2
  · refine ⟨?_, ?_, ?_, ?_⟩
    · intro hk2; rw [hk] at hk2; simp at hk2
    · intro hk2; rw [hk] at hk2; simp at hk2
    · intro _ hlt
      have hw : wrap64 (Sum items - d.Value) = Sum items - d.Value :=
        wrap64_of_range (by omega) (by omega)
      have hnot : ¬ d.Value ≥ Sum items := by omega
      simp [FinalTotal, h, hk, hw, hnot]
    · intro _ hge
      simp [FinalTotal, h, hk, hge]

/-- Counterexample to C21 as stated: `int` arithmetic wraps around.  For the
single item of price 2 * 10^17 and the accepted code OFF10 the sum of the
prices is 2 * 10^17 and `total*(100-v)/100` is 18 * 10^16, which fits in `int`,
but `FinalTotal` returns -4467440737095516 because `total * 90` overflows; and
for the two prices 2^63 - 1 and 1 `Sum` returns -2^63, not their sum 2^63. -/
theorem FinalTotal_wraps_counterexample :
    ParseDiscount asciiLib "OFF10".toList = (⟨"percent", 10⟩, none) ∧
    Sum [⟨"x".toList, 200000000000000000⟩] = 200000000000000000 ∧
    Int.tdiv (200000000000000000 * (100 - 10)) 100 = 180000000000000000 ∧
    FinalTotal asciiLib [⟨"x".toList, 200000000000000000⟩] "OFF10".toList
      = (-4467440737095516, none) ∧
    (([⟨"a".toList, 9223372036854775807⟩, ⟨"b".toList, 1⟩] : List Item).map Item.Price).sum
      = 9223372036854775808 ∧
    Sum [⟨"a".toList, 9223372036854775807⟩, ⟨"b".toList, 1⟩] = -9223372036854775808 := by
  decide

/-- Claim C21, amended: `FinalTotal(items, code)` fails if and only if
`ParseDiscount(code)` fails, and then it returns 0 and that error.  Otherwise
the kind is none, percent or minus and, with `total = Sum(items)`, it returns
`total` for kind none, `total*(100-v)/100` in `int` arithmetic with truncating
division for percent `v`, and for minus `v` it returns `total-v` when
`v < total` and 0 when `v >= total`.  `Sum(items)` is the sum of all item
prices in `int` arithmetic (64-bit, wrapping around), and the sum itself when
that fits in `int`; the product `total*(100-v)` is the exact one when it fits
in `int`. -/
theorem FinalTotal_by_kind (lib : StringsLib) (items : List Item) (code : List Char) :
    ((FinalTotal lib items code).2 ≠ none ↔ (ParseDiscount lib code).2 ≠ none) ∧
    (∀ e, (ParseDiscount lib code).2 = some e → FinalTotal lib items code = (0, some e)) ∧
    (∀ d, ParseDiscount lib code = (d, none) →
      (d.Kind = "none" ∨ d.Kind = "percent" ∨ d.Kind = "minus") ∧
      (d.Kind = "none" → FinalTotal lib items code = (Sum items, none)) ∧
      (d.Kind = "percent" → FinalTotal lib items code
        = (Int.tdiv (wrap64 (Sum items * (100 - d.Value))) 100, none)) ∧
      (d.Kind = "percent" → -(2 : Int) ^ 63 ≤ Sum items * (100 - d.Value) →
        Sum items * (100 - d.Value) < (2 : Int) ^ 63 →
        FinalTotal lib items code = (Int.tdiv (Sum items * (100 - d.Value)) 100, none)) ∧
      (d.Kind = "minus" → d.Value < Sum items →
        FinalTotal lib items code = (Sum items - d.Value, none)) ∧
      (d.Kind = "minus" → d.Value ≥ Sum items → FinalTotal lib items code = (0, none))) ∧
    Sum items = wrap64 (items.map Item.Price).sum ∧
    (-(2 : Int) ^ 63 ≤ (items.map Item.Price).sum → (items.map Item.Price).sum < (2 : Int) ^ 63 →
      Sum items = (items.map Item.Price).sum) := by
  refine ⟨?_, ?_, ?_, Sum_eq_wrap items, ?_⟩
  · cases hp : ParseDiscount lib code with
    | mk d err =>
      cases err with
      | some e => rw [FinalTotal_of_error lib items code d e hp]
      | none =>
        have hok := FinalTotal_of_ok lib items code d hp
        rcases ParseDiscount_ok lib code d hp with hd | ⟨hk, -, -⟩ | ⟨hk, -, -⟩
        · rw [hok.1 (by rw [hd])]
        · rw [hok.2.1 hk]
        · by_cases hlt : d.Value < Sum items
          · rw [hok.2.2.1 hk hlt]
          · rw [hok.2.2.2 hk (by omega)]
  · intro e he
    cases hp : ParseDiscount lib code with
    | mk d err =>
      rw [hp] at he
      simp only at he
      subst he
      exact FinalTotal_of_error lib items code d e hp
  · intro d hp
    have hok := FinalTotal_of_ok lib items code d hp
    refine ⟨?_, hok.1, hok.2.1, ?_, hok.2.2.1, hok.2.2.2⟩
    · rcases ParseDiscount_ok lib code d hp with hd | ⟨hk, -, -⟩ | ⟨hk, -, -⟩
      · exact Or.inl (by rw [hd])
      · exact Or.inr (Or.inl hk)
      · exact Or.inr (Or.inr hk)
    · intro hk h1 h2
      rw [hok.2.1 hk, wrap64_of_range h1 h2]
  · intro h1 h2
    rw [Sum_eq_wrap, wrap64_of_range h1 h2]

/-- Witness for C21: the four accepted codes of `TestFinalTotal` on its two
items, and the rejected one. -/
theorem FinalTotal_by_kind_witness :
    FinalTotal asciiLib testItems "".toList = (2000, none) ∧
    FinalTotal asciiLib testItems "OFF10".toList = (1800, none) ∧
    FinalTotal asciiLib testItems "MINUS500".toList = (1500, none) ∧
    FinalTotal asciiLib testItems "MINUS3000".toList = (0, none) ∧
    ((FinalTotal asciiLib testItems "BAD".toList).2 ≠ none ↔
      (ParseDiscount asciiLib "BAD".toList).2 ≠ none) :=
  ⟨by decide, by decide, by decide, by decide,
   (FinalTotal_by_kind asciiLib testItems "BAD".toList).1⟩

/-- Claim C29: for items whose prices are all non-negative and a code that
`ParseDiscount` accepts, when the arithmetic is exact, that is when the sum of
the prices and, for a percent discount, its product with `100-v` fit in `int`,
`FinalTotal` returns no error and `0 <= FinalTotal(items, code) <= Sum(items)`,
`Sum(items)` being the sum of the prices. -/
theorem FinalTotal_between_zero_and_sum (lib : StringsLib) (items : List Item)
    (code : List Char) (d : Discount)
    (hpos : ∀ it ∈ items, 0 ≤ it.Price)
    (hok : ParseDiscount lib code = (d, none))
    (hsum : (items.map Item.Price).sum < (2 : Int) ^ 63)
    (hmul : d.Kind = "percent" → (items.map Item.Price).sum * (100 - d.Value) < (2 : Int) ^ 63) :
    (FinalTotal lib items code).2 = none ∧
    Sum items = (items.map Item.Price).sum ∧
    0 ≤ (FinalTotal lib items code).1 ∧
    (FinalTotal lib items code).1 ≤ Sum items := by
  have h0 := sum_prices_nonneg hpos
  have hS : Sum items = (items.map Item.Price).sum := by
    rw [Sum_eq_wrap, wrap64_of_range (by omega) hsum]
  have hfin := FinalTotal_of_ok lib items code d hok
  rw [← hS] at h0 hmul
  rcases ParseDiscount_ok lib code d hok with hd | ⟨hk, h1, h90⟩ | ⟨hk, h1, hb⟩
  · rw [hfin.1 (by rw [hd])]
    exact ⟨rfl, hS, h0, le_refl _⟩
  · have hm := hmul hk
    have hnn : 0 ≤ Sum items * (100 - d.Value) := Int.mul_nonneg h0 (by omega)
    have hle : Sum items * (100 - d.Value) ≤ Sum items * 100 :=
      Int.mul_le_mul_of_nonneg_left (by omega) h0
    rw [hfin.2.1 hk, wrap64_of_range (by omega) hm]
    refine ⟨rfl, hS, ?_, ?_⟩
    · simp only
      rw [Int.tdiv_eq_ediv hnn (by decide)]
      omega
    · simp only
      rw [Int.tdiv_eq_ediv hnn (by decide)]
      omega
  · by_cases hlt : d.Value < Sum items
    · rw [hfin.2.2.1 hk hlt]
      exact ⟨rfl, hS, by simp only; omega, by simp only; omega⟩
    · rw [hfin.2.2.2 hk (by omega)]
      exact ⟨rfl, hS, le_refl _, h0⟩

/-- Witness for C29: ten percent off the two items of `TestFinalTotal`. -/
theorem FinalTotal_between_zero_and_sum_witness :
    FinalTotal asciiLib testItems "OFF10".toList = (1800, none) ∧ Sum testItems = 2000 ∧
    ((FinalTotal asciiLib testItems "OFF10".toList).2 = none ∧
      Sum testItems = (testItems.map Item.Price).sum ∧
      0 ≤ (FinalTotal asciiLib testItems "OFF10".toList).1 ∧
      (FinalTotal asciiLib testItems "OFF10".toList).1 ≤ Sum testItems) :=
  ⟨by decide, by decide,
   FinalTotal_between_zero_and_sum asciiLib testItems "OFF10".toList ⟨"percent", 10⟩
     (by decide) (by decide) (by decide) (by decide)⟩

/-- Outside exact arithmetic the bound of C29 fails: ten percent off a single
item of price 2 * 10^17 overflows `total * 90` and yields a negative total. -/
theorem FinalTotal_overflow_example :
    FinalTotal asciiLib [⟨"x".toList, 200000000000000000⟩] "OFF10".toList
      = (-4467440737095516, none) := by
  decide

end Pricing

/-! # Small packages -/

namespace Settings

/-- Claim C22: `ApplyZero(c)` returns an error if and only if `c.ServiceName`
is empty, and then it returns the zero Config; otherwise it returns no error
and `c` with `Timeout` replaced by 3s exactly when it was 0 and `Retry`
replaced by 2 exactly when it was 0, `ServiceName`, `EnableDebug` and every
non-zero `Timeout` or `Retry` being unchanged. -/
theorem ApplyZero_fills_zero_fields (c : Config) :
    ((ApplyZero c).2 ≠ none ↔ c.ServiceName = "") ∧
    (c.ServiceName = "" → (ApplyZero c).1 = ⟨"", 0, 0, false⟩) ∧
    (c.ServiceName ≠ "" →
      (ApplyZero c).2 = none ∧
      (ApplyZero c).1.ServiceName = c.ServiceName ∧
      (ApplyZero c).1.EnableDebug = c.EnableDebug ∧
      (ApplyZero c).1.Timeout = (if c.Timeout = 0 then 3 * Second else c.Timeout) ∧
      (ApplyZero c).1.Retry = (if c.Retry = 0 then 2 else c.Retry)) := by
  unfold ApplyZero
  by_cases h : c.ServiceName = ""
  · simp [h]
  · simp only [h, if_false]
    by_cases ht : c.Timeout = 0 <;> by_cases hr : c.Retry = 0 <;> simp [ht, hr]

/-- Witness for C22: the Config of `TestApplyZero`, and one with every field
set. -/
theorem ApplyZero_fills_zero_fields_witness :
    ApplyZero ⟨"order-gateway", 0, 0, false⟩ = (⟨"order-gateway", 3000000000, 2, false⟩, none) ∧
    ApplyZero ⟨"pay", 5, 7, true⟩ = (⟨"pay", 5, 7, true⟩, none) ∧
    ((ApplyZero ⟨"", 5, 7, true⟩).2 ≠ none ↔ (Config.mk "" 5 7 true).ServiceName = "") :=
  ⟨by decide, by decide, (ApplyZero_fills_zero_fields ⟨"", 5, 7, true⟩).1⟩

end Settings

namespace AppCfg

/-- Claim C23: `New(appName, owner)` returns an error if and only if `appName`
is empty after trimming, and then the zero AppConfig; otherwise it returns no
error and an AppConfig whose `AppName` is the trimmed `appName` and whose
`Owner` is the trimmed `owner`, or "团队" when the trimmed owner is empty. -/
theorem New_trims_and_defaults (trimSpace : String → String) (appName owner : String) :
    ((New trimSpace appName owner).2 ≠ none ↔ trimSpace appName = "") ∧
    (trimSpace appName = "" → (New trimSpace appName owner).1 = ⟨"", ""⟩) ∧
    (trimSpace appName ≠ "" →
      (New trimSpace appName owner).2 = none ∧
      (New trimSpace appName owner).1.AppName = trimSpace appName ∧
      (New trimSpace appName owner).1.Owner
        = (if trimSpace owner = "" then "团队" else trimSpace owner)) := by
  unfold New
  by_cases h : trimSpace appName = ""
  · simp [h]
  · simp [h]

/-- Witness for C23: the three calls of the tests. -/
theorem New_trims_and_defaults_witness :
    New trimBlanks "service" "平台组" = (⟨"service", "平台组"⟩, none) ∧
    New trimBlanks "service" " " = (⟨"service", "团队"⟩, none) ∧
    ((New trimBlanks " " "平台组").2 ≠ none ↔ trimBlanks " " = "") :=
  ⟨by decide, by decide, (New_trims_and_defaults trimBlanks " " "平台组").1⟩

end AppCfg

namespace Reasons

/-- The key `Reason` looks up: the input trimmed and lower-cased, or "go" when
that is empty. -/
theorem Reason_eq (lib : TextLib) (lang : List Char) :
    Reason lib lang =
      match reasonByLang.lookup
        (if lib.ToLower (lib.TrimSpace lang) = [] then "go".toList
         else lib.ToLower (lib.TrimSpace lang)) with
      | some reason => reason
      | none => fallback := rfl

/-- Claim C25: `Reason(lang)` depends only on `lang` trimmed and lower-cased;
when that is empty it returns the entry of "go", when it is one of the keys
go, python, java it returns that key's entry of `reasonByLang`, and for every
other input it returns the fallback sentence. -/
theorem Reason_by_key (lib : TextLib) (lang : List Char) :
    (∀ lang2, lib.ToLower (lib.TrimSpace lang2) = lib.ToLower (lib.TrimSpace lang) →
      Reason lib lang2 = Reason lib lang) ∧
    (lib.ToLower (lib.TrimSpace lang) = [] →
      reasonByLang.lookup "go".toList = some (Reason lib lang)) ∧
    (∀ reason, (lib.ToLower (lib.TrimSpace lang), reason) ∈ reasonByLang →
      Reason lib lang = reason) ∧
    (lib.ToLower (lib.TrimSpace lang) ≠ [] →
      (∀ entry ∈ reasonByLang, entry.1 ≠ lib.ToLower (lib.TrimSpace lang)) →
      Reason lib lang = fallback) ∧
    reasonByLang.map Prod.fst = ["go".toList, "python".toList, "java".toList] := by
  refine ⟨?_, ?_, ?_, ?_, rfl⟩
  · intro lang2 h
    rw [Reason_eq, Reason_eq, h]
  · intro h
    rw [Reason_eq, h]
    rfl
  · intro reason hmem
    have hne : lib.ToLower (lib.TrimSpace lang) ≠ [] := by
      intro h0
      rw [h0] at hmem
      simp [reasonByLang] at hmem
    rw [Reason_eq, if_neg hne]
    simp only [reasonByLang, List.mem_cons, Prod.mk.injEq, List.mem_singleton,
      List.not_mem_nil, or_false] at hmem
    rcases hmem with ⟨hk, hr⟩ | ⟨hk, hr⟩ | ⟨hk, hr⟩ <;> rw [hk, hr] <;> rfl
  · intro hne hnot
    rw [Reason_eq, if_neg hne]
    have h1 := hnot _ (List.mem_cons_self _ _)
    have h2 := hnot _ (List.mem_cons_of_mem _ (List.mem_cons_self _ _))
    have h3 := hnot _ (List.mem_cons_of_mem _ (List.mem_cons_of_mem _ (List.mem_cons_self _ _)))
    simp only [reasonByLang, List.lookup]
    have e1 : (lib.ToLower (lib.TrimSpace lang) == "go".toList) = false := by
      simpa [beq_eq_false_iff_ne] using fun h => h1 h.symm
    have e2 : (lib.ToLower (lib.TrimSpace lang) == "python".toList) = false := by
      simpa [beq_eq_false_iff_ne] using fun h => h2 h.symm
    have e3 : (lib.ToLower (lib.TrimSpace lang) == "java".toList) = false := by
      simpa [beq_eq_false_iff_ne] using fun h => h3 h.symm
    simp only [e1, e2, e3]

/-- Witness for C25: the inputs of `TestReason`, an input in mixed case with
blanks around it, and an unknown language. -/
theorem Reason_by_key_witness :
    Reason asciiText "".toList = "编译快、部署简单、并发模型清晰，适合做基础设施和服务端。" ∧
    Reason asciiText "python".toList = "生态丰富、验证快，适合数据处理和脚本。" ∧
    Reason asciiText "rust".toList = fallback ∧
    Reason asciiText " Java ".toList = Reason asciiText "java".toList :=
  ⟨by decide, by decide, by decide,
   (Reason_by_key asciiText "java".toList).1 " Java ".toList (by decide)⟩

end Reasons

namespace Format

theorem foldl_append_eq : ∀ (words : List (List Char)) (acc : List Char),
    words.foldl (fun s w => s ++ w) acc = acc ++ words.flatten
  | [], acc => by simp
  | w :: rest, acc => by
    simp only [List.foldl_cons, List.flatten_cons]
    rw [foldl_append_eq rest, List.append_assoc]

theorem foldl_write_eq : ∀ (words : List (List Char)) (b : Builder),
    (words.foldl (fun b w => b.WriteString w) b).buf = b.buf ++ words.flatten
  | [], b => by simp
  | w :: rest, b => by
    simp only [List.foldl_cons, List.flatten_cons]
    rw [foldl_write_eq rest, Builder.WriteString, List.append_assoc]

theorem foldl_write_sep_eq : ∀ (rest : List (List Char)) (b : Builder),
    (rest.foldl (fun b s => (b.WriteString []).WriteString s) b).buf = b.buf ++ rest.flatten
  | [], b => by simp
  | w :: rest, b => by
    simp only [List.foldl_cons, List.flatten_cons]
    rw [foldl_write_sep_eq rest]
    simp [Builder.WriteString]

/-- Claim C28: for every list of words `BuildPlus`, `BuildBuilder` and
`BuildJoin` return the same string, the concatenation of the words in order,
which is the empty string for the empty list. -/
theorem builds_agree (words : List (List Char)) :
    BuildPlus words = words.flatten ∧
    BuildBuilder words = words.flatten ∧
    BuildJoin words = words.flatten ∧
    BuildPlus [] = [] ∧ BuildBuilder [] = [] ∧ BuildJoin [] = [] := by
  refine ⟨?_, ?_, ?_, rfl, rfl, rfl⟩
  · simp [BuildPlus, foldl_append_eq]
  · simp [BuildBuilder, Builder.String, Builder.Grow, foldl_write_eq]
  · unfold BuildJoin Join
    split
    · rfl
    · simp
    · rename_i e rest _
      have h := foldl_write_sep_eq rest ((Builder.mk []).WriteString e)
      simpa [Builder.String, Builder.Grow, Builder.WriteString] using h

end Format

namespace Tickets

theorem hasTag_iff : ∀ (tags : List String) (tag : String), hasTag tags tag = true ↔ tag ∈ tags
  | [], tag => by simp [hasTag]
  | existing :: rest, tag => by
    simp only [hasTag, List.mem_cons]
    by_cases h : existing = tag
    · simp [h]
    · simp only [h, if_false, hasTag_iff rest tag]
      constructor
      · exact Or.inr
      · rintro (h2 | h2)
        · exact absurd h2.symm h
        · exact h2

theorem AddTag_nodup (t : Ticket) (tag : String) (h : t.Tags.Nodup) :
    (AddTag t tag).1.Tags.Nodup := by
  unfold AddTag
  split_ifs with h1 h2
  · exact h
  · exact h
  · simp only
    rw [hasTag_iff] at h2
    rw [List.nodup_append]
    refine ⟨h, List.nodup_singleton _, ?_⟩
    intro a ha hb
    simp only [List.mem_singleton] at hb
    subst hb
    exact h2 ha

theorem addTags_nodup : ∀ (tags : List String) (t : Ticket), t.Tags.Nodup →
    (addTags t tags).Tags.Nodup
  | [], t, h => h
  | tag :: rest, t, h => by
    simp only [addTags, List.foldl_cons]
    exact addTags_nodup rest _ (AddTag_nodup t tag h)

/-- Claim C30: `AddTag(tag)` returns true exactly when `tag` is non-empty and
not already in `Tags`, and then `tag` is appended at the end of `Tags` and
nothing else changes; otherwise it returns false and leaves the ticket
unchanged.  Hence a `Tags` list without duplicates stays without duplicates
under any sequence of `AddTag` calls, and adding the same tag twice leaves the
same ticket as adding it once. -/
theorem AddTag_appends_new_tag (t : Ticket) (tag : String) :
    ((AddTag t tag).2 = true ↔ tag ≠ "" ∧ tag ∉ t.Tags) ∧
    ((AddTag t tag).2 = true → (AddTag t tag).1 = { t with Tags := t.Tags ++ [tag] }) ∧
    ((AddTag t tag).2 = false → (AddTag t tag).1 = t) ∧
    (∀ tags, t.Tags.Nodup → (addTags t tags).Tags.Nodup) ∧
    AddTag (AddTag t tag).1 tag = ((AddTag t tag).1, false) := by
  have hiff := hasTag_iff t.Tags tag
  refine ⟨?_, ?_, ?_, fun tags h => addTags_nodup tags t h, ?_⟩
  · unfold AddTag
    split_ifs with h1 h2
    · simp [h1]
    · simp [hiff.mp h2]
    · simp only [true_iff]
      exact ⟨h1, fun hm => h2 (hiff.mpr hm)⟩
  · unfold AddTag
    split_ifs with h1 h2 <;> simp
  · unfold AddTag
    split_ifs with h1 h2 <;> simp
  · by_cases h1 : tag = ""
    · simp [AddTag, h1]
    · by_cases h2 : hasTag t.Tags tag = true
      · simp [AddTag, h1, h2]
      · have h3 : hasTag (t.Tags ++ [tag]) tag = true := by
          rw [hasTag_iff]; simp
        simp [AddTag, h1, h2, h3]

/-- Witness for C30: a new tag is appended, a present one and the empty one
are refused, and a second call with the same tag changes nothing. -/
theorem AddTag_appends_new_tag_witness :
    AddTag sampleTicket "p1" = ({ sampleTicket with Tags := ["bug", "auth", "p1"] }, true) ∧
    AddTag sampleTicket "auth" = (sampleTicket, false) ∧
    AddTag sampleTicket "" = (sampleTicket, false) ∧
    (addTags sampleTicket ["p1", "bug", "p1", "", "ui"]).Tags = ["bug", "auth", "p1", "ui"] ∧
    (addTags sampleTicket ["p1", "bug", "p1", "", "ui"]).Tags.Nodup :=
  ⟨by decide, by decide, by decide, by decide,
   (AddTag_appends_new_tag sampleTicket "p1").2.2.2.1 _ (by decide)⟩

end Tickets

/-! # Command-line arguments -/

namespace Cliinfo

/-- Claim C24: whenever `Parse` succeeds, `Name` is the value of the flag
`-name` with surrounding white space trimmed and is not empty, and `Lang` is
the value of the flag `-lang` trimmed and lower-cased, or "go" when that is
empty; whenever the flags parse and the trimmed name is empty, `Parse` returns
an error and the zero Config; an error of the flag set is returned as it
is. -/
theorem Parse_trims_name_and_lang (lib : Lib) (args : List (List Char)) :
    (∀ cfg, Parse lib args = (cfg, none) →
      ∃ name lang, lib.FlagParse args = .ok (name, lang) ∧
        cfg.Name = lib.TrimSpace name ∧ cfg.Name ≠ [] ∧
        cfg.Lang = (if lib.ToLower (lib.TrimSpace lang) = [] then "go".toList
                    else lib.ToLower (lib.TrimSpace lang))) ∧
    (∀ name lang, lib.FlagParse args = .ok (name, lang) → lib.TrimSpace name = [] →
      ∃ err, Parse lib args = (⟨[], []⟩, some err)) ∧
    (∀ name lang, lib.FlagParse args = .ok (name, lang) → lib.TrimSpace name ≠ [] →
      (Parse lib args).2 = none) ∧
    (∀ err, lib.FlagParse args = .error err → Parse lib args = (⟨[], []⟩, some err)) := by
  refine ⟨?_, ?_, ?_, ?_⟩
  · intro cfg h
    unfold Parse at h
    cases hf : lib.FlagParse args with
    | error err => simp [hf] at h
    | ok v =>
      obtain ⟨name, lang⟩ := v
      simp only [hf] at h
      by_cases hn : lib.TrimSpace name = []
      · simp [hn] at h
      · simp only [hn, if_false, Prod.mk.injEq, and_true] at h
        refine ⟨name, lang, rfl, ?_, ?_, ?_⟩
        · rw [← h]; split_ifs <;> rfl
        · rw [← h]; split_ifs <;> exact hn
        · rw [← h]; split_ifs with hl
          · rfl
          · rfl
  · intro name lang hf hn
    exact ⟨.new "name 不能为空", by simp [Parse, hf, hn]⟩
  · intro name lang hf hn
    simp [Parse, hf, hn]
  · intro err hf
    simp [Parse, hf]

/-- Witness for C24: the argument lists of the two tests (with an ASCII name)
and one with `=` and blanks. -/
theorem Parse_trims_name_and_lang_witness :
    Parse asciiLib ["-name".toList, "gopher".toList, "-lang".toList, "Go".toList]
      = (⟨"gopher".toList, "go".toList⟩, none) ∧
    Parse asciiLib ["--name= bob ".toList, "-lang=".toList]
      = (⟨"bob".toList, "go".toList⟩, none) ∧
    (∃ err, Parse asciiLib ["-name".toList, "  ".toList] = (⟨[], []⟩, some err)) :=
  ⟨by decide, by decide,
   (Parse_trims_name_and_lang asciiLib ["-name".toList, "  ".toList]).2.1
      "  ".toList "go".toList rfl (by decide)⟩

end Cliinfo

/-! # Counters shared by goroutines -/

namespace Racecase

theorem mem_index {α : Type} {l : List α} {a : α} (h : a ∈ l) : ∃ g : Nat, l[g]? = some a := by
  obtain ⟨n, hn, hget⟩ := List.mem_iff_getElem.mp h
  exact ⟨n, by simp [List.getElem?_eq_getElem hn, hget]⟩

theorem mem_swap {α : Type} {l1 l2 : List α} {a b x : α} (hx : x ∈ l1 ++ b :: l2)
    (hne : x ≠ b) : x ∈ l1 ++ a :: l2 := by
  simp only [List.mem_append, List.mem_cons] at hx ⊢
  rcases hx with h | h | h
  · exact Or.inl h
  · exact absurd h hne
  · exact Or.inr (Or.inr h)

theorem sum_zero_mem {α : Type} (f : α → Nat) {l : List α} (h : (l.map f).sum = 0) :
    ∀ a ∈ l, f a = 0 := by
  intro a ha
  have := List.sum_eq_zero_iff.mp h (f a) (List.mem_map_of_mem f ha)
  exact this

theorem mutex_all_written : ∀ (gs : List MutexG), (gs.map MutexG.live).sum = 0 →
    (gs.map MutexG.written).sum = gs.length
  | [], _ => rfl
  | g :: rest, h => by
    simp only [List.map_cons, List.sum_cons] at h ⊢
    have h1 : g.live = 0 := by omega
    have h2 : (rest.map MutexG.live).sum = 0 := by omega
    have := mutex_all_written rest h2
    cases g <;> simp [MutexG.live] at h1
    simp [MutexG.written, this]; omega

theorem mutexInv_init (n : Nat) : MutexInv n (mutexInit n) where
  count_eq := by simp [mutexInit, MutexG.written]
  holds_eq := by simp [mutexInit, MutexG.holds]
  loaded_eq := by simp [mutexInit, List.mem_replicate]
  wg_eq := by simp [mutexInit, MutexG.live]
  ret_eq := by simp [mutexInit]
  len_eq := by simp [mutexInit]

theorem mutex_not_returned {n : Nat} {s : MutexState} (hinv : MutexInv n s) {g : MutexG}
    (hm : g ∈ s.gs) (hl : g.live = 1) : s.returned = none := by
  cases hr : s.returned with
  | none => rfl
  | some r =>
    have h0 := (hinv.ret_eq r hr).2
    rw [hinv.wg_eq] at h0
    have := sum_zero_mem MutexG.live h0 g hm
    omega


theorem mutexInv_step {n : Nat} {s s' : MutexState} {e : MutexEvent} (hinv : MutexInv n s)
    (h : mutexStep s e = some s') : MutexInv n s' := by
  cases e with
  | lock g =>
    simp only [mutexStep] at h
    split at h
    · rename_i hg
      split_ifs at h with hmu
      simp only [Option.some.injEq] at h
      subst h
      obtain ⟨l1, l2, h1, h2⟩ := Capstone.getElem?_split _ _ _ hg
      have hnr := mutex_not_returned hinv (List.getElem?_mem hg) rfl
      have hc := hinv.count_eq
      have hh := hinv.holds_eq
      have hw := hinv.wg_eq
      have hl := hinv.len_eq
      rw [h1] at hc hh hw hl
      refine ⟨?_, ?_, ?_, ?_, ?_, ?_⟩
      · simp only; rw [h2]; simpa [MutexG.written] using hc
      · simp only; rw [h2]
        simp [MutexG.holds, hmu] at hh ⊢; omega
      · intro v hv
        simp only at hv; rw [h2] at hv
        exact hinv.loaded_eq v (by rw [h1]; exact mem_swap hv (by simp))
      · simp only; rw [h2]; simpa [MutexG.live] using hw
      · intro r hr; simp only at hr; rw [hnr] at hr; cases hr
      · simp only; rw [h2]; simpa using hl
    · simp at h
  | load g =>
    simp only [mutexStep] at h
    split at h
    · rename_i hg
      simp only [Option.some.injEq] at h
      subst h
      obtain ⟨l1, l2, h1, h2⟩ := Capstone.getElem?_split _ _ _ hg
      have hnr := mutex_not_returned hinv (List.getElem?_mem hg) rfl
      have hc := hinv.count_eq
      have hh := hinv.holds_eq
      have hw := hinv.wg_eq
      have hl := hinv.len_eq
      rw [h1] at hc hh hw hl
      refine ⟨?_, ?_, ?_, ?_, ?_, ?_⟩
      · simp only; rw [h2]; simpa [MutexG.written] using hc
      · simp only; rw [h2]; simpa [MutexG.holds] using hh
      · intro v hv
        simp only at hv; rw [h2] at hv
        by_cases heq : MutexG.loaded v = MutexG.loaded s.count
        · simp only [MutexG.loaded.injEq] at heq; exact heq
        · exact hinv.loaded_eq v (by rw [h1]; exact mem_swap hv heq)
      · simp only; rw [h2]; simpa [MutexG.live] using hw
      · intro r hr; simp only at hr; rw [hnr] at hr; cases hr
      · simp only; rw [h2]; simpa using hl
    · simp at h
  | store g =>
    simp only [mutexStep] at h
    split at h
    · rename_i v hg
      simp only [Option.some.injEq] at h
      subst h
      obtain ⟨l1, l2, h1, h2⟩ := Capstone.getElem?_split _ _ _ hg
      have hnr := mutex_not_returned hinv (List.getElem?_mem hg) rfl
      have hv := hinv.loaded_eq v (List.getElem?_mem hg)
      have hc := hinv.count_eq
      have hh := hinv.holds_eq
      have hw := hinv.wg_eq
      have hl := hinv.len_eq
      rw [h1] at hc hh hw hl
      have hzero : (l1.map MutexG.holds).sum = 0 ∧ (l2.map MutexG.holds).sum = 0 := by
        simp only [List.map_append, List.map_cons, List.sum_append, List.sum_cons,
          MutexG.holds] at hh
        split_ifs at hh <;> omega
      refine ⟨?_, ?_, ?_, ?_, ?_, ?_⟩
      · simp only; rw [h2, hv]
        simp [MutexG.written] at hc ⊢; omega
      · simp only; rw [h2]; simpa [MutexG.holds] using hh
      · intro v2 hv2
        simp only at hv2; rw [h2] at hv2
        simp only [List.mem_append, List.mem_cons] at hv2
        rcases hv2 with hm | hm | hm
        · have := sum_zero_mem MutexG.holds hzero.1 _ hm
          simp [MutexG.holds] at this
        · cases hm
        · have := sum_zero_mem MutexG.holds hzero.2 _ hm
          simp [MutexG.holds] at this
      · simp only; rw [h2]; simpa [MutexG.live] using hw
      · intro r hr; simp only at hr; rw [hnr] at hr; cases hr
      · simp only; rw [h2]; simpa using hl
    · simp at h
  | unlock g =>
    simp only [mutexStep] at h
    split at h
    · rename_i hg
      simp only [Option.some.injEq] at h
      subst h
      obtain ⟨l1, l2, h1, h2⟩ := Capstone.getElem?_split _ _ _ hg
      have hnr := mutex_not_returned hinv (List.getElem?_mem hg) rfl
      have hc := hinv.count_eq
      have hh := hinv.holds_eq
      have hw := hinv.wg_eq
      have hl := hinv.len_eq
      rw [h1] at hc hh hw hl
      refine ⟨?_, ?_, ?_, ?_, ?_, ?_⟩
      · simp only; rw [h2]; simpa [MutexG.written] using hc
      · simp only; rw [h2]
        simp only [List.map_append, List.map_cons, List.sum_append, List.sum_cons,
          MutexG.holds] at hh ⊢
        split_ifs at hh <;> simp <;> omega
      · intro v hv
        simp only at hv; rw [h2] at hv
        exact hinv.loaded_eq v (by rw [h1]; exact mem_swap hv (by simp))
      · simp only; rw [h2]; simpa [MutexG.live] using hw
      · intro r hr; simp only at hr; rw [hnr] at hr; cases hr
      · simp only; rw [h2]; simpa using hl
    · simp at h
  | wgDone g =>
    simp only [mutexStep] at h
    split at h
    · rename_i hg
      simp only [Option.some.injEq] at h
      subst h
      obtain ⟨l1, l2, h1, h2⟩ := Capstone.getElem?_split _ _ _ hg
      have hnr := mutex_not_returned hinv (List.getElem?_mem hg) rfl
      have hc := hinv.count_eq
      have hh := hinv.holds_eq
      have hw := hinv.wg_eq
      have hl := hinv.len_eq
      rw [h1] at hc hh hw hl
      refine ⟨?_, ?_, ?_, ?_, ?_, ?_⟩
      · simp only; rw [h2]; simpa [MutexG.written] using hc
      · simp only; rw [h2]; simpa [MutexG.holds] using hh
      · intro v hv
        simp only at hv; rw [h2] at hv
        exact hinv.loaded_eq v (by rw [h1]; exact mem_swap hv (by simp))
      · simp only; rw [h2]
        simp [MutexG.live] at hw ⊢; omega
      · intro r hr; simp only at hr; rw [hnr] at hr; cases hr
      · simp only; rw [h2]; simpa using hl
    · simp at h
  | ret =>
    simp only [mutexStep] at h
    split_ifs at h with hg
    simp only [Option.some.injEq] at h
    subst h
    refine ⟨hinv.count_eq, hinv.holds_eq, hinv.loaded_eq, hinv.wg_eq, ?_, hinv.len_eq⟩
    intro r hr
    simp only [Option.some.injEq] at hr
    exact ⟨hr.symm, hg.1⟩

theorem mutexInv_exec {n : Nat} : ∀ (tr : List MutexEvent) (s s' : MutexState),
    MutexInv n s → mutexExec s tr = some s' → MutexInv n s'
  | [], s, s', hinv, h => by simp [mutexExec] at h; subst h; exact hinv
  | e :: es, s, s', hinv, h => by
    simp only [mutexExec] at h
    split at h
    · rename_i s1 h1
      exact mutexInv_exec es s1 s' (mutexInv_step hinv h1) h
    · simp at h


theorem mutexStep_measure {s s' : MutexState} {e : MutexEvent} (h : mutexStep s e = some s') :
    mutexMeasure s' + 1 ≤ mutexMeasure s := by
  cases e with
  | lock g =>
    simp only [mutexStep] at h
    split at h
    · rename_i hg
      split_ifs at h with hmu
      simp only [Option.some.injEq] at h
      subst h
      obtain ⟨l1, l2, h1, h2⟩ := Capstone.getElem?_split _ _ _ hg
      simp only [mutexMeasure]; rw [h2, h1]
      simp [MutexG.weight]; omega
    · simp at h
  | load g =>
    simp only [mutexStep] at h
    split at h
    · rename_i hg
      simp only [Option.some.injEq] at h
      subst h
      obtain ⟨l1, l2, h1, h2⟩ := Capstone.getElem?_split _ _ _ hg
      simp only [mutexMeasure]; rw [h2, h1]
      simp [MutexG.weight]; omega
    · simp at h
  | store g =>
    simp only [mutexStep] at h
    split at h
    · rename_i v hg
      simp only [Option.some.injEq] at h
      subst h
      obtain ⟨l1, l2, h1, h2⟩ := Capstone.getElem?_split _ _ _ hg
      simp only [mutexMeasure]; rw [h2, h1]
      simp [MutexG.weight]; omega
    · simp at h
  | unlock g =>
    simp only [mutexStep] at h
    split at h
    · rename_i hg
      simp only [Option.some.injEq] at h
      subst h
      obtain ⟨l1, l2, h1, h2⟩ := Capstone.getElem?_split _ _ _ hg
      simp only [mutexMeasure]; rw [h2, h1]
      simp [MutexG.weight]; omega
    · simp at h
  | wgDone g =>
    simp only [mutexStep] at h
    split at h
    · rename_i hg
      simp only [Option.some.injEq] at h
      subst h
      obtain ⟨l1, l2, h1, h2⟩ := Capstone.getElem?_split _ _ _ hg
      simp only [mutexMeasure]; rw [h2, h1]
      simp [MutexG.weight]; omega
    · simp at h
  | ret =>
    simp only [mutexStep] at h
    split_ifs at h with hg
    simp only [Option.some.injEq] at h
    subst h
    simp [mutexMeasure, hg.2]

theorem mutexExec_measure : ∀ (tr : List MutexEvent) (s s' : MutexState),
    mutexExec s tr = some s' → mutexMeasure s' + tr.length ≤ mutexMeasure s
  | [], s, s', h => by simp [mutexExec] at h; subst h; simp
  | e :: es, s, s', h => by
    simp only [mutexExec] at h
    split at h
    · rename_i s1 h1
      have := mutexExec_measure es s1 s' h
      have := mutexStep_measure h1
      simp only [List.length_cons]; omega
    · simp at h

/-- Unless `SafeCounterMutex` has returned, some event is enabled: the holder of
the mutex can go on, and when nobody holds it any goroutine that waits for it
can take it. -/
theorem mutex_progress {n : Nat} {s : MutexState} (hinv : MutexInv n s)
    (hr : s.returned = none) : ∃ e, (mutexStep s e).isSome = true := by
  by_cases h1 : MutexG.locked ∈ s.gs
  · obtain ⟨g, hg⟩ := mem_index h1
    exact ⟨.load g, by simp [mutexStep, hg]⟩
  by_cases h2 : ∃ v, MutexG.loaded v ∈ s.gs
  · obtain ⟨v, hv⟩ := h2
    obtain ⟨g, hg⟩ := mem_index hv
    exact ⟨.store g, by simp [mutexStep, hg]⟩
  by_cases h3 : MutexG.stored ∈ s.gs
  · obtain ⟨g, hg⟩ := mem_index h3
    exact ⟨.unlock g, by simp [mutexStep, hg]⟩
  by_cases h4 : MutexG.unlocked ∈ s.gs
  · obtain ⟨g, hg⟩ := mem_index h4
    exact ⟨.wgDone g, by simp [mutexStep, hg]⟩
  have hnh : ∀ g ∈ s.gs, g.holds = 0 := by
    intro g hg
    cases g with
    | locked => exact absurd hg h1
    | loaded v => exact absurd ⟨v, hg⟩ h2
    | stored => exact absurd hg h3
    | _ => rfl
  have hmu : s.mu = false := by
    have hh := hinv.holds_eq
    have h0 : (s.gs.map MutexG.holds).sum = 0 := by
      apply List.sum_eq_zero
      intro x hx
      obtain ⟨g, hg, rfl⟩ := List.mem_map.mp hx
      exact hnh g hg
    rw [h0] at hh
    cases hm : s.mu with
    | false => rfl
    | true => rw [hm] at hh; simp at hh
  by_cases h5 : MutexG.start ∈ s.gs
  · obtain ⟨g, hg⟩ := mem_index h5
    exact ⟨.lock g, by simp [mutexStep, hg, hmu]⟩
  · have hwg : s.wg = 0 := by
      rw [hinv.wg_eq]
      apply List.sum_eq_zero
      intro x hx
      obtain ⟨g, hg, rfl⟩ := List.mem_map.mp hx
      cases g with
      | start => exact absurd hg h5
      | locked => exact absurd hg h1
      | loaded v => exact absurd ⟨v, hg⟩ h2
      | stored => exact absurd hg h3
      | unlocked => exact absurd hg h4
      | done => rfl
    exact ⟨.ret, by simp [mutexStep, hwg, hr]⟩

theorem atomic_all_written : ∀ (gs : List AtomicG), (gs.map AtomicG.live).sum = 0 →
    (gs.map AtomicG.written).sum = gs.length
  | [], _ => rfl
  | g :: rest, h => by
    simp only [List.map_cons, List.sum_cons] at h ⊢
    have h1 : g.live = 0 := by omega
    have h2 : (rest.map AtomicG.live).sum = 0 := by omega
    have := atomic_all_written rest h2
    cases g <;> simp [AtomicG.live] at h1
    simp [AtomicG.written, this]; omega

theorem atomicInv_init (n : Nat) : AtomicInv n (atomicInit n) where
  count_eq := by simp [atomicInit, AtomicG.written]
  wg_eq := by simp [atomicInit, AtomicG.live]
  ret_eq := by simp [atomicInit]
  len_eq := by simp [atomicInit]

theorem atomic_not_returned {n : Nat} {s : AtomicState} (hinv : AtomicInv n s) {g : AtomicG}
    (hm : g ∈ s.gs) (hl : g.live = 1) : s.returned = none := by
  cases hr : s.returned with
  | none => rfl
  | some r =>
    have h0 := (hinv.ret_eq r hr).2
    rw [hinv.wg_eq] at h0
    have := sum_zero_mem AtomicG.live h0 g hm
    omega

theorem atomicInv_step {n : Nat} {s s' : AtomicState} {e : AtomicEvent} (hinv : AtomicInv n s)
    (h : atomicStep s e = some s') : AtomicInv n s' := by
  cases e with
  | add g =>
    simp only [atomicStep] at h
    split at h
    · rename_i hg
      simp only [Option.some.injEq] at h
      subst h
      obtain ⟨l1, l2, h1, h2⟩ := Capstone.getElem?_split _ _ _ hg
      have hnr := atomic_not_returned hinv (List.getElem?_mem hg) rfl
      have hc := hinv.count_eq
      have hw := hinv.wg_eq
      have hl := hinv.len_eq
      rw [h1] at hc hw hl
      refine ⟨?_, ?_, ?_, ?_⟩
      · simp only; rw [h2]
        simp [AtomicG.written] at hc ⊢; omega
      · simp only; rw [h2]; simpa [AtomicG.live] using hw
      · intro r hr; simp only at hr; rw [hnr] at hr; cases hr
      · simp only; rw [h2]; simpa using hl
    · simp at h
  | wgDone g =>
    simp only [atomicStep] at h
    split at h
    · rename_i hg
      simp only [Option.some.injEq] at h
      subst h
      obtain ⟨l1, l2, h1, h2⟩ := Capstone.getElem?_split _ _ _ hg
      have hnr := atomic_not_returned hinv (List.getElem?_mem hg) rfl
      have hc := hinv.count_eq
      have hw := hinv.wg_eq
      have hl := hinv.len_eq
      rw [h1] at hc hw hl
      refine ⟨?_, ?_, ?_, ?_⟩
      · simp only; rw [h2]; simpa [AtomicG.written] using hc
      · simp only; rw [h2]
        simp [AtomicG.live] at hw ⊢; omega
      · intro r hr; simp only at hr; rw [hnr] at hr; cases hr
      · simp only; rw [h2]; simpa using hl
    · simp at h
  | ret =>
    simp only [atomicStep] at h
    split_ifs at h with hg
    simp only [Option.some.injEq] at h
    subst h
    refine ⟨hinv.count_eq, hinv.wg_eq, ?_, hinv.len_eq⟩
    intro r hr
    simp only [Option.some.injEq] at hr
    exact ⟨hr.symm, hg.1⟩

theorem atomicInv_exec {n : Nat} : ∀ (tr : List AtomicEvent) (s s' : AtomicState),
    AtomicInv n s → atomicExec s tr = some s' → AtomicInv n s'
  | [], s, s', hinv, h => by simp [atomicExec] at h; subst h; exact hinv
  | e :: es, s, s', hinv, h => by
    simp only [atomicExec] at h
    split at h
    · rename_i s1 h1
      exact atomicInv_exec es s1 s' (atomicInv_step hinv h1) h
    · simp at h

theorem atomicStep_measure {s s' : AtomicState} {e : AtomicEvent}
    (h : atomicStep s e = some s') : atomicMeasure s' + 1 ≤ atomicMeasure s := by
  cases e with
  | add g =>
    simp only [atomicStep] at h
    split at h
    · rename_i hg
      simp only [Option.some.injEq] at h
      subst h
      obtain ⟨l1, l2, h1, h2⟩ := Capstone.getElem?_split _ _ _ hg
      simp only [atomicMeasure]; rw [h2, h1]
      simp [AtomicG.weight]; omega
    · simp at h
  | wgDone g =>
    simp only [atomicStep] at h
    split at h
    · rename_i hg
      simp only [Option.some.injEq] at h
      subst h
      obtain ⟨l1, l2, h1, h2⟩ := Capstone.getElem?_split _ _ _ hg
      simp only [atomicMeasure]; rw [h2, h1]
      simp [AtomicG.weight]; omega
    · simp at h
  | ret =>
    simp only [atomicStep] at h
    split_ifs at h with hg
    simp only [Option.some.injEq] at h
    subst h
    simp [atomicMeasure, hg.2]

theorem atomicExec_measure : ∀ (tr : List AtomicEvent) (s s' : AtomicState),
    atomicExec s tr = some s' → atomicMeasure s' + tr.length ≤ atomicMeasure s
  | [], s, s', h => by simp [atomicExec] at h; subst h; simp
  | e :: es, s, s', h => by
    simp only [atomicExec] at h
    split at h
    · rename_i s1 h1
      have := atomicExec_measure es s1 s' h
      have := atomicStep_measure h1
      simp only [List.length_cons]; omega
    · simp at h

theorem atomic_progress {n : Nat} {s : AtomicState} (hinv : AtomicInv n s)
    (hr : s.returned = none) : ∃ e, (atomicStep s e).isSome = true := by
  by_cases h1 : AtomicG.start ∈ s.gs
  · obtain ⟨g, hg⟩ := mem_index h1
    exact ⟨.add g, by simp [atomicStep, hg]⟩
  by_cases h2 : AtomicG.added ∈ s.gs
  · obtain ⟨g, hg⟩ := mem_index h2
    exact ⟨.wgDone g, by simp [atomicStep, hg]⟩
  have hwg : s.wg = 0 := by
    rw [hinv.wg_eq]
    apply List.sum_eq_zero
    intro x hx
    obtain ⟨g, hg, rfl⟩ := List.mem_map.mp hx
    cases g with
    | start => exact absurd hg h1
    | added => exact absurd hg h2
    | done => rfl
  exact ⟨.ret, by simp [atomicStep, hwg, hr]⟩

/-- Claim C26: for every `n >= 0`, under every interleaving of the `n`
goroutines, `SafeCounterMutex(n)` and `SafeCounterAtomic(n)` return, and they
return exactly `n`: whatever the schedule, a value returned is `n`, until the
return some event is enabled, and a schedule has at most `5 * n + 1`
(respectively `2 * n + 1`) events. -/
theorem safe_counters_return_n (n : Nat) (tr : List MutexEvent) (s : MutexState)
    (tr2 : List AtomicEvent) (s2 : AtomicState)
    (h : mutexExec (mutexInit n) tr = some s) (h2 : atomicExec (atomicInit n) tr2 = some s2) :
    ((∀ r, s.returned = some r → r = n) ∧
      (s.returned = none → ∃ e, (mutexStep s e).isSome = true) ∧
      tr.length ≤ 5 * n + 1) ∧
    ((∀ r, s2.returned = some r → r = n) ∧
      (s2.returned = none → ∃ e, (atomicStep s2 e).isSome = true) ∧
      tr2.length ≤ 2 * n + 1) := by
  have hinv := mutexInv_exec tr _ _ (mutexInv_init n) h
  have hinv2 := atomicInv_exec tr2 _ _ (atomicInv_init n) h2
  refine ⟨⟨?_, fun hr => mutex_progress hinv hr, ?_⟩, ⟨?_, fun hr => atomic_progress hinv2 hr, ?_⟩⟩
  · intro r hr
    obtain ⟨h1, h0⟩ := hinv.ret_eq r hr
    rw [hinv.wg_eq] at h0
    rw [h1, hinv.count_eq, mutex_all_written _ h0, hinv.len_eq]
  · have := mutexExec_measure tr _ _ h
    have hm : mutexMeasure (mutexInit n) = 5 * n + 1 := by
      simp [mutexMeasure, mutexInit, MutexG.weight]; omega
    omega
  · intro r hr
    obtain ⟨h1, h0⟩ := hinv2.ret_eq r hr
    rw [hinv2.wg_eq] at h0
    rw [h1, hinv2.count_eq, atomic_all_written _ h0, hinv2.len_eq]
  · have := atomicExec_measure tr2 _ _ h2
    have hm : atomicMeasure (atomicInit n) = 2 * n + 1 := by
      simp [atomicMeasure, atomicInit, AtomicG.weight]; omega
    omega

/-- Witness for C26: two goroutines; in the mutex schedule the first has to
wait for the mutex. -/
theorem safe_counters_return_n_witness :
    ((mutexExec (mutexInit 2) mutexSchedule).getD (mutexInit 2)).returned = some 2 ∧
    ((atomicExec (atomicInit 2) atomicSchedule).getD (atomicInit 2)).returned = some 2 ∧
    ((2 : Int) = (2 : Nat)) :=
  ⟨by decide, by decide,
   (safe_counters_return_n 2 mutexSchedule ((mutexExec (mutexInit 2) mutexSchedule).getD
      (mutexInit 2)) atomicSchedule ((atomicExec (atomicInit 2) atomicSchedule).getD
      (atomicInit 2)) rfl rfl).1.1 2 (by decide)⟩

end Racecase

/-! # UTF-8 safe truncation -/

namespace Textlab

theorem first_size_le (b : Nat) : first b % 8 ≤ 4 := by
  unfold first
  split_ifs <;> decide

theorem Valid_fullRune : ∀ (p : List Nat), Valid p = true → p ≠ [] → FullRune p = true
  | [], _, hne => absurd rfl hne
  | pi :: rest, h, _ => by
    rw [Valid.eq_def] at h
    simp only at h
    unfold FullRune
    simp only [List.length_cons, List.getD_cons_zero]
    by_cases hlt : pi < RuneSelf
    · have hf : first pi = 0xF0 := by
        unfold first; unfold RuneSelf at hlt; simp [hlt]
      simp [hf]
    · rw [if_neg hlt] at h
      by_cases h1 : first pi = xx
      · rw [if_pos h1] at h; cases h
      rw [if_neg h1] at h
      by_cases h2 : rest.length + 1 < first pi % 8
      · rw [if_pos h2] at h; cases h
      have : first pi % 8 ≤ rest.length + 1 := by omega
      simp [this]

theorem fullRuneLoop_le (b : List Nat) : ∀ i, fullRuneLoop b i ≤ i
  | 0 => by simp [fullRuneLoop]
  | i + 1 => by
    rw [fullRuneLoop]
    split_ifs
    · have := fullRuneLoop_le b i; omega
    · exact le_refl _

theorem fullRuneLoop_skipped (b : List Nat) : ∀ i k, fullRuneLoop b i < k → k ≤ i →
    FullRune (b.take k) = false
  | 0, k, h1, h2 => by simp [fullRuneLoop] at h1; omega
  | i + 1, k, h1, h2 => by
    rw [fullRuneLoop] at h1
    split_ifs at h1 with hf
    · by_cases hk : k = i + 1
      · subst hk; exact hf
      · exact fullRuneLoop_skipped b i k h1 (by omega)
    · omega

theorem validLoop_spec (b : List Nat) : ∀ i, ∃ j, j ≤ i ∧ validLoop b i = b.take j ∧
    Valid (b.take j) = true ∧ ∀ k, j < k → k ≤ i → Valid (b.take k) = false
  | 0 => ⟨0, le_refl _, rfl, by simp [Valid], fun k h1 h2 => by omega⟩
  | i + 1 => by
    rw [validLoop]
    by_cases hv : Valid (b.take (i + 1)) = false
    · rw [if_pos hv]
      by_cases hi : i = 0
      · subst hi
        refine ⟨0, by omega, by simp, by simp [Valid], ?_⟩
        intro k h1 h2
        have : k = 1 := by omega
        subst this; exact hv
      · rw [if_neg hi]
        obtain ⟨j, hj, he, hval, hmax⟩ := validLoop_spec b i
        refine ⟨j, by omega, he, hval, ?_⟩
        intro k h1 h2
        by_cases hk : k = i + 1
        · subst hk; exact hv
        · exact hmax k h1 (by omega)
    · rw [if_neg hv]
      refine ⟨i + 1, le_refl _, rfl, by simpa using hv, ?_⟩
      intro k h1 h2; omega

theorem Valid_append_aux : ∀ (n : Nat) (a b : List Nat), a.length ≤ n → Valid a = true →
    Valid (a ++ b) = Valid b
  | _, [], b, _, _ => by simp
  | 0, pi :: rest, b, hl, _ => by simp at hl
  | n + 1, pi :: rest, b, hl, h => by
    have IH : ∀ r : List Nat, r.length ≤ n → Valid r = true → Valid (r ++ b) = Valid b :=
      fun r hr hv => Valid_append_aux n r b hr hv
    simp only [List.length_cons] at hl
    rw [Valid.eq_def] at h
    conv_lhs => rw [Valid.eq_def]
    simp only [List.cons_append] at h ⊢
    by_cases hlt : pi < RuneSelf
    · rw [if_pos hlt] at h ⊢
      exact IH rest (by omega) h
    · rw [if_neg hlt] at h ⊢
      by_cases h1 : first pi = xx
      · rw [if_pos h1] at h; cases h
      rw [if_neg h1] at h ⊢
      by_cases h2 : rest.length + 1 < first pi % 8
      · rw [if_pos h2] at h; cases h
      have h2' : ¬ (rest ++ b).length + 1 < first pi % 8 := by
        simp only [List.length_append]; omega
      rw [if_neg h2] at h
      rw [if_neg h2']
      rcases rest with _ | ⟨c1, _ | ⟨c2, _ | ⟨c3, r3⟩⟩⟩
      · simp at h
      all_goals
        simp only [List.length_cons, List.length_nil] at hl h2
        simp only [List.nil_append, List.cons_append] at h ⊢
        split_ifs at h ⊢
      all_goals
        first
        | rfl
        | exact IH _ (by first | omega | (simp only [List.length_cons, List.length_nil]; omega)) h

theorem Valid_drop (s : List Nat) (j : Nat) (hs : Valid s = true) (hj : Valid (s.take j) = true) :
    Valid (s.drop j) = true := by
  have h := Valid_append_aux (s.take j).length (s.take j) (s.drop j) (le_refl _) hj
  rw [List.take_append_drop] at h
  rw [← h]; exact hs

/-- The result of `truncateUTF8Bytes` as a prefix length: with `m` the byte
budget (0 for a negative `maxBytes`), the result is `s.take j` for the largest
`j ≤ m` for which `s.take j` is valid. -/
theorem truncateUTF8Bytes_take (s : List Nat) (maxBytes : Int) (hs : Valid s = true) :
    ∃ j, j ≤ maxBytes.toNat ∧ j ≤ s.length ∧ truncateUTF8Bytes s maxBytes = s.take j ∧
      Valid (s.take j) = true ∧
      ∀ k, j < k → k ≤ maxBytes.toNat → k ≤ s.length → Valid (s.take k) = false := by
  unfold truncateUTF8Bytes
  by_cases h0 : maxBytes ≤ 0
  · rw [if_pos h0]
    refine ⟨0, by omega, by omega, by simp, by simp [Valid], ?_⟩
    intro k h1 h2 h3; omega
  rw [if_neg h0]
  by_cases h1 : (s.length : Int) ≤ maxBytes
  · rw [if_pos h1]
    refine ⟨s.length, by omega, le_refl _, by simp, by simpa using hs, ?_⟩
    intro k h1 h2 h3; omega
  rw [if_neg h1]
  have hskip := fullRuneLoop_skipped s maxBytes.toNat
  have hle := fullRuneLoop_le s maxBytes.toNat
  have hfull : ∀ k, fullRuneLoop s maxBytes.toNat < k → k ≤ maxBytes.toNat →
      Valid (s.take k) = false := by
    intro k hk1 hk2
    cases hv : Valid (s.take k) with
    | false => rfl
    | true =>
      have hne : s.take k ≠ [] := by
        intro he
        have := congrArg List.length he
        simp only [List.length_take, List.length_nil] at this
        omega
      have := Valid_fullRune _ hv hne
      rw [hskip k hk1 hk2] at this
      cases this
  simp only
  by_cases hi : fullRuneLoop s maxBytes.toNat = 0
  · rw [if_pos hi]
    refine ⟨0, by omega, by omega, by simp, by simp [Valid], ?_⟩
    intro k hk1 hk2 _
    exact hfull k (by omega) hk2
  · rw [if_neg hi]
    obtain ⟨j, hj, he, hval, hmax⟩ := validLoop_spec s (fullRuneLoop s maxBytes.toNat)
    refine ⟨j, by omega, by omega, he, hval, ?_⟩
    intro k hk1 hk2 _
    by_cases hk : k ≤ fullRuneLoop s maxBytes.toNat
    · exact hmax k hk1 hk
    · exact hfull k (by omega) hk2

/-- Claim C27 (amended): for every valid UTF-8 string `s` and every integer
`maxBytes`, `truncateUTF8Bytes(s, maxBytes)` (a total function: both loops count
`i` down) returns a prefix of `s` that is valid UTF-8, after which the rest of
`s` is valid too (no rune is cut), that has at most `maxBytes` bytes when
`maxBytes >= 0`, and that is at least as long as every valid prefix of `s` of
at most `maxBytes` bytes; it returns `s` itself when `len(s) <= maxBytes` and
the empty string when `maxBytes <= 0`. -/
theorem truncateUTF8Bytes_longest_valid (s : List Nat) (maxBytes : Int)
    (hs : Valid s = true) :
    truncateUTF8Bytes s maxBytes <+: s ∧
    Valid (truncateUTF8Bytes s maxBytes) = true ∧
    Valid (s.drop (truncateUTF8Bytes s maxBytes).length) = true ∧
    (0 ≤ maxBytes → ((truncateUTF8Bytes s maxBytes).length : Int) ≤ maxBytes) ∧
    (∀ p : List Nat, p <+: s → Valid p = true → (p.length : Int) ≤ maxBytes →
      p.length ≤ (truncateUTF8Bytes s maxBytes).length) ∧
    ((s.length : Int) ≤ maxBytes → truncateUTF8Bytes s maxBytes = s) ∧
    (maxBytes ≤ 0 → truncateUTF8Bytes s maxBytes = []) := by
  obtain ⟨j, hj, hjs, he, hval, hmax⟩ := truncateUTF8Bytes_take s maxBytes hs
  have hlen : (truncateUTF8Bytes s maxBytes).length = j := by
    rw [he, List.length_take]; omega
  refine ⟨?_, ?_, ?_, ?_, ?_, ?_, ?_⟩
  · rw [he]; exact ⟨s.drop j, List.take_append_drop j s⟩
  · rw [he]; exact hval
  · rw [hlen]; exact Valid_drop s j hs hval
  · intro h0; rw [hlen]; omega
  · intro p hp hv hpl
    rw [hlen]
    by_contra hlt
    have hps : p.length ≤ s.length := hp.length_le
    have hpe : p = s.take p.length := by
      obtain ⟨t, ht⟩ := hp
      rw [← ht]; simp
    have := hmax p.length (by omega) (by omega) hps
    rw [← hpe, hv] at this
    cases this
  · intro h
    unfold truncateUTF8Bytes
    by_cases h0 : maxBytes ≤ 0
    · rw [if_pos h0]
      have : s.length = 0 := by omega
      exact (List.length_eq_zero.mp this).symm
    · rw [if_neg h0, if_pos h]
  · intro h0
    unfold truncateUTF8Bytes
    rw [if_pos h0]

/-- Witness for C27: the string of `demoSafeTruncate` cut at 10 bytes keeps the
9 bytes of `"Go 语言"`; byte 10 would be the first byte of `真`. -/
theorem truncateUTF8Bytes_longest_valid_witness :
    Valid sampleBytes = true ∧
    truncateUTF8Bytes sampleBytes 10 = [0x47, 0x6F, 0x20, 0xE8, 0xAF, 0xAD, 0xE8, 0xA8, 0x80] ∧
    Valid (truncateUTF8Bytes sampleBytes 10) = true :=
  ⟨by decide, by decide, (truncateUTF8Bytes_longest_valid sampleBytes 10 (by decide)).2.1⟩

/-- Counterexample for C27 as stated: with `maxBytes = -1` the result is the
empty string, whose 0 bytes are more than `maxBytes`; no prefix has at most
`-1` bytes. -/
theorem truncateUTF8Bytes_negative_counterexample :
    Valid [] = true ∧ truncateUTF8Bytes [] (-1) = [] ∧
    ¬ (((truncateUTF8Bytes [] (-1)).length : Int) ≤ -1) := by
  decide

end Textlab
